import Mathlib

/-!
# Closeness centrality by batched bit-parallel BFS (`ccv.cpp`)

A shallow embedding of `create_diagonal_bit_matrix` and `compute_ccv` together with the
GraphBLAS operations they call, each with the semantics of the GraphBLAS C API for the
arguments used here.  Sparse matrices and vectors are modelled by their dimensions and a
partial cell function; unsigned 64-bit arithmetic is arithmetic on `Nat` reduced modulo
`2 ^ 64`.  The global `GlobalNThreads`, the `NDEBUG` setting and the vertex reordering of
`LAGraph_reorder_vertices` are parameters of the model.
-/

namespace CCV

/-! ## Sparse containers -/

/-- Sparse matrix: dimensions and the stored entries (`none` = no entry). -/
structure GrB_Matrix where
  nrows : Nat
  ncols : Nat
  cell : Nat → Nat → Option Nat

/-- Sparse vector: size and the stored entries. -/
structure GrB_Vector where
  size : Nat
  entry : Nat → Option Nat

/-- Operands of one `GrB_DIV_FP64` division: the two unsigned integers that are cast to
double and divided.  The quotient itself is an IEEE double and is not evaluated here. -/
structure FP64_Div where
  num : Nat
  den : Nat
deriving DecidableEq, Repr

/-- Sparse vector of type `GrB_FP64` as produced by the final division. -/
structure GrB_Vector_FP64 where
  size : Nat
  entry : Nat → Option FP64_Div

/-- Exact quotient of the operands of a division. -/
def FP64_Div.quotient (q : FP64_Div) : ℚ := (q.num : ℚ) / (q.den : ℚ)

/-- Modelled from the spec: the wrapper `ok (...)` around every GraphBLAS call is not part
of `ccv.cpp`; a primitive failure ends the whole computation (section 7 of the
specification), and so does a failed `assert`.  These are the failures that can occur. -/
inductive Failure where
  | assertion_failed
  | GrB_DIMENSION_MISMATCH
  | GrB_OUTPUT_NOT_EMPTY
  | GrB_INDEX_OUT_OF_BOUNDS
deriving DecidableEq, Repr

/-- In-range read of a matrix entry (`GrB_Matrix_extractElement`). -/
def GrB_Matrix.get (M : GrB_Matrix) (i j : Nat) : Option Nat :=
  if i < M.nrows ∧ j < M.ncols then M.cell i j else none

/-- In-range read of a vector entry (`GrB_Vector_extractElement`). -/
def GrB_Vector.get (v : GrB_Vector) (i : Nat) : Option Nat :=
  if i < v.size then v.entry i else none

/-- In-range read of a result entry. -/
def GrB_Vector_FP64.get (v : GrB_Vector_FP64) (i : Nat) : Option FP64_Div :=
  if i < v.size then v.entry i else none

/-! ## Scalar operators on `uint64_t` -/

def GrB_BOR_UINT64 (x y : Nat) : Nat := x ||| y

def GrB_BAND_UINT64 (x y : Nat) : Nat := x &&& y

def GrB_BNOT_UINT64 (x : Nat) : Nat := 2 ^ 64 - (x % 2 ^ 64 + 1)

def GrB_PLUS_UINT64 (x y : Nat) : Nat := (x + y) % 2 ^ 64

def GrB_MINUS_UINT64 (x y : Nat) : Nat := (x % 2 ^ 64 + (2 ^ 64 - y % 2 ^ 64)) % 2 ^ 64

def GrB_TIMES_UINT64 (x y : Nat) : Nat := (x * y) % 2 ^ 64

def GrB_FIRST_UINT64 (x _y : Nat) : Nat := x

def GrB_SECOND_UINT64 (_x y : Nat) : Nat := y

/-- Number of set bits among the 64 bits of a word (`__builtin_popcountll`). -/
def popcountll (x : Nat) : Nat := (List.range 64).countP (fun k => x.testBit k)

/-- The unary operator registered as `op_popcount`. -/
def fun_sum_popcount (x : Nat) : Nat := popcountll x

/-! ## GraphBLAS primitives -/

/-- Reduction of a list of values by a monoid operator; an empty list gives no entry. -/
def reduce_list (add : Nat → Nat → Nat) : List Nat → Option Nat
  | [] => none
  | x :: xs => some (xs.foldl add x)

/-- Write-back step shared by all operations: `Z = accum (C, T)` (or `T` without
accumulator), then `C<M> = Z`, with `m = none` for a missing mask and `replace` for
`GrB_REPLACE`. -/
def write_back (c : Option Nat) (m : Option Bool) (accum : Option (Nat → Nat → Nat))
    (t : Option Nat) (replace : Bool) : Option Nat :=
  let z : Option Nat :=
    match accum with
    | none => t
    | some f =>
      match c, t with
      | some x, some y => some (f x y)
      | some x, none => some x
      | none, some y => some y
      | none, none => none
  match m with
  | none => z
  | some true => z
  | some false => if replace then none else c

/-- Value mask: an entry is selected when it is stored and non-zero. -/
def value_mask (M : GrB_Matrix) (i j : Nat) : Bool :=
  match M.get i j with
  | some x => x != 0
  | none => false

/-- Structural mask of a vector (`GrB_DESC_S`): an entry is selected when it is stored. -/
def structural_mask (m : GrB_Vector) (i : Nat) : Bool := (m.get i).isSome

def GrB_Matrix_new (nrows ncols : Nat) : GrB_Matrix :=
  { nrows := nrows, ncols := ncols, cell := fun _ _ => none }

def GrB_Vector_new (n : Nat) : GrB_Vector :=
  { size := n, entry := fun _ => none }

def GrB_Matrix_dup (A : GrB_Matrix) : GrB_Matrix := A

/-- Number of stored entries. -/
def GrB_Matrix_nvals (A : GrB_Matrix) : Nat :=
  ((List.range A.nrows).map
    (fun i => (List.range A.ncols).countP (fun j => (A.cell i j).isSome))).sum

/-- Build of a matrix from `nvals` tuples `(I k, J k, X k)`; tuples at one position are
combined with `dup` in index order.  Fails on a non-empty output or an index out of
range. -/
def GrB_Matrix_build_UINT64 (C : GrB_Matrix) (I J X : Nat → Nat) (nvals : Nat)
    (dup : Nat → Nat → Nat) : Except Failure GrB_Matrix :=
  if GrB_Matrix_nvals C ≠ 0 then .error Failure.GrB_OUTPUT_NOT_EMPTY
  else if (List.range nvals).any (fun k => decide (C.nrows ≤ I k) || decide (C.ncols ≤ J k)) then
    .error Failure.GrB_INDEX_OUT_OF_BOUNDS
  else
    .ok { nrows := C.nrows, ncols := C.ncols,
          cell := fun i j =>
            reduce_list dup
              (((List.range nvals).filter (fun k => decide (I k = i) && decide (J k = j))).map X) }

/-- Assignment `w(GrB_ALL) = x` of a scalar to every index (no mask, no accumulator). -/
def GrB_Vector_assign_UINT64 (w : GrB_Vector) (x : Nat) : GrB_Vector :=
  { size := w.size, entry := fun i => if i < w.size then some x else none }

/-- Subassignment `w(GrB_ALL)<mask> = x` with a structural mask and no replace. -/
def GxB_Vector_subassign_UINT64 (w : GrB_Vector) (mask : GrB_Vector) (x : Nat) : GrB_Vector :=
  { size := w.size,
    entry := fun i =>
      if i < w.size then write_back (w.get i) (some (structural_mask mask i)) none (some x) false
      else none }

/-- Combination of two optional entries on the union of the patterns. -/
def union_op (op : Nat → Nat → Nat) : Option Nat → Option Nat → Option Nat
  | some x, some y => some (op x y)
  | some x, none => some x
  | none, some y => some y
  | none, none => none

/-- Combination of two optional entries on the intersection of the patterns. -/
def intersect_op (op : Nat → Nat → Nat) : Option Nat → Option Nat → Option Nat
  | some x, some y => some (op x y)
  | _, _ => none

/-- Elementwise `w = u (+) v` on the union pattern (no mask, no accumulator). -/
def GrB_Vector_eWiseAdd_BinaryOp (w : GrB_Vector) (op : Nat → Nat → Nat) (u v : GrB_Vector) :
    GrB_Vector :=
  { size := w.size,
    entry := fun i => if i < w.size then union_op op (u.get i) (v.get i) else none }

/-- Elementwise `w = u (x) v` on the intersection pattern (no mask, no accumulator). -/
def GrB_Vector_eWiseMult_BinaryOp (w : GrB_Vector) (op : Nat → Nat → Nat) (u v : GrB_Vector) :
    GrB_Vector :=
  { size := w.size,
    entry := fun i => if i < w.size then intersect_op op (u.get i) (v.get i) else none }

/-- Elementwise `GrB_DIV_FP64` on the intersection pattern, into a vector of doubles. -/
def GrB_Vector_eWiseMult_DIV_FP64 (w : GrB_Vector_FP64) (u v : GrB_Vector) : GrB_Vector_FP64 :=
  { size := w.size,
    entry := fun i =>
      if i < w.size then
        match u.get i, v.get i with
        | some x, some y => some { num := x, den := y }
        | _, _ => none
      else none }

/-- Elementwise `C = A (+) B` on the union pattern (no mask, no accumulator). -/
def GrB_Matrix_eWiseAdd_BinaryOp (C : GrB_Matrix) (op : Nat → Nat → Nat) (A B : GrB_Matrix) :
    GrB_Matrix :=
  { nrows := C.nrows, ncols := C.ncols,
    cell := fun i j =>
      if i < C.nrows ∧ j < C.ncols then union_op op (A.get i j) (B.get i j) else none }

/-- Entrywise `C<Mask> = accum (C, op A)` with an optional value mask and accumulator and
the default descriptor (no replace). -/
def GrB_Matrix_apply (C : GrB_Matrix) (Mask : Option GrB_Matrix)
    (accum : Option (Nat → Nat → Nat)) (op : Nat → Nat) (A : GrB_Matrix) : GrB_Matrix :=
  { nrows := C.nrows, ncols := C.ncols,
    cell := fun i j =>
      if i < C.nrows ∧ j < C.ncols then
        write_back (C.get i j) (Mask.map (fun M => value_mask M i j)) accum
          ((A.get i j).map op) false
      else none }

/-- Selection `C = select (GxB_NONZERO, A)`: keeps the entries whose value is not zero. -/
def GxB_Matrix_select_NONZERO (C : GrB_Matrix) (A : GrB_Matrix) : GrB_Matrix :=
  { nrows := C.nrows, ncols := C.ncols,
    cell := fun i j =>
      if i < C.nrows ∧ j < C.ncols then (A.get i j).filter (fun x => x != 0) else none }

/-- Reduction `w = reduce (monoid, A')` with `GrB_DESC_T0`: entry `j` of the result combines
the stored entries of column `j`; a column without entries gives no entry. -/
def GrB_Matrix_reduce_Monoid_T0 (w : GrB_Vector) (add : Nat → Nat → Nat) (A : GrB_Matrix) :
    GrB_Vector :=
  { size := w.size,
    entry := fun j =>
      if j < w.size then reduce_list add ((List.range A.nrows).filterMap (fun i => A.get i j))
      else none }

/-- Matrix product `C = A * B` over the semiring `(add, mul)` with `GrB_DESC_R`, no mask and
no accumulator: entry `(i, j)` combines `mul (A i k) (B k j)` over the `k` stored in both
operands.  Fails when the dimensions do not agree. -/
def GrB_mxm (C : GrB_Matrix) (add mul : Nat → Nat → Nat) (A B : GrB_Matrix) :
    Except Failure GrB_Matrix :=
  if C.nrows = A.nrows ∧ C.ncols = B.ncols ∧ A.ncols = B.nrows then
    .ok { nrows := C.nrows, ncols := C.ncols,
          cell := fun i j =>
            if i < C.nrows ∧ j < C.ncols then
              write_back (C.get i j) none none
                (reduce_list add ((List.range A.ncols).filterMap (fun k =>
                  match A.get i k, B.get k j with
                  | some x, some y => some (mul x y)
                  | _, _ => none))) true
            else none }
  else .error Failure.GrB_DIMENSION_MISMATCH

/-! ## `create_diagonal_bit_matrix` -/

/-- Value of `1L << e` converted to `uint64_t`: the shift is done on a signed 64-bit
`long` (wrapping into the sign bit for `e = 63`) and the result is converted to unsigned. -/
def shl_one_long (e : Nat) : Nat :=
  ((((1 : Int) * 2 ^ e + 2 ^ 63) % 2 ^ 64 - 2 ^ 63) % 2 ^ 64).toNat

/-- Thread count used by the fill loop: `min<size_t>(n / 4096, GlobalNThreads)` stored in
an `int`, then raised to at least one. -/
def fill_nthreads (GlobalNThreads : Int) (n : Nat) : Nat :=
  let m : Nat := min (n / 4096) (GlobalNThreads % 2 ^ 64).toNat
  let as_int : Int := ((m : Int) + 2 ^ 31) % 2 ^ 32 - 2 ^ 31
  (max as_int 1).toNat

/-- Iterations of `0 .. n-1` given to thread `t` of `nthreads` by the static schedule:
contiguous blocks of `ceil (n / nthreads)` iterations. -/
def static_chunk (n nthreads t : Nat) : List Nat :=
  let c := (n + nthreads - 1) / nthreads
  List.range' (t * c) (min c (n - t * c))

/-- The three tuple arrays `I`, `J`, `X`. -/
structure TupleArrays where
  I : Nat → Nat
  J : Nat → Nat
  X : Nat → Nat

/-- Body of the fill loop for index `k`. -/
def fill_body (arr : TupleArrays) (k : Nat) : TupleArrays :=
  { I := Function.update arr.I k (k / 64),
    J := Function.update arr.J k k,
    X := Function.update arr.X k (shl_one_long (k % 64)) }

/-- The `omp parallel for` over `k < n`: every thread runs the body on its chunk.  The
arrays come from `new[]`; their initial contents are never read and are taken as zero. -/
def fill_arrays (nthreads n : Nat) : TupleArrays :=
  (List.range nthreads).foldl
    (fun arr t => (static_chunk n nthreads t).foldl fill_body arr)
    { I := fun _ => 0, J := fun _ => 0, X := fun _ => 0 }

/-- Model of `create_diagonal_bit_matrix (D)`; `ndebug` tells whether `NDEBUG` is defined
(assertions compiled out). -/
def create_diagonal_bit_matrix (ndebug : Bool) (GlobalNThreads : Int) (D : GrB_Matrix) :
    Except Failure GrB_Matrix :=
  let n := D.ncols
  if !ndebug && decide (D.nrows ≠ ((n + 63) % 2 ^ 64) / 64) then
    .error Failure.assertion_failed
  else
    let arr := fill_arrays (fill_nthreads GlobalNThreads n) n
    GrB_Matrix_build_UINT64 D arr.I arr.J arr.X n GrB_BOR_UINT64

/-! ## `compute_ccv` -/

/-- Variables of `compute_ccv` that the traversal loop reads or writes, with two counters
that record how the loop ran. -/
structure LoopState where
  frontier : GrB_Matrix
  next : GrB_Matrix
  Next_PopCount : GrB_Matrix
  seen : GrB_Matrix
  next_popcount : GrB_Vector
  level_v : GrB_Vector
  sp : GrB_Vector
  push : Bool
  r_before : ℚ
  frontier_nvals : Nat
  /-- Iterations that ran to the end of the loop body. -/
  levels_done : Nat
  /-- Whether the loop was left through `break`. -/
  left_by_break : Bool

/-- Expansion, line 153: `next = frontier * A` over `(BOR, FIRST)` with `GrB_DESC_R`. -/
def expansion (next frontier A : GrB_Matrix) : Except Failure GrB_Matrix :=
  GrB_mxm next GrB_BOR_UINT64 GrB_FIRST_UINT64 frontier A

/-- Revisit masking, lines 182-183: `next<next> &= ~seen`, then the non-zero select. -/
def revisit_masking (next seen : GrB_Matrix) : GrB_Matrix :=
  let masked := GrB_Matrix_apply next (some next) (some GrB_BAND_UINT64) GrB_BNOT_UINT64 seen
  GxB_Matrix_select_NONZERO masked masked

/-- Popcount reduction, lines 193-195 and 227-228: entrywise popcount into `P`, then the
column sums into `w`. -/
def popcount_reduce (P : GrB_Matrix) (w : GrB_Vector) (M : GrB_Matrix) :
    GrB_Matrix × GrB_Vector :=
  let P1 := GrB_Matrix_apply P none none fun_sum_popcount M
  (P1, GrB_Matrix_reduce_Monoid_T0 w GrB_PLUS_UINT64 P1)

/-- Density of the frontier as computed for the heuristic (the `float` quotient is taken
exactly). -/
def density (frontier_nvals matrix_nrows source_nrows : Nat) : ℚ :=
  (frontier_nvals : ℚ) / (((matrix_nrows * source_nrows) % 2 ^ 64 : Nat) : ℚ)

/-- One pass through the body of the traversal loop, lines 148-224, at level `level`. -/
def level_iteration (A : GrB_Matrix) (ones : GrB_Vector) (threshold : ℚ)
    (matrix_nrows source_nrows : Nat) (level : Nat) (st : LoopState) : Except Failure LoopState :=
  let level_v := GrB_Vector_eWiseAdd_BinaryOp st.level_v GrB_PLUS_UINT64 st.level_v ones
  match expansion st.next st.frontier A with
  | .error e => .error e
  | .ok expanded =>
    let next := revisit_masking expanded st.seen
    let next_nvals := GrB_Matrix_nvals next
    if next_nvals = 0 then
      .ok { st with level_v := level_v, next := next, left_by_break := true }
    else
      let pr := popcount_reduce st.Next_PopCount st.next_popcount next
      let seen := GrB_Matrix_eWiseAdd_BinaryOp st.seen GrB_BOR_UINT64 st.seen next
      let level_v1 := GxB_Vector_subassign_UINT64 level_v pr.2 level
      let next_popcount :=
        GrB_Vector_eWiseMult_BinaryOp pr.2 GrB_TIMES_UINT64 pr.2 level_v1
      let sp := GrB_Vector_eWiseAdd_BinaryOp st.sp GrB_PLUS_UINT64 st.sp next_popcount
      let frontier := GrB_Matrix_dup next
      let frontier_nvals := GrB_Matrix_nvals frontier
      let r := density frontier_nvals matrix_nrows source_nrows
      let push1 := if r > st.r_before ∧ r > threshold then false else st.push
      let push2 := if r < st.r_before ∧ r < threshold then true else push1
      .ok { frontier := frontier, next := next, Next_PopCount := pr.1, seen := seen,
            next_popcount := next_popcount, level_v := level_v1, sp := sp,
            push := push2, r_before := r, frontier_nvals := frontier_nvals,
            levels_done := st.levels_done + 1, left_by_break := false }

/-- The loop `for (level = start; level < n; level++)` with `remaining = n - start`
iterations left; it stops early on `break`. -/
def traversal (A : GrB_Matrix) (ones : GrB_Vector) (threshold : ℚ)
    (matrix_nrows source_nrows : Nat) : Nat → Nat → LoopState → Except Failure LoopState
  | 0, _, st => .ok st
  | remaining + 1, level, st =>
    match level_iteration A ones threshold matrix_nrows source_nrows level st with
    | .error e => .error e
    | .ok st1 =>
      if st1.left_by_break then .ok st1
      else traversal A ones threshold matrix_nrows source_nrows remaining (level + 1) st1

/-- Everything `compute_ccv` has computed when it returns. -/
structure Run where
  /-- Number of vertices, `nrows` of the input. -/
  n : Nat
  /-- State of the loop variables after the traversal. -/
  final : LoopState
  /-- Vector `compsize` right after the reduction of line 228. -/
  compsize_reduced : GrB_Vector
  /-- Vector `compsize` after `C(p) - 1`. -/
  compsize_minus_one : GrB_Vector
  /-- Vector `compsize` after squaring. -/
  compsize_squared : GrB_Vector
  /-- Vector `n_minus_one`. -/
  n_minus_one : GrB_Vector
  /-- Vector `sp` after the multiplication by `n_minus_one`. -/
  sp_scaled : GrB_Vector
  ccv_result : GrB_Vector_FP64
  mapping : Nat → Nat

/-- The input check of line 99, `assert(n == ncols)`; it is compiled only when `NDEBUG`
is not defined. -/
def input_check (ndebug : Bool) (A : GrB_Matrix) : Except Failure Unit :=
  if !ndebug && decide (A.nrows ≠ A.ncols) then .error Failure.assertion_failed else .ok ()

/-- Lines 94-138 of `compute_ccv`: input check, allocation of the matrices and vectors,
diagonal frontier, `seen` as its copy and the first density; gives the loop variables as
they are when the traversal starts. -/
def loop_entry (ndebug : Bool) (GlobalNThreads : Int) (push : Bool) (A : GrB_Matrix) :
    Except Failure LoopState :=
  let n := A.nrows
  match input_check ndebug A with
  | .error e => .error e
  | .ok _ =>
    let bit_matrix_ncols := ((n + 63) % 2 ^ 64) / 64
    let frontier0 := GrB_Matrix_new bit_matrix_ncols n
    let next := GrB_Matrix_new bit_matrix_ncols n
    let Next_PopCount := GrB_Matrix_new bit_matrix_ncols n
    let next_popcount := GrB_Vector_new n
    let level_v := GrB_Vector_new n
    let sp := GrB_Vector_new n
    match create_diagonal_bit_matrix ndebug GlobalNThreads frontier0 with
    | .error e => .error e
    | .ok frontier =>
      let seen := GrB_Matrix_dup frontier
      let frontier_nvals := GrB_Matrix_nvals frontier
      let matrix_nrows := A.nrows
      let source_nrows := A.nrows
      let r_before := density frontier_nvals matrix_nrows source_nrows
      .ok { frontier := frontier, next := next, Next_PopCount := Next_PopCount, seen := seen,
            next_popcount := next_popcount, level_v := level_v, sp := sp, push := push,
            r_before := r_before, frontier_nvals := frontier_nvals,
            levels_done := 0, left_by_break := false }

/-- Lines 226-249 of `compute_ccv`: component sizes from the final `seen`, then the
elementwise arithmetic of the closeness formula. -/
def finalizer (n : Nat) (mapping : Nat → Nat) (final : LoopState) : Run :=
  let bit_matrix_ncols := ((n + 63) % 2 ^ 64) / 64
  let Seen_PopCount := GrB_Matrix_new bit_matrix_ncols n
  let compsize := GrB_Vector_new n
  let ccv_result : GrB_Vector_FP64 := { size := n, entry := fun _ => none }
  let ones := GrB_Vector_assign_UINT64 (GrB_Vector_new n) 1
  let n_minus_one :=
    GrB_Vector_assign_UINT64 (GrB_Vector_new n) ((n + (2 ^ 64 - 1)) % 2 ^ 64)
  let cs := (popcount_reduce Seen_PopCount compsize final.seen).2
  let cs1 := GrB_Vector_eWiseAdd_BinaryOp cs GrB_MINUS_UINT64 cs ones
  let cs2 := GrB_Vector_eWiseMult_BinaryOp cs1 GrB_TIMES_UINT64 cs1 cs1
  let sp1 := GrB_Vector_eWiseMult_BinaryOp final.sp GrB_TIMES_UINT64 n_minus_one final.sp
  let res := GrB_Vector_eWiseMult_DIV_FP64 ccv_result cs2 sp1
  { n := n, final := final, compsize_reduced := cs, compsize_minus_one := cs1,
    compsize_squared := cs2, n_minus_one := n_minus_one, sp_scaled := sp1,
    ccv_result := res, mapping := mapping }

/-- Model of `compute_ccv (A)`, keeping the intermediate values.  `reorder` stands for
`LAGraph_reorder_vertices (&C, &mapping, A, false)`, `threshold` and `push` for the two
initial values of the heuristic (0.015 and `true` in the source). -/
def compute_ccv_run (ndebug : Bool) (GlobalNThreads : Int)
    (reorder : GrB_Matrix → GrB_Matrix × (Nat → Nat)) (threshold : ℚ) (push : Bool)
    (A : GrB_Matrix) : Except Failure Run :=
  let n := A.nrows
  match loop_entry ndebug GlobalNThreads push A with
  | .error e => .error e
  | .ok st0 =>
    let ones := GrB_Vector_assign_UINT64 (GrB_Vector_new n) 1
    let matrix_nrows := A.nrows
    let source_nrows := A.nrows
    let reordered := reorder A
    let C := reordered.1
    let mapping := reordered.2
    match traversal C ones threshold matrix_nrows source_nrows (n - 1) 1 st0 with
    | .error e => .error e
    | .ok final => .ok (finalizer n mapping final)

/-- What `compute_ccv (A)` returns: the result vector and the mapping. -/
def compute_ccv (ndebug : Bool) (GlobalNThreads : Int)
    (reorder : GrB_Matrix → GrB_Matrix × (Nat → Nat)) (threshold : ℚ) (push : Bool)
    (A : GrB_Matrix) : Except Failure (GrB_Vector_FP64 × (Nat → Nat)) :=
  match compute_ccv_run ndebug GlobalNThreads reorder threshold push A with
  | .error e => .error e
  | .ok run => .ok (run.ccv_result, run.mapping)

/-- The matrix that `create_diagonal_bit_matrix` builds for `n` columns. -/
def diagonal_bit_matrix (n : Nat) : GrB_Matrix :=
  { nrows := (n + 63) / 64, ncols := n,
    cell := fun i j => if j < n ∧ j / 64 = i then some (2 ^ (j % 64)) else none }

/-! ## Reading the bit matrices -/

/-- Bit of traversal source `s` at vertex `j`: bit `s mod 64` of the word stored in cell
`(s / 64, j)`; a cell that is not stored counts as the zero word. -/
def source_bit (M : GrB_Matrix) (s j : Nat) : Bool :=
  ((M.get (s / 64) j).getD 0).testBit (s % 64)

/-- Adjacency relation of a matrix: `edge A i j` holds when `A` stores an entry at
`(i, j)`, whatever its value. -/
def edge (A : GrB_Matrix) (i j : Nat) : Bool := (A.get i j).isSome

/-- Symmetry of the adjacency relation on the vertices `0 .. n-1`. -/
def Symmetric (adj : Nat → Nat → Bool) (n : Nat) : Prop :=
  ∀ i, i < n → ∀ j, j < n → adj i j = adj j i

/-- Modelled from the spec: `LAGraph_reorder_vertices` is an external collaborator
(section 6 of the specification).  Its contract: `C` has the dimensions of `A`, `mapping`
is a permutation of `0 .. n-1` (original index to reordered index) and `C` stores an entry
at `(mapping i, mapping j)` exactly when `A` stores one at `(i, j)`. -/
def IsReordering (A C : GrB_Matrix) (mapping : Nat → Nat) : Prop :=
  C.nrows = A.nrows ∧ C.ncols = A.ncols ∧
  (∀ i, i < A.nrows → mapping i < A.nrows) ∧
  (∀ i, i < A.nrows → ∀ j, j < A.nrows → mapping i = mapping j → i = j) ∧
  (∀ i, i < A.nrows → ∀ j, j < A.nrows → edge C (mapping i) (mapping j) = edge A i j)

/-! ## Reference: independent single-source BFS and the classical formula -/

/-- One round of a single-source BFS: a vertex `t` without a distance label that has an edge
from some vertex labelled `d` receives the label `d + 1`; labels already given stay. -/
def bfs_round (adj : Nat → Nat → Bool) (n d : Nat) (dist : Nat → Option Nat) (t : Nat) :
    Option Nat :=
  match dist t with
  | some x => some x
  | none =>
    if decide (t < n) && (List.range n).any (fun u => (dist u == some d) && adj u t) then
      some (d + 1)
    else none

/-- Distance labels after `r` rounds of the BFS from source `p`. -/
def bfs_rounds (adj : Nat → Nat → Bool) (n p : Nat) : Nat → Nat → Option Nat
  | 0 => fun t => if t = p then some 0 else none
  | r + 1 => bfs_round adj n r (bfs_rounds adj n p r)

/-- Single-source BFS from `p` on the vertices `0 .. n-1`, run for `n` rounds: the distance
of every vertex reachable from `p`, and `none` for the others. -/
def single_source_bfs (adj : Nat → Nat → Bool) (n p : Nat) : Nat → Option Nat :=
  bfs_rounds adj n p n

/-- Number of vertices reachable from `p`, `p` included. -/
def reach (adj : Nat → Nat → Bool) (n p : Nat) : Nat :=
  ((Finset.range n).filter (fun t => (single_source_bfs adj n p t).isSome = true)).card

/-- Sum of the distances from `p` to the vertices reachable from `p`. -/
def dist_sum (adj : Nat → Nat → Bool) (n p : Nat) : Nat :=
  ∑ t in Finset.range n, (single_source_bfs adj n p t).getD 0

/-- Walks of a given length along edges between vertices below `n`. -/
inductive Walk (adj : Nat → Nat → Bool) (n : Nat) : Nat → Nat → Nat → Prop where
  | refl (p : Nat) : Walk adj n 0 p p
  | step {d p u t : Nat} : Walk adj n d p u → u < n → t < n → adj u t = true →
      Walk adj n (d + 1) p t

/-- Statement that `d` is the length of a shortest walk from `p` to `t`. -/
def IsDist (adj : Nat → Nat → Bool) (n p t d : Nat) : Prop :=
  Walk adj n d p t ∧ ∀ e, e < d → ¬ Walk adj n e p t

/-- Cell of `next` after the masking step, from the expanded cell and the cell of `seen`. -/
def masked_cell (e s : Option Nat) : Option Nat :=
  match e with
  | none => none
  | some x =>
    if x = 0 then none
    else
      let y := match s with
        | some v => x &&& GrB_BNOT_UINT64 v
        | none => x
      if y = 0 then none else some y

/-! ## The loop invariant -/

/-- Entry `j` of `sp` expected after `L` levels: missing while no other source has reached
`j`, and otherwise the sum over the sources of their distance to `j`, as a 64-bit value. -/
def path_sum_after (adj : Nat → Nat → Bool) (n L j : Nat) : Option Nat :=
  if (List.range n).any (fun s => decide (s ≠ j) && (bfs_rounds adj n s L j).isSome) then
    some ((∑ s in Finset.range n, (bfs_rounds adj n s L j).getD 0) % 2 ^ 64)
  else none

/-- What the loop variables hold after `L` completed levels of the traversal of `C` on `n`
vertices, in terms of the BFS distance labels after `L` rounds. -/
structure LevelInv (C : GrB_Matrix) (n L : Nat) (st : LoopState) : Prop where
  frontier_rows : st.frontier.nrows = (n + 63) / 64
  frontier_cols : st.frontier.ncols = n
  next_rows : st.next.nrows = (n + 63) / 64
  next_cols : st.next.ncols = n
  seen_rows : st.seen.nrows = (n + 63) / 64
  seen_cols : st.seen.ncols = n
  pc_rows : st.Next_PopCount.nrows = (n + 63) / 64
  pc_cols : st.Next_PopCount.ncols = n
  npc_size : st.next_popcount.size = n
  level_v_size : st.level_v.size = n
  sp_size : st.sp.size = n
  frontier_word : ∀ b j x, st.frontier.get b j = some x → x ≠ 0 ∧ x < 2 ^ 64
  frontier_bit : ∀ s j, source_bit st.frontier s j =
    (decide (s < n) && decide (j < n) && (bfs_rounds (edge C) n s L j == some L))
  seen_bit : ∀ s j, source_bit st.seen s j =
    (decide (s < n) && decide (j < n) && (bfs_rounds (edge C) n s L j).isSome)
  sp_entry : ∀ j, j < n → st.sp.get j = path_sum_after (edge C) n L j
  levels : st.levels_done = L
  running : st.left_by_break = false

/-- The expanded matrix of a level, as `expansion` returns it. -/
def expanded (st : LoopState) (C : GrB_Matrix) : GrB_Matrix :=
  { nrows := st.next.nrows, ncols := st.next.ncols,
    cell := fun b j =>
      if b < st.next.nrows ∧ j < st.next.ncols then
        reduce_list GrB_BOR_UINT64 ((List.range C.nrows).filterMap (fun i =>
          if edge C i j then st.frontier.get b i else none))
      else none }

/-- What the loop variables hold when the traversal of `C` has ended after `Lf` completed
levels, either through `break` (no vertex is first reached at level `Lf + 1`) or through
the level bound. -/
structure TraversalEnd (C : GrB_Matrix) (n Lf : Nat) (final : LoopState) : Prop where
  seen_rows : final.seen.nrows = (n + 63) / 64
  seen_cols : final.seen.ncols = n
  sp_size : final.sp.size = n
  seen_bit : ∀ s j, source_bit final.seen s j =
    (decide (s < n) && decide (j < n) && (bfs_rounds (edge C) n s Lf j).isSome)
  sp_entry : ∀ j, j < n → final.sp.get j = path_sum_after (edge C) n Lf j
  levels : final.levels_done = Lf
  exit : (final.left_by_break = true ∧ Lf + 1 ≤ n - 1 ∧
      ∀ s, s < n → ∀ j, j < n → bfs_rounds (edge C) n s (Lf + 1) j ≠ some (Lf + 1)) ∨
    (final.left_by_break = false ∧ Lf = n - 1)
  reached : ∀ l, 1 ≤ l → l ≤ Lf → ∃ s, s < n ∧ ∃ j, j < n ∧
    bfs_rounds (edge C) n s l j = some l

/-- Number of sources that reach `j` in the traversed graph. -/
def reached_by (adj : Nat → Nat → Bool) (n j : Nat) : Nat :=
  ((Finset.range n).filter (fun s => (single_source_bfs adj n s j).isSome = true)).card

/-- Sum over the sources of their distance to `j` in the traversed graph. -/
def dist_sum_to (adj : Nat → Nat → Bool) (n j : Nat) : Nat :=
  ∑ s in Finset.range n, (single_source_bfs adj n s j).getD 0

/-- Statement that some other vertex reaches `j`. -/
def reached_by_other (adj : Nat → Nat → Bool) (n j : Nat) : Bool :=
  (List.range n).any (fun s => decide (s ≠ j) && (single_source_bfs adj n s j).isSome)

/-! ## Concrete inputs -/

/-- Reordering that keeps every vertex at its index. -/
def keep_order (A : GrB_Matrix) : GrB_Matrix × (Nat → Nat) := (A, fun i => i)

/-- Reordering that reverses the order of the vertices. -/
def reverse_order (A : GrB_Matrix) : GrB_Matrix × (Nat → Nat) :=
  ({ nrows := A.nrows, ncols := A.ncols,
     cell := fun i j => A.cell (A.nrows - 1 - i) (A.nrows - 1 - j) },
   fun i => A.nrows - 1 - i)

/-- Square matrix on `n` vertices that stores the value 1 at `(i, j)` and `(j, i)` for
every listed pair. -/
def undirected (n : Nat) (es : List (Nat × Nat)) : GrB_Matrix :=
  { nrows := n, ncols := n,
    cell := fun i j => if es.contains (i, j) || es.contains (j, i) then some 1 else none }

/-- Adjacency of the undirected path `0 - 1 - ... - (n-1)`. -/
def path_adj (i j : Nat) : Bool := decide (i + 1 = j ∨ j + 1 = i)

/-- Adjacency of the two disjoint edges `0 - 1` and `2 - 3`. -/
def two_edges_adj (i j : Nat) : Bool :=
  decide ((i = 0 ∧ j = 1) ∨ (i = 1 ∧ j = 0) ∨ (i = 2 ∧ j = 3) ∨ (i = 3 ∧ j = 2))

/-! ## The states the loop passes through -/

/-- Loop variables at the head of the loop `for (level = 1; level < n; level++)` after `k`
completed iterations, started from `st0`: `none` when the loop does not get there, because
of the level bound, a `break` or a failure. -/
def state_after (C : GrB_Matrix) (ones : GrB_Vector) (threshold : ℚ)
    (matrix_nrows source_nrows n : Nat) (st0 : LoopState) : Nat → Option LoopState
  | 0 => some st0
  | k + 1 =>
    if k + 1 < n then
      match state_after C ones threshold matrix_nrows source_nrows n st0 k with
      | none => none
      | some st =>
        match level_iteration C ones threshold matrix_nrows source_nrows (k + 1) st with
        | .error _ => none
        | .ok st1 => if st1.left_by_break then none else some st1
    else none

/-- Loop variables of the run of `compute_ccv` on `A` at the head of the loop after `k`
completed levels. -/
def loop_head (ndebug : Bool) (GlobalNThreads : Int)
    (reorder : GrB_Matrix → GrB_Matrix × (Nat → Nat)) (threshold : ℚ) (push : Bool)
    (A : GrB_Matrix) (k : Nat) : Option LoopState :=
  match loop_entry ndebug GlobalNThreads push A with
  | .error _ => none
  | .ok st0 =>
    state_after (reorder A).1 (GrB_Vector_assign_UINT64 (GrB_Vector_new A.nrows) 1) threshold
      A.nrows A.nrows A.nrows st0 k

/-- Further facts about the loop variables after `L` completed levels: the level counter,
the words of `seen`, and `next` as the last frontier. -/
structure HeadInv (n L : Nat) (st : LoopState) : Prop where
  level_v_entry : ∀ j, j < n → st.level_v.get j = if L = 0 then none else some L
  seen_word : ∀ b j x, st.seen.get b j = some x → x < 2 ^ 64
  next_sub : ∀ b j x, st.next.get b j = some x → st.frontier.get b j = some x

/-- The state with which the run of `compute_ccv` enters its loop. -/
def entry_state (n : Nat) (push : Bool) : LoopState :=
  { frontier := diagonal_bit_matrix n,
    next := GrB_Matrix_new ((n + 63) / 64) n,
    Next_PopCount := GrB_Matrix_new ((n + 63) / 64) n,
    seen := diagonal_bit_matrix n,
    next_popcount := GrB_Vector_new n, level_v := GrB_Vector_new n, sp := GrB_Vector_new n,
    push := push,
    r_before := density (GrB_Matrix_nvals (diagonal_bit_matrix n)) n n,
    frontier_nvals := GrB_Matrix_nvals (diagonal_bit_matrix n),
    levels_done := 0, left_by_break := false }

/-- State after the first iteration of the loop on the path `0 - 1 - 2`, traversed in
reversed vertex order. -/
def path3_level_one : LoopState :=
  match level_iteration (reverse_order (undirected 3 [(0, 1), (1, 2)])).1
      (GrB_Vector_assign_UINT64 (GrB_Vector_new 3) 1) (3 / 200) 3 3 1 (entry_state 3 true) with
  | .ok st1 => st1
  | .error _ => entry_state 3 true

/-- Statement that every stored cell `(b, j)` of a bit matrix for `n` vertices lies in row
group `b < ceil (n / 64)` and column `j < n`, holds a 64-bit word, and has bit `k` clear
whenever `64 * b + k` is not a vertex. -/
def BitsInRange (n : Nat) (M : GrB_Matrix) : Prop :=
  ∀ b j x, M.get b j = some x →
    b < (n + 63) / 64 ∧ j < n ∧ x < 2 ^ 64 ∧ ∀ k, n ≤ 64 * b + k → x.testBit k = false

/-- Square matrix on `n` vertices that stores the value 1 at `(i, j)` for every listed pair
`(i, j)`: a directed graph. -/
def directed (n : Nat) (es : List (Nat × Nat)) : GrB_Matrix :=
  { nrows := n, ncols := n,
    cell := fun i j => if es.contains (i, j) then some 1 else none }

/-! ## The direction flag -/

/-- The loop variables with the direction flag `push` blanked out: what is left of a state
when the flag is disregarded. -/
def LoopState.forget_push (st : LoopState) : LoopState := { st with push := true }

/-- Everything a run has computed, with the direction flag of its final state blanked
out. -/
def Run.forget_push (run : Run) : Run := { run with final := run.final.forget_push }

/-! ## Loader of `input.h`: places and organizations -/

/-- Enumerators of `Places::Type`, an enumeration over `unsigned char`; a value of the type
is a number, the three enumerators are 0, 1 and 2. -/
def Places.Continent : Nat := 0

def Places.Country : Nat := 1

def Places.City : Nat := 2

/-- The operator `++` on a `Places::Type` reference, lines 57-70 of `input.h`.  The first
component is the operand after the call; the second is the value of the returned reference,
or the message of the `std::runtime_error` thrown. -/
def Places.operator_increment (val : Nat) : Nat × Except String Nat :=
  if val = Places.Continent then (Places.Country, .ok Places.Country)
  else if val = Places.Country then (Places.City, .ok Places.City)
  else (val, .error "There is no next place.")

/-- Number of calls of `++` that return, when the operator is applied to one variable again
and again, at most `attempts` times, until it throws. -/
def Places.successful_increments : Nat → Nat → Nat
  | 0, _ => 0
  | attempts + 1, val =>
    match (Places.operator_increment val).2 with
    | .ok _ => Places.successful_increments attempts (Places.operator_increment val).1 + 1
    | .error _ => 0

/-- Enumerators of `Organizations::Type`. -/
def Organizations.University : Nat := 0

def Organizations.Company : Nat := 1

/-- The members of `Places` that the organization edge reads.  `size` and `idToIndex` belong
to the base class `VertexCollection` of `load.h`, which is not among the sources: they are
taken as given, `idToIndex id = none` standing for a call that does not return an index. -/
structure Places where
  size : Nat
  types : List Nat
  idToIndex : Nat → Option Nat

/-- The members of `Organizations` that the organization edge reads and writes. -/
structure Organizations where
  size : Nat
  placeIndices : List Nat
  types : List Nat

/-- Sparse matrix of type `GrB_BOOL`. -/
structure GrB_Matrix_BOOL where
  nrows : Nat
  ncols : Nat
  cell : Nat → Nat → Option Bool

/-- In-range read of an entry of a Boolean matrix. -/
def GrB_Matrix_BOOL.get (M : GrB_Matrix_BOOL) (i j : Nat) : Option Bool :=
  if i < M.nrows ∧ j < M.ncols then M.cell i j else none

def GrB_Matrix_new_BOOL (nrows ncols : Nat) : GrB_Matrix_BOOL :=
  { nrows := nrows, ncols := ncols, cell := fun _ _ => none }

/-- Number of stored entries of a Boolean matrix. -/
def GrB_Matrix_BOOL.nvals (A : GrB_Matrix_BOOL) : Nat :=
  ((List.range A.nrows).map
    (fun i => (List.range A.ncols).countP (fun j => (A.cell i j).isSome))).sum

def GrB_LOR (x y : Bool) : Bool := x || y

/-- Build of a Boolean matrix from `nvals` tuples `(I k, J k, X k)`; tuples at one position
are combined with `dup` in index order.  Fails on a non-empty output or an index out of
range. -/
def GrB_Matrix_build_BOOL (C : GrB_Matrix_BOOL) (I J : Nat → Nat) (X : Nat → Bool)
    (nvals : Nat) (dup : Bool → Bool → Bool) : Except Failure GrB_Matrix_BOOL :=
  if C.nvals ≠ 0 then .error Failure.GrB_OUTPUT_NOT_EMPTY
  else if (List.range nvals).any (fun k => decide (C.nrows ≤ I k) || decide (C.ncols ≤ J k)) then
    .error Failure.GrB_INDEX_OUT_OF_BOUNDS
  else
    .ok { nrows := C.nrows, ncols := C.ncols,
          cell := fun i j =>
            match ((List.range nvals).filter
                (fun k => decide (I k = i) && decide (J k = j))).map X with
            | [] => none
            | x :: xs => some (xs.foldl dup x) }

/-- Ways in which `importFile` of the organization edge does not return. -/
inductive ImportFailure where
  /-- The call `places.idToIndex` did not return an index. -/
  | idToIndex_failed
  /-- A vector was indexed outside its bounds, or the `int` loop counter overflowed. -/
  | undefined_behaviour
  /-- The wrapper `ok (...)` met a failing GraphBLAS call. -/
  | GrB (f : Failure)
deriving DecidableEq, Repr

/-- Body of the loop of lines 293-304 of `input.h` for one `organization_index`: the place
ID is replaced by the place index, and the type of the organization is set from the type of
the place. -/
def OrganizationIsLocatedInPlaceTranEdgeCollection.loop_body (places : Places)
    (organizations : Organizations) (organization_index : Nat) :
    Except ImportFailure Organizations :=
  match organizations.placeIndices[organization_index]? with
  | none => .error ImportFailure.undefined_behaviour
  | some place_id =>
    match places.idToIndex place_id with
    | none => .error ImportFailure.idToIndex_failed
    | some place_index =>
      match places.types[place_index]? with
      | none => .error ImportFailure.undefined_behaviour
      | some place_type =>
        let type :=
          if place_type = Places.Country then Organizations.Company
          else Organizations.University
        if organization_index < organizations.types.length then
          .ok { size := organizations.size,
                placeIndices := organizations.placeIndices.set organization_index place_index,
                types := organizations.types.set organization_index type }
        else .error ImportFailure.undefined_behaviour

/-- The loop `for (int organization_index = start; organization_index < size; ++...)` with
`remaining = size - start` iterations left; the counter is an `int`. -/
def OrganizationIsLocatedInPlaceTranEdgeCollection.loop (places : Places) :
    Nat → Nat → Organizations → Except ImportFailure Organizations
  | 0, _, organizations => .ok organizations
  | remaining + 1, organization_index, organizations =>
    match OrganizationIsLocatedInPlaceTranEdgeCollection.loop_body places organizations
        organization_index with
    | .error e => .error e
    | .ok organizations1 =>
      if organization_index + 1 < 2 ^ 31 then
        OrganizationIsLocatedInPlaceTranEdgeCollection.loop places remaining
          (organization_index + 1) organizations1
      else .error ImportFailure.undefined_behaviour

/-- What `importFile` of the organization edge leaves behind: the organizations, the edge
number and the matrix. -/
structure OrganizationIsLocatedInPlaceTranEdgeCollection where
  organizations : Organizations
  edgeNumber : Nat
  matrix : GrB_Matrix_BOOL

/-- Model of `OrganizationIsLocatedInPlaceTranEdgeCollection::importFile`, lines 287-310 of
`input.h`.  The helpers `array_of_indices` and `array_of_true` are not among the sources
and are parameters: `array_of_indices m k` is entry `k` of the array made for `m`. -/
def OrganizationIsLocatedInPlaceTranEdgeCollection.importFile
    (array_of_indices : Nat → Nat → Nat) (array_of_true : Nat → Nat → Bool)
    (places : Places) (organizations : Organizations) :
    Except ImportFailure OrganizationIsLocatedInPlaceTranEdgeCollection :=
  let edgeNumber := organizations.size
  match OrganizationIsLocatedInPlaceTranEdgeCollection.loop places organizations.size 0
      organizations with
  | .error e => .error e
  | .ok organizations1 =>
    let matrix := GrB_Matrix_new_BOOL places.size organizations1.size
    match GrB_Matrix_build_BOOL matrix (fun k => organizations1.placeIndices.getD k 0)
        (array_of_indices edgeNumber) (array_of_true edgeNumber) edgeNumber GrB_LOR with
    | .error f => .error (ImportFailure.GrB f)
    | .ok built =>
      .ok { organizations := organizations1, edgeNumber := edgeNumber, matrix := built }

/-- What holds of the organizations when the loop of `importFile`, started on
`organizations0`, has handled the indices below `i`: these hold the place index and the
type, the others still hold the loaded place ID. -/
structure ImportInv (places : Places) (organizations0 : Organizations) (i : Nat)
    (organizations : Organizations) : Prop where
  size_eq : organizations.size = organizations0.size
  places_len : organizations.placeIndices.length = organizations0.placeIndices.length
  types_len : organizations.types.length = organizations0.types.length
  handled : ∀ o, o < i → ∃ id idx t, organizations0.placeIndices[o]? = some id ∧
    places.idToIndex id = some idx ∧ organizations.placeIndices[o]? = some idx ∧
    places.types[idx]? = some t ∧
    organizations.types[o]? = some
      (if t = Places.Country then Organizations.Company else Organizations.University)
  rest : ∀ o, i ≤ o → organizations.placeIndices[o]? = organizations0.placeIndices[o]?

/-- Three places, one of each type, with the IDs 10, 11 and 12. -/
def three_places : Places :=
  { size := 3,
    types := [Places.Continent, Places.Country, Places.City],
    idToIndex := fun id =>
      if id = 10 then some 0 else if id = 11 then some 1 else if id = 12 then some 2
      else none }

/-- Three organizations as loaded: located in the places with the IDs 11, 12 and 10. -/
def three_organizations : Organizations :=
  { size := 3, placeIndices := [11, 12, 10],
    types := [Organizations.University, Organizations.University, Organizations.University] }

/-! # Theorems -/

theorem shl_one_long_eq (e : Nat) (he : e < 64) : shl_one_long e = 2 ^ e := by
  unfold shl_one_long
  interval_cases e <;> rfl

theorem fill_nthreads_pos (g : Int) (n : Nat) : 1 ≤ fill_nthreads g n := by
  unfold fill_nthreads
  simp only
  omega

theorem foldl_fill_body (ks : List Nat) (arr : TupleArrays) (k : Nat) :
    (ks.foldl fill_body arr).I k = (if k ∈ ks then k / 64 else arr.I k) ∧
    (ks.foldl fill_body arr).J k = (if k ∈ ks then k else arr.J k) ∧
    (ks.foldl fill_body arr).X k = (if k ∈ ks then shl_one_long (k % 64) else arr.X k) := by
  induction ks generalizing arr with
  | nil => simp
  | cons a ks ih =>
    simp only [List.foldl_cons, List.mem_cons]
    obtain ⟨h1, h2, h3⟩ := ih (fill_body arr a)
    rw [h1, h2, h3]
    by_cases hk : k ∈ ks
    · simp [hk]
    · by_cases hka : k = a
      · subst hka
        simp [hk, fill_body]
      · simp [hk, hka, fill_body, Function.update_noteq hka]

theorem foldl_chunks (chunk : Nat → List Nat) (ts : List Nat) (arr : TupleArrays) :
    ts.foldl (fun arr t => (chunk t).foldl fill_body arr) arr
      = (ts.flatMap chunk).foldl fill_body arr := by
  induction ts generalizing arr with
  | nil => simp
  | cons t ts ih => simp [List.flatMap_cons, List.foldl_append, ih]

theorem mem_static_chunk (n T k : Nat) (hT : 1 ≤ T) (hk : k < n) :
    ∃ t, t < T ∧ k ∈ static_chunk n T t := by
  have hc : 1 ≤ (n + T - 1) / T := by
    rw [Nat.le_div_iff_mul_le (by omega)]
    omega
  have hn : n ≤ T * ((n + T - 1) / T) := by
    have := Nat.div_add_mod (n + T - 1) T
    have := Nat.mod_lt (n + T - 1) (show T > 0 by omega)
    omega
  refine ⟨k / ((n + T - 1) / T), ?_, ?_⟩
  · rw [Nat.div_lt_iff_lt_mul (by omega)]
    calc k < n := hk
      _ ≤ T * ((n + T - 1) / T) := hn
  · unfold static_chunk
    simp only [List.mem_range'_1]
    have h1 := Nat.div_add_mod k ((n + T - 1) / T)
    have h2 := Nat.mod_lt k (show (n + T - 1) / T > 0 by omega)
    have h3 : k / ((n + T - 1) / T) * ((n + T - 1) / T) = ((n + T - 1) / T) * (k / ((n + T - 1) / T)) :=
      Nat.mul_comm _ _
    generalize (n + T - 1) / T * (k / ((n + T - 1) / T)) = m at h1 h3
    rw [h3]
    generalize (n + T - 1) / T = c at *
    omega

theorem fill_arrays_spec (T n k : Nat) (hT : 1 ≤ T) (hk : k < n) :
    (fill_arrays T n).I k = k / 64 ∧ (fill_arrays T n).J k = k ∧
    (fill_arrays T n).X k = 2 ^ (k % 64) := by
  unfold fill_arrays
  rw [foldl_chunks]
  obtain ⟨t, ht, hmem⟩ := mem_static_chunk n T k hT hk
  have hin : k ∈ (List.range T).flatMap (static_chunk n T) := by
    rw [List.mem_flatMap]
    exact ⟨t, List.mem_range.mpr ht, hmem⟩
  obtain ⟨h1, h2, h3⟩ := foldl_fill_body ((List.range T).flatMap (static_chunk n T))
    { I := fun _ => 0, J := fun _ => 0, X := fun _ => 0 } k
  rw [h1, h2, h3]
  simp [hin, shl_one_long_eq (k % 64) (Nat.mod_lt k (by norm_num))]

theorem filter_range_diag (n i j : Nat) (I J : Nat → Nat)
    (hI : ∀ k, k < n → I k = k / 64) (hJ : ∀ k, k < n → J k = k) :
    (List.range n).filter (fun k => decide (I k = i) && decide (J k = j))
      = if j < n ∧ j / 64 = i then [j] else [] := by
  induction n with
  | zero => simp
  | succ n ih =>
    rw [List.range_succ, List.filter_append, ih (fun k hk => hI k (by omega)) (fun k hk => hJ k (by omega))]
    simp only [List.filter_cons, List.filter_nil, hI n (by omega), hJ n (by omega)]
    by_cases hj : j < n
    · have : n ≠ j := by omega
      simp [hj, this, show j < n + 1 by omega]
    · by_cases hjn : n = j
      · subst hjn
        by_cases hi : n / 64 = i <;> simp [hi]
      · have : ¬ j < n + 1 := by omega
        simp [hj, hjn, this]

theorem sum_map_range (f : Nat → Nat) (G : Nat) :
    ((List.range G).map f).sum = ∑ i in Finset.range G, f i := by
  induction G with
  | zero => simp
  | succ G ih => simp [List.range_succ, Finset.sum_range_succ, ih]

theorem countP_range (p : Nat → Bool) (n : Nat) :
    (List.range n).countP p = ((Finset.range n).filter (fun k => p k = true)).card := by
  induction n with
  | zero => simp
  | succ n ih =>
    rw [List.range_succ, List.countP_append, ih, Finset.range_succ, Finset.filter_insert]
    by_cases h : p n = true
    · simp [h]
    · simp [h]

theorem create_diagonal_bit_matrix_eq (ndebug : Bool) (g : Int) (n : Nat) (hb : n + 63 < 2 ^ 64)
    (D : GrB_Matrix) (hr : D.nrows = (n + 63) / 64) (hc : D.ncols = n)
    (he : GrB_Matrix_nvals D = 0) :
    create_diagonal_bit_matrix ndebug g D = .ok (diagonal_bit_matrix n) := by
  have hspec := fun k hk => fill_arrays_spec (fill_nthreads g n) n k (fill_nthreads_pos g n) hk
  unfold create_diagonal_bit_matrix
  simp only [hc, hr, Nat.mod_eq_of_lt hb, ne_eq, not_true_eq_false, decide_False, Bool.and_false,
    Bool.false_eq_true, ↓reduceIte]
  unfold GrB_Matrix_build_UINT64
  have hany : (List.range n).any (fun k =>
      decide (D.nrows ≤ (fill_arrays (fill_nthreads g n) n).I k) ||
      decide (D.ncols ≤ (fill_arrays (fill_nthreads g n) n).J k)) = false := by
    rw [List.any_eq_false]
    intro k hk
    have hk' := List.mem_range.mp hk
    obtain ⟨h1, h2, _⟩ := hspec k hk'
    rw [h1, h2, hr, hc]
    have : k / 64 < (n + 63) / 64 := by omega
    simp [hk', this]
  simp only [he, ne_eq, not_true_eq_false, ↓reduceIte, hany, Bool.false_eq_true]
  unfold diagonal_bit_matrix
  rw [hr, hc]
  congr 2
  funext i j
  rw [filter_range_diag n i j _ _ (fun k hk => (hspec k hk).1) (fun k hk => (hspec k hk).2.1)]
  by_cases h : j < n ∧ j / 64 = i
  · simp [h, reduce_list, (hspec j h.1).2.2]
  · simp [h, reduce_list]

theorem nvals_diagonal_bit_matrix (n : Nat) : GrB_Matrix_nvals (diagonal_bit_matrix n) = n := by
  unfold GrB_Matrix_nvals diagonal_bit_matrix
  simp only
  rw [sum_map_range]
  have h1 : ∀ i, (List.range n).countP
      (fun j => (if j < n ∧ j / 64 = i then some (2 ^ (j % 64)) else none : Option Nat).isSome)
      = ((Finset.range n).filter (fun j => j / 64 = i)).card := by
    intro i
    rw [countP_range]
    congr 1
    apply Finset.filter_congr
    intro j hj
    have hj' := Finset.mem_range.mp hj
    by_cases h : j / 64 = i <;> simp [h, hj']
  simp only [h1]
  rw [← Finset.card_eq_sum_card_fiberwise]
  · simp
  · intro j hj
    have hj' := Finset.mem_range.mp hj
    simp only [Finset.mem_range]
    omega

theorem Walk.cons {adj : Nat → Nat → Bool} {n d p u t : Nat} (hp : p < n) (hu : u < n)
    (ha : adj p u = true) (w : Walk adj n d u t) : Walk adj n (d + 1) p t := by
  induction w with
  | refl => exact Walk.step (Walk.refl p) hp hu ha
  | step _ hu' ht' ha' ih => exact Walk.step (ih hu ha) hu' ht' ha'

theorem Walk.reverse {adj : Nat → Nat → Bool} {n d p t : Nat} (hs : Symmetric adj n)
    (w : Walk adj n d p t) : Walk adj n d t p := by
  induction w with
  | refl => exact Walk.refl _
  | step _ hu ht ha ih =>
    exact Walk.cons ht hu (by rw [hs _ ht _ hu]; exact ha) ih

theorem Walk.zero_eq {adj : Nat → Nat → Bool} {n p t : Nat} (w : Walk adj n 0 p t) : t = p := by
  cases w
  rfl

theorem Walk.succ_inv {adj : Nat → Nat → Bool} {n d p t : Nat} (w : Walk adj n (d + 1) p t) :
    ∃ u, Walk adj n d p u ∧ u < n ∧ t < n ∧ adj u t = true := by
  cases w with
  | step w hu ht ha => exact ⟨_, w, hu, ht, ha⟩

theorem IsDist.symm {adj : Nat → Nat → Bool} {n p t d : Nat} (hs : Symmetric adj n)
    (h : IsDist adj n p t d) : IsDist adj n t p d :=
  ⟨h.1.reverse hs, fun e he w => h.2 e he (w.reverse hs)⟩

theorem IsDist.unique {adj : Nat → Nat → Bool} {n p t d e : Nat}
    (h1 : IsDist adj n p t d) (h2 : IsDist adj n p t e) : d = e := by
  rcases Nat.lt_trichotomy d e with h | h | h
  · exact absurd h1.1 (h2.2 d h)
  · exact h
  · exact absurd h2.1 (h1.2 e h)

theorem Walk.exists_isDist {adj : Nat → Nat → Bool} {n p t d : Nat} (w : Walk adj n d p t) :
    ∃ e, e ≤ d ∧ IsDist adj n p t e := by
  classical
  have hex : ∃ e, Walk adj n e p t := ⟨d, w⟩
  refine ⟨Nat.find hex, Nat.find_min' hex w, Nat.find_spec hex, ?_⟩
  intro e he
  exact Nat.find_min hex he

theorem IsDist.pred {adj : Nat → Nat → Bool} {n p t d : Nat} (h : IsDist adj n p t (d + 1)) :
    ∃ u, IsDist adj n p u d ∧ u < n ∧ t < n ∧ adj u t = true := by
  obtain ⟨u, w, hu, ht, ha⟩ := h.1.succ_inv
  refine ⟨u, ⟨w, ?_⟩, hu, ht, ha⟩
  intro e he w'
  exact h.2 (e + 1) (by omega) (Walk.step w' hu ht ha)

theorem bfs_rounds_iff (adj : Nat → Nat → Bool) (n p : Nat) (r t d : Nat) :
    bfs_rounds adj n p r t = some d ↔ d ≤ r ∧ IsDist adj n p t d := by
  induction r generalizing t d with
  | zero =>
    simp only [bfs_rounds]
    constructor
    · intro h
      split at h
      · rename_i htp
        cases h
        subst htp
        exact ⟨le_refl _, Walk.refl _, fun e he => absurd he (by omega)⟩
      · cases h
    · rintro ⟨hd, h⟩
      have hd0 : d = 0 := by omega
      subst hd0
      rw [if_pos h.1.zero_eq]
  | succ r ih =>
    simp only [bfs_rounds, bfs_round]
    cases hprev : bfs_rounds adj n p r t with
    | some x =>
      have hx := (ih t x).mp hprev
      simp only
      constructor
      · intro h
        cases h
        exact ⟨by omega, hx.2⟩
      · rintro ⟨_, h⟩
        rw [h.unique hx.2]
    | none =>
      simp only
      have hnone : ∀ e, e ≤ r → ¬ IsDist adj n p t e := by
        intro e he h
        have := (ih t e).mpr ⟨he, h⟩
        rw [hprev] at this
        cases this
      constructor
      · intro h
        split at h
        · rename_i hc
          cases h
          simp only [Bool.and_eq_true, decide_eq_true_eq, List.any_eq_true, List.mem_range,
            beq_iff_eq] at hc
          obtain ⟨ht, u, hu, hur, ha⟩ := hc
          have hu' := (ih u r).mp hur
          refine ⟨le_refl _, Walk.step hu'.2.1 hu ht ha, ?_⟩
          intro e he w
          obtain ⟨e', he', hd⟩ := w.exists_isDist
          exact hnone e' (by omega) hd
        · cases h
      · rintro ⟨hd, h⟩
        have hd1 : d = r + 1 := by
          by_contra hne
          exact hnone d (by omega) h
        subst hd1
        obtain ⟨u, hu, hun, htn, ha⟩ := h.pred
        have hur := (ih u r).mpr ⟨le_refl _, hu⟩
        rw [if_pos]
        simp only [Bool.and_eq_true, decide_eq_true_eq, List.any_eq_true, List.mem_range,
          beq_iff_eq]
        exact ⟨htn, u, hun, hur, ha⟩
theorem bfs_rounds_le {adj : Nat → Nat → Bool} {n p r t d : Nat}
    (h : bfs_rounds adj n p r t = some d) : d ≤ r :=
  ((bfs_rounds_iff adj n p r t d).mp h).1

theorem bfs_rounds_stable {adj : Nat → Nat → Bool} {n p r t d : Nat}
    (h : bfs_rounds adj n p r t = some d) (r' : Nat) (hr : r ≤ r') :
    bfs_rounds adj n p r' t = some d := by
  obtain ⟨h1, h2⟩ := (bfs_rounds_iff adj n p r t d).mp h
  exact (bfs_rounds_iff adj n p r' t d).mpr ⟨by omega, h2⟩

theorem bfs_rounds_self (adj : Nat → Nat → Bool) (n p r : Nat) :
    bfs_rounds adj n p r p = some 0 :=
  (bfs_rounds_iff adj n p r p 0).mpr ⟨by omega, Walk.refl p, fun e he => absurd he (by omega)⟩

theorem bfs_rounds_eq_zero {adj : Nat → Nat → Bool} {n p r t : Nat}
    (h : bfs_rounds adj n p r t = some 0) : t = p :=
  ((bfs_rounds_iff adj n p r t 0).mp h).2.1.zero_eq

theorem bfs_rounds_symm {adj : Nat → Nat → Bool} {n : Nat} (hs : Symmetric adj n)
    (p t r : Nat) : bfs_rounds adj n p r t = bfs_rounds adj n t r p := by
  apply Option.ext
  intro d
  rw [Option.mem_def, Option.mem_def, bfs_rounds_iff, bfs_rounds_iff]
  exact ⟨fun h => ⟨h.1, h.2.symm hs⟩, fun h => ⟨h.1, h.2.symm hs⟩⟩

theorem IsDist.target_lt {adj : Nat → Nat → Bool} {n p t d : Nat} (h : IsDist adj n p t d)
    (hp : p < n) : t < n := by
  cases d with
  | zero => rw [h.1.zero_eq]; exact hp
  | succ d => obtain ⟨_, _, _, ht, _⟩ := h.1.succ_inv; exact ht

theorem IsDist.exists_level {adj : Nat → Nat → Bool} {n p : Nat} (hp : p < n) :
    ∀ d t, IsDist adj n p t d → ∀ e, e ≤ d → ∃ v, v < n ∧ IsDist adj n p v e := by
  intro d
  induction d with
  | zero =>
    intro t h e he
    have : e = 0 := by omega
    subst this
    exact ⟨t, h.target_lt hp, h⟩
  | succ d ih =>
    intro t h e he
    by_cases hed : e = d + 1
    · subst hed
      exact ⟨t, h.target_lt hp, h⟩
    · obtain ⟨u, hu, _, _, _⟩ := h.pred
      exact ih u hu e (by omega)

/-- A shortest walk between vertices below `n` has fewer than `n` edges. -/
theorem IsDist.lt {adj : Nat → Nat → Bool} {n p t d : Nat} (h : IsDist adj n p t d)
    (hp : p < n) : d < n := by
  classical
  have hex := IsDist.exists_level hp d t h
  choose f hf using hex
  let g : Fin (d + 1) → Fin n := fun e => ⟨f e.1 (by omega), (hf e.1 (by omega)).1⟩
  have hinj : Function.Injective g := by
    intro a b hab
    have hv : f a.1 (by omega) = f b.1 (by omega) := congrArg Fin.val hab
    have ha := (hf a.1 (by omega)).2
    have hb := (hf b.1 (by omega)).2
    rw [hv] at ha
    exact Fin.ext (ha.unique hb)
  have := Fintype.card_le_of_injective g hinj
  simp only [Fintype.card_fin] at this
  omega

theorem bfs_rounds_bound {adj : Nat → Nat → Bool} {n p : Nat} (hp : p < n) (r t : Nat)
    (hr : n - 1 ≤ r) : bfs_rounds adj n p r t = bfs_rounds adj n p (n - 1) t := by
  apply Option.ext
  intro d
  rw [Option.mem_def, Option.mem_def, bfs_rounds_iff, bfs_rounds_iff]
  constructor
  · rintro ⟨_, h⟩
    have := h.lt hp
    exact ⟨by omega, h⟩
  · rintro ⟨h1, h⟩
    exact ⟨by omega, h⟩

/-- Once a round labels no vertex, no later round does. -/
theorem bfs_rounds_quiet {adj : Nat → Nat → Bool} {n p L : Nat}
    (hq : ∀ t, bfs_rounds adj n p (L + 1) t ≠ some (L + 1)) (r t : Nat) (hr : L ≤ r) :
    bfs_rounds adj n p r t = bfs_rounds adj n p L t := by
  have hno : ∀ d, L < d → ∀ t, ¬ IsDist adj n p t d := by
    intro d hd
    induction d with
    | zero => omega
    | succ d ih =>
      intro t h
      by_cases hdl : d = L
      · subst hdl
        exact hq t ((bfs_rounds_iff adj n p (d + 1) t (d + 1)).mpr ⟨le_refl _, h⟩)
      · obtain ⟨u, hu, _⟩ := h.pred
        exact ih (by omega) u hu
  apply Option.ext
  intro d
  rw [Option.mem_def, Option.mem_def, bfs_rounds_iff, bfs_rounds_iff]
  constructor
  · rintro ⟨_, h⟩
    refine ⟨?_, h⟩
    by_contra hlt
    exact hno d (by omega) t h
  · rintro ⟨h1, h⟩
    exact ⟨by omega, h⟩

/-! ### Invariance under a reordering of the vertices -/

theorem perm_surj {n : Nat} {m : Nat → Nat} (hm : ∀ i, i < n → m i < n)
    (hinj : ∀ i, i < n → ∀ j, j < n → m i = m j → i = j) (t : Nat) (ht : t < n) :
    ∃ i, i < n ∧ m i = t := by
  let g : Fin n → Fin n := fun i => ⟨m i.1, hm i.1 i.2⟩
  have hg : Function.Injective g := by
    intro a b hab
    exact Fin.ext (hinj a.1 a.2 b.1 b.2 (congrArg Fin.val hab))
  obtain ⟨i, hi⟩ := (Finite.injective_iff_surjective.mp hg) ⟨t, ht⟩
  exact ⟨i.1, i.2, congrArg Fin.val hi⟩

theorem Walk.map {adjA adjC : Nat → Nat → Bool} {n : Nat} {m : Nat → Nat}
    (hm : ∀ i, i < n → m i < n)
    (he : ∀ i, i < n → ∀ j, j < n → adjC (m i) (m j) = adjA i j)
    {d p t : Nat} (w : Walk adjA n d p t) : Walk adjC n d (m p) (m t) := by
  induction w with
  | refl => exact Walk.refl _
  | step _ hu ht ha ih =>
    exact Walk.step ih (hm _ hu) (hm _ ht) (by rw [he _ hu _ ht]; exact ha)

theorem Walk.unmap {adjA adjC : Nat → Nat → Bool} {n : Nat} {m : Nat → Nat}
    (hm : ∀ i, i < n → m i < n)
    (hinj : ∀ i, i < n → ∀ j, j < n → m i = m j → i = j)
    (he : ∀ i, i < n → ∀ j, j < n → adjC (m i) (m j) = adjA i j)
    {d p t' : Nat} (hp : p < n) (w : Walk adjC n d (m p) t') :
    ∃ t, t < n ∧ m t = t' ∧ Walk adjA n d p t := by
  generalize hq : m p = q at w
  induction w with
  | refl => exact ⟨p, hp, hq, Walk.refl p⟩
  | step _ hu ht ha ih =>
    obtain ⟨u, hun, hmu, wu⟩ := ih hq
    obtain ⟨t, htn, hmt⟩ := perm_surj hm hinj _ ht
    refine ⟨t, htn, hmt, Walk.step wu hun htn ?_⟩
    rw [← he u hun t htn, hmu, hmt]
    exact ha

theorem IsDist.map_iff {adjA adjC : Nat → Nat → Bool} {n : Nat} {m : Nat → Nat}
    (hm : ∀ i, i < n → m i < n)
    (hinj : ∀ i, i < n → ∀ j, j < n → m i = m j → i = j)
    (he : ∀ i, i < n → ∀ j, j < n → adjC (m i) (m j) = adjA i j)
    {p t d : Nat} (hp : p < n) (ht : t < n) :
    IsDist adjC n (m p) (m t) d ↔ IsDist adjA n p t d := by
  have back : ∀ e, Walk adjC n e (m p) (m t) → Walk adjA n e p t := by
    intro e w
    obtain ⟨t2, ht2, hmt2, w2⟩ := Walk.unmap hm hinj he hp w
    have : t2 = t := hinj t2 ht2 t ht hmt2
    rw [← this]
    exact w2
  constructor
  · rintro ⟨w, hmin⟩
    exact ⟨back d w, fun e hed w' => hmin e hed (w'.map hm he)⟩
  · rintro ⟨w, hmin⟩
    exact ⟨w.map hm he, fun e hed w' => hmin e hed (back e w')⟩

theorem bfs_rounds_map {adjA adjC : Nat → Nat → Bool} {n : Nat} {m : Nat → Nat}
    (hm : ∀ i, i < n → m i < n)
    (hinj : ∀ i, i < n → ∀ j, j < n → m i = m j → i = j)
    (he : ∀ i, i < n → ∀ j, j < n → adjC (m i) (m j) = adjA i j)
    {p t : Nat} (hp : p < n) (ht : t < n) (r : Nat) :
    bfs_rounds adjC n (m p) r (m t) = bfs_rounds adjA n p r t := by
  apply Option.ext
  intro d
  rw [Option.mem_def, Option.mem_def, bfs_rounds_iff, bfs_rounds_iff, IsDist.map_iff hm hinj he hp ht]
/-! ### Words -/

theorem testBit_foldl_bor (xs : List Nat) (x k : Nat) :
    (xs.foldl GrB_BOR_UINT64 x).testBit k = (x.testBit k || xs.any (fun y => y.testBit k)) := by
  induction xs generalizing x with
  | nil => simp
  | cons y ys ih =>
    simp only [List.foldl_cons, List.any_cons, ih, GrB_BOR_UINT64, Nat.testBit_lor, Bool.or_assoc]

theorem foldl_bor_lt (xs : List Nat) (x : Nat) (hx : x < 2 ^ 64) (hxs : ∀ y ∈ xs, y < 2 ^ 64) :
    xs.foldl GrB_BOR_UINT64 x < 2 ^ 64 := by
  induction xs generalizing x with
  | nil => simpa using hx
  | cons y ys ih =>
    simp only [List.foldl_cons]
    apply ih
    · exact Nat.or_lt_two_pow hx (hxs y (List.mem_cons_self _ _))
    · intro z hz
      exact hxs z (List.mem_cons_of_mem _ hz)

theorem testBit_bnot (y k : Nat) (hk : k < 64) :
    (GrB_BNOT_UINT64 y).testBit k = !y.testBit k := by
  unfold GrB_BNOT_UINT64
  rw [Nat.testBit_two_pow_sub_succ (Nat.mod_lt _ (by norm_num)), Nat.testBit_mod_two_pow]
  simp [hk]

theorem bnot_lt (y : Nat) : GrB_BNOT_UINT64 y < 2 ^ 64 := by
  unfold GrB_BNOT_UINT64
  omega

theorem exists_bit_of_ne_zero {x : Nat} (h0 : x ≠ 0) (hx : x < 2 ^ 64) :
    ∃ k, k < 64 ∧ x.testBit k = true := by
  obtain ⟨i, hi⟩ := Nat.ne_zero_implies_bit_true h0
  refine ⟨i, ?_, hi⟩
  by_contra hge
  have hlt : x < 2 ^ i := lt_of_lt_of_le hx (Nat.pow_le_pow_right (by norm_num) (by omega))
  rw [Nat.testBit_lt_two_pow hlt] at hi
  cases hi

theorem popcountll_eq_card (x : Nat) :
    popcountll x = ((Finset.range 64).filter (fun k => x.testBit k = true)).card := by
  unfold popcountll
  rw [countP_range]

theorem popcountll_le (x : Nat) : popcountll x ≤ 64 := by
  rw [popcountll_eq_card]
  calc _ ≤ (Finset.range 64).card := Finset.card_filter_le _ _
    _ = 64 := Finset.card_range 64

theorem popcountll_zero : popcountll 0 = 0 := by
  rw [popcountll_eq_card]
  simp

theorem foldl_plus (xs : List Nat) (x : Nat) (hx : x < 2 ^ 64) :
    xs.foldl GrB_PLUS_UINT64 x = (x + xs.sum) % 2 ^ 64 := by
  induction xs generalizing x with
  | nil =>
    simp only [List.foldl_nil, List.sum_nil, Nat.add_zero]
    exact (Nat.mod_eq_of_lt hx).symm
  | cons y ys ih =>
    simp only [List.foldl_cons, List.sum_cons]
    rw [ih _ (by unfold GrB_PLUS_UINT64; exact Nat.mod_lt _ (by norm_num))]
    unfold GrB_PLUS_UINT64
    rw [Nat.add_mod, Nat.mod_mod, ← Nat.add_mod, Nat.add_assoc]

/-- Counting the bits of the words of one column counts the sources, 64 per word. -/
theorem sum_card_blocks (P : Nat → Prop) [DecidablePred P] (G : Nat) :
    ∑ b in Finset.range G, ((Finset.range 64).filter (fun k => P (64 * b + k))).card
      = ((Finset.range (64 * G)).filter P).card := by
  induction G with
  | zero => simp
  | succ G ih =>
    rw [Finset.sum_range_succ, ih]
    have hsplit : (Finset.range (64 * (G + 1))).filter P
        = (Finset.range (64 * G)).filter P ∪
          ((Finset.range 64).filter (fun k => P (64 * G + k))).image (fun k => 64 * G + k) := by
      ext s
      simp only [Finset.mem_filter, Finset.mem_range, Finset.mem_union, Finset.mem_image]
      constructor
      · rintro ⟨hs, hP⟩
        by_cases h : s < 64 * G
        · exact Or.inl ⟨h, hP⟩
        · refine Or.inr ⟨s - 64 * G, ⟨by omega, ?_⟩, by omega⟩
          have : 64 * G + (s - 64 * G) = s := by omega
          rw [this]
          exact hP
      · rintro (⟨hs, hP⟩ | ⟨k, ⟨hk, hP⟩, rfl⟩)
        · exact ⟨by omega, hP⟩
        · exact ⟨by omega, hP⟩
    rw [hsplit, Finset.card_union_of_disjoint, Finset.card_image_of_injective]
    · intro a b hab
      simp only at hab
      omega
    · rw [Finset.disjoint_left]
      intro s hs hs'
      simp only [Finset.mem_filter, Finset.mem_range, Finset.mem_image] at hs hs'
      obtain ⟨k, _, rfl⟩ := hs'
      omega
/-! ### The steps of one level, cell by cell -/

theorem write_back_plain (c t : Option Nat) (r : Bool) : write_back c none none t r = t := rfl

/-- Words of the frontier that reach column `j` through an edge. -/
theorem expansion_ok (next F A : GrB_Matrix)
    (h1 : next.nrows = F.nrows) (h2 : next.ncols = A.ncols) (h3 : F.ncols = A.nrows) :
    expansion next F A = .ok
      { nrows := next.nrows, ncols := next.ncols,
        cell := fun b j =>
          if b < next.nrows ∧ j < next.ncols then
            reduce_list GrB_BOR_UINT64 ((List.range A.nrows).filterMap (fun i =>
              if edge A i j then F.get b i else none))
          else none } := by
  unfold expansion GrB_mxm
  rw [if_pos ⟨h1, h2, h3⟩]
  congr 2
  funext b j
  by_cases hr : b < next.nrows ∧ j < next.ncols
  · rw [if_pos hr, if_pos hr, write_back_plain, h3]
    congr 2
    funext i
    unfold edge GrB_FIRST_UINT64
    cases hF : F.get b i <;> cases hA : A.get i j <;> simp
  · rw [if_neg hr, if_neg hr]

theorem testBit_reduce_bor (xs : List Nat) (k : Nat) :
    ((reduce_list GrB_BOR_UINT64 xs).getD 0).testBit k = xs.any (fun y => y.testBit k) := by
  cases xs with
  | nil => simp [reduce_list]
  | cons x xs => simp [reduce_list, testBit_foldl_bor]

theorem reduce_bor_lt (xs : List Nat) (hxs : ∀ y ∈ xs, y < 2 ^ 64) (x : Nat)
    (h : reduce_list GrB_BOR_UINT64 xs = some x) : x < 2 ^ 64 := by
  cases xs with
  | nil => simp [reduce_list] at h
  | cons y ys =>
    simp only [reduce_list, Option.some.injEq] at h
    rw [← h]
    exact foldl_bor_lt ys y (hxs y (List.mem_cons_self _ _))
      (fun z hz => hxs z (List.mem_cons_of_mem _ hz))

theorem revisit_masking_get (E seen : GrB_Matrix) (b j : Nat) :
    (revisit_masking E seen).get b j =
      if b < E.nrows ∧ j < E.ncols then masked_cell (E.get b j) (seen.get b j) else none := by
  unfold revisit_masking GxB_Matrix_select_NONZERO GrB_Matrix_apply
  simp only [GrB_Matrix.get]
  by_cases hr : b < E.nrows ∧ j < E.ncols
  · simp only [hr, and_self, ↓reduceIte, Option.map_some']
    unfold masked_cell value_mask
    simp only [GrB_Matrix.get, hr, and_self, ↓reduceIte]
    cases hE : E.cell b j with
    | none => simp [write_back]
    | some x =>
      by_cases hx : x = 0
      · subst hx
        simp [write_back]
      · have hb : (x != 0) = true := by simp [hx]
        by_cases hs : b < seen.nrows ∧ j < seen.ncols
        · cases hS : seen.cell b j with
          | none => simp [write_back, hx, hs, hS, hb, Option.filter]
          | some v =>
            simp only [write_back, hx, hs, hS, hb, and_self, ↓reduceIte, Option.map_some',
              GrB_BAND_UINT64]
            by_cases hy : x &&& GrB_BNOT_UINT64 v = 0 <;> simp [hy, Option.filter]
        · simp [write_back, hx, hs, hb, Option.filter]
  · simp [hr]
theorem masked_cell_bit (e s : Option Nat) (k : Nat) (hk : k < 64) :
    ((masked_cell e s).getD 0).testBit k = ((e.getD 0).testBit k && !(s.getD 0).testBit k) := by
  unfold masked_cell
  cases e with
  | none => simp
  | some x =>
    by_cases hx : x = 0
    · subst hx
      simp
    · cases s with
      | none =>
        simp [hx]
      | some v =>
        simp only [hx, ↓reduceIte, Option.getD_some]
        by_cases hy : x &&& GrB_BNOT_UINT64 v = 0
        · have := congrArg (fun z => Nat.testBit z k) hy
          simp only [Nat.testBit_land, testBit_bnot v k hk, Nat.zero_testBit] at this
          simp [hy, this]
        · simp [hy, Nat.testBit_land, testBit_bnot v k hk]

theorem masked_cell_ne_zero {e s : Option Nat} {y : Nat} (h : masked_cell e s = some y) :
    y ≠ 0 := by
  unfold masked_cell at h
  cases e with
  | none => cases h
  | some x =>
    simp only at h
    split at h
    · cases h
    · split at h
      · cases h
      · rename_i hy
        cases h
        exact hy

theorem masked_cell_lt {e s : Option Nat} {y : Nat} (he : ∀ x, e = some x → x < 2 ^ 64)
    (h : masked_cell e s = some y) : y < 2 ^ 64 := by
  unfold masked_cell at h
  cases e with
  | none => cases h
  | some x =>
    have hx := he x rfl
    simp only at h
    split at h
    · cases h
    · split at h
      · cases h
      · cases h
        cases s with
        | none => exact hx
        | some v => exact Nat.and_lt_two_pow _ (bnot_lt v)

theorem nvals_eq_zero_iff (M : GrB_Matrix) :
    GrB_Matrix_nvals M = 0 ↔ ∀ b j, M.get b j = none := by
  unfold GrB_Matrix_nvals
  rw [List.sum_eq_zero_iff]
  simp only [List.mem_map, List.mem_range, forall_exists_index, and_imp,
    forall_apply_eq_imp_iff₂, List.countP_eq_zero, Option.isSome_iff_ne_none, ne_eq,
    decide_not, Bool.not_eq_true', decide_eq_false_iff_not, not_not, GrB_Matrix.get]
  constructor
  · intro h b j
    by_cases hr : b < M.nrows ∧ j < M.ncols
    · rw [if_pos hr]
      exact h b hr.1 j hr.2
    · rw [if_neg hr]
  · intro h b hb j hj
    have := h b j
    rw [if_pos ⟨hb, hj⟩] at this
    exact this

theorem sum_filterMap_getD (f : Nat → Option Nat) (l : List Nat) :
    (l.filterMap f).sum = (l.map (fun b => (f b).getD 0)).sum := by
  induction l with
  | nil => simp
  | cons a l ih =>
    cases h : f a <;> simp [List.filterMap_cons, h, ih]

theorem reduce_plus (l : List Nat) (hl : ∀ y ∈ l, y < 2 ^ 64) :
    reduce_list GrB_PLUS_UINT64 l = if l = [] then none else some (l.sum % 2 ^ 64) := by
  cases l with
  | nil => simp [reduce_list]
  | cons x xs =>
    simp only [reduce_list, List.sum_cons, reduceCtorEq, ↓reduceIte]
    rw [foldl_plus xs x (hl x (List.mem_cons_self _ _))]

/-- Entry `j` of the vector of column sums of the popcounts of `M`. -/
theorem popcount_reduce_get (P : GrB_Matrix) (w : GrB_Vector) (M : GrB_Matrix)
    (hr : P.nrows = M.nrows) (hc : P.ncols = M.ncols) (hw : w.size = M.ncols) (j : Nat)
    (hj : j < M.ncols) :
    (popcount_reduce P w M).2.get j =
      if ∃ b, b < M.nrows ∧ M.get b j ≠ none then
        some ((∑ b in Finset.range M.nrows, popcountll ((M.get b j).getD 0)) % 2 ^ 64)
      else none := by
  unfold popcount_reduce GrB_Matrix_reduce_Monoid_T0 GrB_Matrix_apply
  simp only [GrB_Vector.get, hw, hj, ↓reduceIte, hr, hc, Option.map_none', write_back_plain]
  have hlist : (List.range M.nrows).filterMap (fun i =>
        GrB_Matrix.get
          { nrows := M.nrows, ncols := M.ncols,
            cell := fun i j =>
              if i < M.nrows ∧ j < M.ncols then Option.map fun_sum_popcount (M.get i j)
              else none } i j)
      = (List.range M.nrows).filterMap (fun b => (M.get b j).map popcountll) := by
    apply List.filterMap_congr
    intro b hb
    have hb' := List.mem_range.mp hb
    simp only [GrB_Matrix.get, hb', hj, and_self, ↓reduceIte]
    rfl
  rw [hlist, reduce_plus]
  · by_cases hex : ∃ b, b < M.nrows ∧ M.get b j ≠ none
    · rw [if_pos hex, if_neg]
      · rw [sum_filterMap_getD, sum_map_range]
        congr 2
        apply Finset.sum_congr rfl
        intro b _
        cases M.get b j <;> simp [popcountll_zero]
      · obtain ⟨b, hb, hne⟩ := hex
        intro hnil
        rw [List.filterMap_eq_nil_iff] at hnil
        have := hnil b (List.mem_range.mpr hb)
        cases hM : M.get b j with
        | none => exact hne hM
        | some x => simp [hM] at this
    · rw [if_neg hex, if_pos]
      rw [List.filterMap_eq_nil_iff]
      intro b hb
      have hb' := List.mem_range.mp hb
      cases hM : M.get b j with
      | none => rfl
      | some x => exact absurd ⟨b, hb', by simp [hM]⟩ hex
  · intro y hy
    rw [List.mem_filterMap] at hy
    obtain ⟨b, _, hb⟩ := hy
    cases hM : M.get b j with
    | none => simp [hM] at hb
    | some x =>
      simp only [hM, Option.map_some', Option.some.injEq] at hb
      rw [← hb]
      exact lt_of_le_of_lt (popcountll_le x) (by norm_num)

/-- The popcounts of column `j` add up to the number of sources whose bit is set there. -/
theorem sum_popcount_eq_card (M : GrB_Matrix) (j : Nat) :
    ∑ b in Finset.range M.nrows, popcountll ((M.get b j).getD 0)
      = ((Finset.range (64 * M.nrows)).filter (fun s => source_bit M s j = true)).card := by
  rw [← sum_card_blocks]
  apply Finset.sum_congr rfl
  intro b _
  rw [popcountll_eq_card]
  congr 1
  apply Finset.filter_congr
  intro k hk
  have hk' := Finset.mem_range.mp hk
  unfold source_bit
  have h1 : (64 * b + k) / 64 = b := by omega
  have h2 : (64 * b + k) % 64 = k := by omega
  rw [h1, h2]
/-! ### One BFS round, pointwise -/

theorem bfs_new_label (adj : Nat → Nat → Bool) (n s L j : Nat) :
    bfs_rounds adj n s (L + 1) j = some (L + 1) ↔
      bfs_rounds adj n s L j = none ∧ j < n ∧
        ∃ i, i < n ∧ bfs_rounds adj n s L i = some L ∧ adj i j = true := by
  simp only [bfs_rounds, bfs_round]
  cases hprev : bfs_rounds adj n s L j with
  | some x =>
    have := bfs_rounds_le hprev
    simp only [Option.some.injEq, reduceCtorEq, false_and, iff_false]
    omega
  | none =>
    simp only [Bool.and_eq_true, decide_eq_true_eq, List.any_eq_true, List.mem_range,
      beq_iff_eq, true_and]
    constructor
    · intro h
      split at h
      · rename_i hc
        exact hc
      · cases h
    · intro h
      rw [if_pos h]

theorem bfs_rounds_succ_eq (adj : Nat → Nat → Bool) (n s L j : Nat) :
    bfs_rounds adj n s (L + 1) j =
      if bfs_rounds adj n s (L + 1) j = some (L + 1) then some (L + 1)
      else bfs_rounds adj n s L j := by
  by_cases h : bfs_rounds adj n s (L + 1) j = some (L + 1)
  · rw [if_pos h, h]
  · rw [if_neg h]
    cases hprev : bfs_rounds adj n s L j with
    | some x => exact bfs_rounds_stable hprev (L + 1) (by omega)
    | none =>
      cases hnext : bfs_rounds adj n s (L + 1) j with
      | none => rfl
      | some d =>
        exfalso
        obtain ⟨hd, hdist⟩ := (bfs_rounds_iff adj n s (L + 1) j d).mp hnext
        by_cases hdl : d = L + 1
        · subst hdl
          exact h hnext
        · have := (bfs_rounds_iff adj n s L j d).mpr ⟨by omega, hdist⟩
          rw [hprev] at this
          cases this

theorem any_filterMap_option (f : Nat → Option Nat) (p : Nat → Bool) (l : List Nat) :
    (l.filterMap f).any p = l.any (fun i => match f i with
      | some x => p x
      | none => false) := by
  induction l with
  | nil => simp
  | cons a l ih =>
    cases h : f a <;> simp [List.filterMap_cons, h, ih]

/-- Bit of source `s` in the expanded `next`: some vertex `i` occupied by `s` has an edge
to `j`. -/
theorem source_bit_expansion (nr nc : Nat) (F A : GrB_Matrix) (s j : Nat) :
    source_bit
      { nrows := nr, ncols := nc,
        cell := fun b j =>
          if b < nr ∧ j < nc then
            reduce_list GrB_BOR_UINT64 ((List.range A.nrows).filterMap (fun i =>
              if edge A i j then F.get b i else none))
          else none } s j
      = (decide (s / 64 < nr) && decide (j < nc) &&
          (List.range A.nrows).any (fun i => edge A i j && source_bit F s i)) := by
  unfold source_bit
  simp only [GrB_Matrix.get]
  by_cases hr : s / 64 < nr ∧ j < nc
  · simp only [hr, and_self, ↓reduceIte, decide_True, Bool.and_self, Bool.true_and]
    rw [testBit_reduce_bor, any_filterMap_option]
    congr 1
    funext i
    by_cases he : edge A i j = true
    · simp only [he, ↓reduceIte, Bool.true_and]
      cases hF : F.get (s / 64) i with
      | none =>
        simp only [GrB_Matrix.get] at hF
        simp [hF]
      | some x =>
        simp only [GrB_Matrix.get] at hF
        simp [hF]
    · simp [he]
  · have : (decide (s / 64 < nr) && decide (j < nc)) = false := by
      simp only [Bool.and_eq_false_iff, decide_eq_false_iff_not]
      tauto
    simp [hr, this]
theorem source_bit_masking (E S : GrB_Matrix) (s j : Nat) :
    source_bit (revisit_masking E S) s j = (source_bit E s j && !source_bit S s j) := by
  unfold source_bit
  rw [revisit_masking_get]
  by_cases hr : s / 64 < E.nrows ∧ j < E.ncols
  · rw [if_pos hr]
    exact masked_cell_bit _ _ _ (Nat.mod_lt _ (by norm_num))
  · rw [if_neg hr]
    have : E.get (s / 64) j = none := by
      unfold GrB_Matrix.get
      rw [if_neg hr]
    simp [this]

theorem revisit_masking_rows (E S : GrB_Matrix) : (revisit_masking E S).nrows = E.nrows := rfl

theorem revisit_masking_cols (E S : GrB_Matrix) : (revisit_masking E S).ncols = E.ncols := rfl

theorem source_bit_union (S N : GrB_Matrix) (hr : N.nrows = S.nrows) (hc : N.ncols = S.ncols)
    (s j : Nat) :
    source_bit (GrB_Matrix_eWiseAdd_BinaryOp S GrB_BOR_UINT64 S N) s j
      = (source_bit S s j || source_bit N s j) := by
  unfold source_bit GrB_Matrix_eWiseAdd_BinaryOp
  simp only [GrB_Matrix.get, hr, hc]
  by_cases hin : s / 64 < S.nrows ∧ j < S.ncols
  · simp only [hin, and_self, ↓reduceIte]
    cases S.cell (s / 64) j <;> cases N.cell (s / 64) j <;>
      simp [union_op, GrB_BOR_UINT64, Nat.testBit_lor]
  · simp [hin]

theorem expansion_eq {C : GrB_Matrix} {n L : Nat} {st : LoopState} (h : LevelInv C n L st)
    (hr : C.nrows = n) (hc : C.ncols = n) :
    expansion st.next st.frontier C = .ok (expanded st C) :=
  expansion_ok st.next st.frontier C (by rw [h.next_rows, h.frontier_rows])
    (by rw [h.next_cols, hc]) (by rw [h.frontier_cols, hr])

theorem expanded_get (st : LoopState) (C : GrB_Matrix) (b j : Nat) :
    (expanded st C).get b j =
      if b < st.next.nrows ∧ j < st.next.ncols then
        reduce_list GrB_BOR_UINT64 ((List.range C.nrows).filterMap (fun i =>
          if edge C i j then st.frontier.get b i else none))
      else none := by
  show (if b < st.next.nrows ∧ j < st.next.ncols then
      (if b < st.next.nrows ∧ j < st.next.ncols then _ else none) else none) = _
  by_cases hin : b < st.next.nrows ∧ j < st.next.ncols
  · simp only [if_pos hin]
  · simp only [if_neg hin]

theorem expanded_word {C : GrB_Matrix} {n L : Nat} {st : LoopState} (h : LevelInv C n L st)
    (b j x : Nat) (hx : (expanded st C).get b j = some x) : x < 2 ^ 64 := by
  rw [expanded_get] at hx
  split at hx
  · refine reduce_bor_lt _ ?_ x hx
    intro y hy
    rw [List.mem_filterMap] at hy
    obtain ⟨i, _, hi⟩ := hy
    split at hi
    · exact (h.frontier_word b i y hi).2
    · cases hi
  · cases hx

theorem next_bit {C : GrB_Matrix} {n L : Nat} {st : LoopState} (h : LevelInv C n L st)
    (hr : C.nrows = n) (hc : C.ncols = n) (s j : Nat) :
    source_bit (revisit_masking (expanded st C) st.seen) s j =
      (decide (s < n) && decide (j < n) &&
        (bfs_rounds (edge C) n s (L + 1) j == some (L + 1))) := by
  rw [source_bit_masking, h.seen_bit]
  unfold expanded
  rw [source_bit_expansion, h.next_rows, h.next_cols, hr]
  rw [Bool.eq_iff_iff]
  simp only [Bool.and_eq_true, decide_eq_true_eq, List.any_eq_true, List.mem_range,
    Bool.not_eq_true', Bool.and_eq_false_iff, decide_eq_false_iff_not, beq_iff_eq,
    h.frontier_bit, bfs_new_label]
  constructor
  · rintro ⟨⟨⟨_, hj⟩, i, hi, he, ⟨hs, _⟩, hlab⟩, hseen⟩
    refine ⟨⟨hs, hj⟩, ?_, hj, i, hi, hlab, he⟩
    rcases hseen with (hx | hx) | hx
    · exact absurd hs hx
    · exact absurd hj hx
    · cases hb : bfs_rounds (edge C) n s L j with
      | none => rfl
      | some v => simp [hb] at hx
  · rintro ⟨⟨hs, hj⟩, hnone, _, i, hi, hlab, he⟩
    refine ⟨⟨⟨by omega, hj⟩, i, hi, he, ⟨hs, hi⟩, hlab⟩, Or.inr ?_⟩
    simp [hnone]
theorem next_word {C : GrB_Matrix} {n L : Nat} {st : LoopState} (h : LevelInv C n L st)
    (b j x : Nat) (hx : (revisit_masking (expanded st C) st.seen).get b j = some x) :
    x ≠ 0 ∧ x < 2 ^ 64 := by
  rw [revisit_masking_get] at hx
  split at hx
  · exact ⟨masked_cell_ne_zero hx, masked_cell_lt (fun y hy => expanded_word h b j y hy) hx⟩
  · cases hx

theorem next_stored_iff {C : GrB_Matrix} {n L : Nat} {st : LoopState} (h : LevelInv C n L st)
    (hr : C.nrows = n) (hc : C.ncols = n) (j : Nat) :
    (∃ b, b < (n + 63) / 64 ∧ (revisit_masking (expanded st C) st.seen).get b j ≠ none) ↔
      ∃ s, s < n ∧ j < n ∧ bfs_rounds (edge C) n s (L + 1) j = some (L + 1) := by
  constructor
  · rintro ⟨b, _, hne⟩
    cases hx : (revisit_masking (expanded st C) st.seen).get b j with
    | none => exact absurd hx hne
    | some x =>
      obtain ⟨h0, hlt⟩ := next_word h b j x hx
      obtain ⟨k, hk, hbit⟩ := exists_bit_of_ne_zero h0 hlt
      have hsb : source_bit (revisit_masking (expanded st C) st.seen) (64 * b + k) j = true := by
        unfold source_bit
        have h1 : (64 * b + k) / 64 = b := by omega
        have h2 : (64 * b + k) % 64 = k := by omega
        rw [h1, h2, hx]
        exact hbit
      rw [next_bit h hr hc] at hsb
      simp only [Bool.and_eq_true, decide_eq_true_eq, beq_iff_eq] at hsb
      exact ⟨64 * b + k, hsb.1.1, hsb.1.2, hsb.2⟩
  · rintro ⟨s, hs, hj, hlab⟩
    have hsb : source_bit (revisit_masking (expanded st C) st.seen) s j = true := by
      rw [next_bit h hr hc]
      simp [hs, hj, hlab]
    refine ⟨s / 64, by omega, ?_⟩
    intro hnone
    unfold source_bit at hsb
    rw [hnone] at hsb
    simp at hsb

theorem next_nvals_zero_iff {C : GrB_Matrix} {n L : Nat} {st : LoopState}
    (h : LevelInv C n L st) (hr : C.nrows = n) (hc : C.ncols = n) :
    GrB_Matrix_nvals (revisit_masking (expanded st C) st.seen) = 0 ↔
      ∀ s, s < n → ∀ j, j < n → bfs_rounds (edge C) n s (L + 1) j ≠ some (L + 1) := by
  rw [nvals_eq_zero_iff]
  constructor
  · intro hall s hs j hj hlab
    obtain ⟨b, _, hne⟩ := (next_stored_iff h hr hc j).mpr ⟨s, hs, hj, hlab⟩
    exact hne (hall b j)
  · intro hall b j
    by_contra hne
    have hb : b < (n + 63) / 64 := by
      by_contra hb
      apply hne
      unfold GrB_Matrix.get
      rw [revisit_masking_rows]
      have : (expanded st C).nrows = (n + 63) / 64 := h.next_rows
      rw [this, if_neg (fun hh => hb hh.1)]
    obtain ⟨s, hs, hj, hlab⟩ := (next_stored_iff h hr hc j).mp ⟨b, hb, hne⟩
    exact hall s hs j hj hlab

/-- Number of sources that first reach `j` at level `L + 1`. -/
theorem next_popcount_sum {C : GrB_Matrix} {n L : Nat} {st : LoopState}
    (h : LevelInv C n L st) (hr : C.nrows = n) (hc : C.ncols = n) (j : Nat) :
    ∑ b in Finset.range ((n + 63) / 64),
        popcountll (((revisit_masking (expanded st C) st.seen).get b j).getD 0)
      = ((Finset.range n).filter
          (fun s => bfs_rounds (edge C) n s (L + 1) j = some (L + 1))).card := by
  have hrows : (revisit_masking (expanded st C) st.seen).nrows = (n + 63) / 64 := h.next_rows
  have := sum_popcount_eq_card (revisit_masking (expanded st C) st.seen) j
  rw [hrows] at this
  rw [this]
  congr 1
  ext s
  simp only [Finset.mem_filter, Finset.mem_range, next_bit h hr hc, Bool.and_eq_true,
    decide_eq_true_eq, beq_iff_eq]
  constructor
  · rintro ⟨_, ⟨hs, _⟩, hlab⟩
    exact ⟨hs, hlab⟩
  · rintro ⟨hs, hlab⟩
    exact ⟨by omega, ⟨hs, ((bfs_new_label _ _ _ _ _).mp hlab).2.1⟩, hlab⟩
/-! ### The path sums, one level on -/

theorem getD_succ (adj : Nat → Nat → Bool) (n s L j : Nat) :
    (bfs_rounds adj n s (L + 1) j).getD 0 =
      (bfs_rounds adj n s L j).getD 0 +
        (if bfs_rounds adj n s (L + 1) j = some (L + 1) then L + 1 else 0) := by
  by_cases h : bfs_rounds adj n s (L + 1) j = some (L + 1)
  · rw [if_pos h, h, ((bfs_new_label adj n s L j).mp h).1]
    simp
  · rw [if_neg h]
    have := bfs_rounds_succ_eq adj n s L j
    rw [if_neg h] at this
    rw [this]
    simp

theorem sum_getD_succ (adj : Nat → Nat → Bool) (n L j : Nat) :
    ∑ s in Finset.range n, (bfs_rounds adj n s (L + 1) j).getD 0 =
      ∑ s in Finset.range n, (bfs_rounds adj n s L j).getD 0 +
        (L + 1) * ((Finset.range n).filter
          (fun s => bfs_rounds adj n s (L + 1) j = some (L + 1))).card := by
  simp only [getD_succ adj n _ L j, Finset.sum_add_distrib]
  congr 1
  rw [Finset.sum_ite, Finset.sum_const, Finset.sum_const_zero, smul_eq_mul, Nat.add_zero,
    Nat.mul_comm]

theorem isSome_succ (adj : Nat → Nat → Bool) (n s L j : Nat) :
    (bfs_rounds adj n s (L + 1) j).isSome =
      ((bfs_rounds adj n s L j).isSome ||
        (bfs_rounds adj n s (L + 1) j == some (L + 1))) := by
  by_cases h : bfs_rounds adj n s (L + 1) j = some (L + 1)
  · simp [h]
  · have := bfs_rounds_succ_eq adj n s L j
    rw [if_neg h] at this
    rw [this]
    simp [← this, h]

theorem sum_getD_eq_zero (adj : Nat → Nat → Bool) (n L j : Nat)
    (h : (List.range n).any
      (fun s => decide (s ≠ j) && (bfs_rounds adj n s L j).isSome) = false) :
    ∑ s in Finset.range n, (bfs_rounds adj n s L j).getD 0 = 0 := by
  apply Finset.sum_eq_zero
  intro s hs
  have hs' := Finset.mem_range.mp hs
  rw [List.any_eq_false] at h
  have := h s (List.mem_range.mpr hs')
  by_cases hsj : s = j
  · subst hsj
    rw [bfs_rounds_self]
    rfl
  · simp only [ne_eq, hsj, not_false_eq_true, decide_True, Bool.true_and,
      Bool.not_eq_true, Option.not_isSome, Option.isNone_iff_eq_none] at this
    rw [this]
    rfl

theorem any_succ (adj : Nat → Nat → Bool) (n L j : Nat) :
    (List.range n).any (fun s => decide (s ≠ j) && (bfs_rounds adj n s (L + 1) j).isSome) =
      ((List.range n).any (fun s => decide (s ≠ j) && (bfs_rounds adj n s L j).isSome) ||
        decide (0 < ((Finset.range n).filter
          (fun s => bfs_rounds adj n s (L + 1) j = some (L + 1))).card)) := by
  rw [Bool.eq_iff_iff]
  simp only [List.any_eq_true, List.mem_range, Bool.and_eq_true, decide_eq_true_eq,
    Bool.or_eq_true, Finset.card_pos, isSome_succ adj n _ L j, beq_iff_eq]
  constructor
  · rintro ⟨s, hs, hne, hx | hx⟩
    · exact Or.inl ⟨s, hs, hne, hx⟩
    · exact Or.inr ⟨s, by simp [hs, hx]⟩
  · rintro (⟨s, hs, hne, hx⟩ | ⟨s, hs⟩)
    · exact ⟨s, hs, hne, Or.inl hx⟩
    · simp only [Finset.mem_filter, Finset.mem_range] at hs
      refine ⟨s, hs.1, ?_, Or.inr hs.2⟩
      intro hsj
      subst hsj
      have := hs.2
      rw [bfs_rounds_self] at this
      cases this

theorem add_mod_mul (S c l : Nat) : (S + c % 2 ^ 64 * l) % 2 ^ 64 = (S + l * c) % 2 ^ 64 := by
  rw [Nat.add_mod, Nat.mul_mod, Nat.mod_mod, ← Nat.mul_mod, ← Nat.add_mod, Nat.mul_comm]

/-- Update of one entry of `sp`: the old entry and the product of the popcount sum with
the level, combined on the union of the patterns. -/
theorem path_sum_step (adj : Nat → Nat → Bool) (n L j : Nat) :
    union_op GrB_PLUS_UINT64 (path_sum_after adj n L j)
      (intersect_op GrB_TIMES_UINT64
        (if 0 < ((Finset.range n).filter
            (fun s => bfs_rounds adj n s (L + 1) j = some (L + 1))).card then
          some (((Finset.range n).filter
            (fun s => bfs_rounds adj n s (L + 1) j = some (L + 1))).card % 2 ^ 64)
        else none)
        (if 0 < ((Finset.range n).filter
            (fun s => bfs_rounds adj n s (L + 1) j = some (L + 1))).card then
          some (L + 1) else none))
      = path_sum_after adj n (L + 1) j := by
  unfold path_sum_after
  rw [any_succ, sum_getD_succ]
  generalize ((Finset.range n).filter
    (fun s => bfs_rounds adj n s (L + 1) j = some (L + 1))).card = cnt
  by_cases hcnt : 0 < cnt
  · by_cases hold : (List.range n).any
        (fun s => decide (s ≠ j) && (bfs_rounds adj n s L j).isSome) = true
    · simp only [hcnt, hold, ↓reduceIte, intersect_op, union_op, decide_True, Bool.or_true,
        GrB_PLUS_UINT64, GrB_TIMES_UINT64, Option.some.injEq]
      rw [Nat.add_mod_mod, Nat.mod_add_mod]
      exact add_mod_mul _ _ _
    · simp only [Bool.not_eq_true] at hold
      simp only [hcnt, hold, ↓reduceIte, intersect_op, union_op, decide_True, Bool.or_true,
        GrB_TIMES_UINT64, Option.some.injEq, Bool.false_eq_true,
        sum_getD_eq_zero adj n L j hold]
      have := add_mod_mul 0 cnt (L + 1)
      simpa using this
  · have h0 : cnt = 0 := by omega
    subst h0
    by_cases hold : (List.range n).any
        (fun s => decide (s ≠ j) && (bfs_rounds adj n s L j).isSome) = true
    · simp only [hold, Nat.lt_irrefl, ↓reduceIte, intersect_op, union_op, decide_False,
        Bool.or_false, Nat.mul_zero, Nat.add_zero]
    · simp only [Bool.not_eq_true] at hold
      simp only [hold, Nat.lt_irrefl, ↓reduceIte, intersect_op, union_op, decide_False,
        Bool.or_false, Bool.false_eq_true]
/-! ### One iteration of the loop -/

theorem eWiseAdd_get (w : GrB_Vector) (op : Nat → Nat → Nat) (u v : GrB_Vector) (i : Nat) :
    (GrB_Vector_eWiseAdd_BinaryOp w op u v).get i =
      if i < w.size then union_op op (u.get i) (v.get i) else none := by
  unfold GrB_Vector_eWiseAdd_BinaryOp
  simp only [GrB_Vector.get]
  by_cases h : i < w.size <;> simp [h]

theorem eWiseMult_get (w : GrB_Vector) (op : Nat → Nat → Nat) (u v : GrB_Vector) (i : Nat) :
    (GrB_Vector_eWiseMult_BinaryOp w op u v).get i =
      if i < w.size then intersect_op op (u.get i) (v.get i) else none := by
  unfold GrB_Vector_eWiseMult_BinaryOp
  simp only [GrB_Vector.get]
  by_cases h : i < w.size <;> simp [h]

theorem subassign_get (w mask : GrB_Vector) (x i : Nat) :
    (GxB_Vector_subassign_UINT64 w mask x).get i =
      if i < w.size then (if (mask.get i).isSome then some x else w.get i) else none := by
  unfold GxB_Vector_subassign_UINT64
  simp only [GrB_Vector.get]
  by_cases h : i < w.size
  · simp only [h, ↓reduceIte, write_back, structural_mask, GrB_Vector.get]
    by_cases hm : i < mask.size
    · cases mask.entry i <;> simp [hm]
    · simp [hm]
  · simp [h]

theorem next_popcount_get {C : GrB_Matrix} {n L : Nat} {st : LoopState}
    (h : LevelInv C n L st) (hr : C.nrows = n) (hc : C.ncols = n) (j : Nat) (hj : j < n) :
    (popcount_reduce st.Next_PopCount st.next_popcount
        (revisit_masking (expanded st C) st.seen)).2.get j =
      if 0 < ((Finset.range n).filter
          (fun s => bfs_rounds (edge C) n s (L + 1) j = some (L + 1))).card then
        some (((Finset.range n).filter
          (fun s => bfs_rounds (edge C) n s (L + 1) j = some (L + 1))).card % 2 ^ 64)
      else none := by
  have hNr : (revisit_masking (expanded st C) st.seen).nrows = (n + 63) / 64 := h.next_rows
  have hNc : (revisit_masking (expanded st C) st.seen).ncols = n := h.next_cols
  rw [popcount_reduce_get _ _ _ (by rw [hNr, h.pc_rows]) (by rw [hNc, h.pc_cols])
    (by rw [hNc, h.npc_size]) j (by rw [hNc]; exact hj)]
  rw [hNr, next_popcount_sum h hr hc]
  have hiff := next_stored_iff h hr hc j
  by_cases hex : ∃ b, b < (n + 63) / 64 ∧
      (revisit_masking (expanded st C) st.seen).get b j ≠ none
  · rw [if_pos hex, if_pos]
    obtain ⟨s, hs, _, hlab⟩ := hiff.mp hex
    rw [Finset.card_pos]
    exact ⟨s, by simp [hs, hlab]⟩
  · rw [if_neg hex, if_neg]
    intro hpos
    rw [Finset.card_pos] at hpos
    obtain ⟨s, hs⟩ := hpos
    simp only [Finset.mem_filter, Finset.mem_range] at hs
    exact hex (hiff.mpr ⟨s, hs.1, hj, hs.2⟩)


theorem level_iteration_break {C : GrB_Matrix} {n L : Nat} {st : LoopState}
    (h : LevelInv C n L st) (hr : C.nrows = n) (hc : C.ncols = n)
    (ones : GrB_Vector) (threshold : ℚ) (mr sr : Nat)
    (hq : ∀ s, s < n → ∀ j, j < n → bfs_rounds (edge C) n s (L + 1) j ≠ some (L + 1)) :
    ∃ st1, level_iteration C ones threshold mr sr (L + 1) st = .ok st1 ∧
      st1.left_by_break = true ∧ st1.frontier = st.frontier ∧ st1.seen = st.seen ∧
      st1.sp = st.sp ∧ st1.levels_done = st.levels_done := by
  unfold level_iteration
  rw [expansion_eq h hr hc]
  simp only
  rw [if_pos ((next_nvals_zero_iff h hr hc).mpr hq)]
  exact ⟨_, rfl, rfl, rfl, rfl, rfl, rfl⟩

theorem level_iteration_step {C : GrB_Matrix} {n L : Nat} {st : LoopState}
    (h : LevelInv C n L st) (hr : C.nrows = n) (hc : C.ncols = n)
    (ones : GrB_Vector) (threshold : ℚ) (mr sr : Nat)
    (hq : ¬ ∀ s, s < n → ∀ j, j < n → bfs_rounds (edge C) n s (L + 1) j ≠ some (L + 1)) :
    ∃ st1, level_iteration C ones threshold mr sr (L + 1) st = .ok st1 ∧
      LevelInv C n (L + 1) st1 := by
  unfold level_iteration
  rw [expansion_eq h hr hc]
  simp only
  rw [if_neg (fun h0 => hq ((next_nvals_zero_iff h hr hc).mp h0))]
  refine ⟨_, rfl, ?_⟩
  have hNr : (revisit_masking (expanded st C) st.seen).nrows = (n + 63) / 64 := h.next_rows
  have hNc : (revisit_masking (expanded st C) st.seen).ncols = n := h.next_cols
  constructor
  · exact hNr
  · exact hNc
  · exact hNr
  · exact hNc
  · exact h.seen_rows
  · exact h.seen_cols
  · exact h.pc_rows
  · exact h.pc_cols
  · exact h.npc_size
  · exact h.level_v_size
  · exact h.sp_size
  · exact fun b j x hx => next_word h b j x hx
  · exact fun s j => next_bit h hr hc s j
  · intro s j
    show source_bit (GrB_Matrix_eWiseAdd_BinaryOp st.seen GrB_BOR_UINT64 st.seen
      (revisit_masking (expanded st C) st.seen)) s j = _
    rw [source_bit_union _ _ (by rw [hNr, h.seen_rows]) (by rw [hNc, h.seen_cols]),
      h.seen_bit, next_bit h hr hc, isSome_succ]
    cases decide (s < n) <;> cases decide (j < n) <;> simp
  · intro j hj
    have hsz : (popcount_reduce st.Next_PopCount st.next_popcount
        (revisit_masking (expanded st C) st.seen)).2.size = n := h.npc_size
    have hlv : (GrB_Vector_eWiseAdd_BinaryOp st.level_v GrB_PLUS_UINT64 st.level_v ones).size = n :=
      h.level_v_size
    show (GrB_Vector_eWiseAdd_BinaryOp st.sp GrB_PLUS_UINT64 st.sp _).get j = _
    rw [eWiseAdd_get, h.sp_size, if_pos hj, eWiseMult_get, hsz, if_pos hj, subassign_get, hlv,
      if_pos hj, next_popcount_get h hr hc j hj, h.sp_entry j hj, ← path_sum_step]
    congr 1
    by_cases hcnt : 0 < ((Finset.range n).filter
        (fun s => bfs_rounds (edge C) n s (L + 1) j = some (L + 1))).card
    · simp [hcnt]
    · simp [hcnt, intersect_op]
  · show st.levels_done + 1 = L + 1
    rw [h.levels]
  · rfl
/-! ### Entry into the loop -/

theorem source_bit_diagonal (n s j : Nat) :
    source_bit (diagonal_bit_matrix n) s j = (decide (s < n) && decide (j < n) && decide (j = s)) := by
  unfold source_bit diagonal_bit_matrix GrB_Matrix.get
  simp only
  by_cases hjs : j = s
  · subst hjs
    by_cases hj : j < n
    · have : j / 64 < (n + 63) / 64 := by omega
      simp [hj, this, Nat.testBit_two_pow_self]
    · simp [hj]
  · by_cases hin : s / 64 < (n + 63) / 64 ∧ j < n
    · by_cases hb : j / 64 = s / 64
      · have hmod : j % 64 ≠ s % 64 := by omega
        simp [hin, hb, hjs, Nat.testBit_two_pow_of_ne hmod]
      · simp [hin, hb, hjs]
    · simp [hin, hjs]

theorem loop_entry_eq (ndebug : Bool) (g : Int) (push : Bool) (A : GrB_Matrix) (n : Nat)
    (hr : A.nrows = n) (hc : A.ncols = n) (hb : n + 63 < 2 ^ 64) :
    loop_entry ndebug g push A = .ok
      { frontier := diagonal_bit_matrix n,
        next := GrB_Matrix_new ((n + 63) / 64) n,
        Next_PopCount := GrB_Matrix_new ((n + 63) / 64) n,
        seen := diagonal_bit_matrix n,
        next_popcount := GrB_Vector_new n, level_v := GrB_Vector_new n, sp := GrB_Vector_new n,
        push := push,
        r_before := density (GrB_Matrix_nvals (diagonal_bit_matrix n)) n n,
        frontier_nvals := GrB_Matrix_nvals (diagonal_bit_matrix n),
        levels_done := 0, left_by_break := false } := by
  unfold loop_entry input_check
  simp only [hr, hc, ne_eq, not_true_eq_false, decide_False, Bool.and_false, Bool.false_eq_true,
    ↓reduceIte, Nat.mod_eq_of_lt hb]
  rw [create_diagonal_bit_matrix_eq ndebug g n hb _ rfl rfl
    ((nvals_eq_zero_iff _).mpr (fun b j => by simp [GrB_Matrix.get, GrB_Matrix_new]))]
  rfl

theorem levelInv_entry (C : GrB_Matrix) (n : Nat) (push : Bool) :
    LevelInv C n 0
      { frontier := diagonal_bit_matrix n,
        next := GrB_Matrix_new ((n + 63) / 64) n,
        Next_PopCount := GrB_Matrix_new ((n + 63) / 64) n,
        seen := diagonal_bit_matrix n,
        next_popcount := GrB_Vector_new n, level_v := GrB_Vector_new n, sp := GrB_Vector_new n,
        push := push,
        r_before := density (GrB_Matrix_nvals (diagonal_bit_matrix n)) n n,
        frontier_nvals := GrB_Matrix_nvals (diagonal_bit_matrix n),
        levels_done := 0, left_by_break := false } := by
  constructor
  · rfl
  · rfl
  · rfl
  · rfl
  · rfl
  · rfl
  · rfl
  · rfl
  · rfl
  · rfl
  · rfl
  · intro b j x hx
    simp only [GrB_Matrix.get, diagonal_bit_matrix] at hx
    split at hx
    · split at hx
      · cases hx
        exact ⟨by positivity, Nat.pow_lt_pow_right (by norm_num) (Nat.mod_lt _ (by norm_num))⟩
      · cases hx
    · cases hx
  · intro s j
    show source_bit (diagonal_bit_matrix n) s j = _
    rw [source_bit_diagonal]
    simp only [bfs_rounds]
    by_cases h : j = s <;> simp [h]
  · intro s j
    show source_bit (diagonal_bit_matrix n) s j = _
    rw [source_bit_diagonal]
    simp only [bfs_rounds]
    by_cases h : j = s <;> simp [h]
  · intro j hj
    show (GrB_Vector_new n).get j = _
    unfold path_sum_after
    rw [if_neg]
    · simp [GrB_Vector.get, GrB_Vector_new]
    · simp only [bfs_rounds, Bool.not_eq_true, List.any_eq_false, List.mem_range]
      intro s _
      by_cases h : s = j
      · simp [h]
      · have : ¬ j = s := fun hh => h hh.symm
        simp [h, this]
  · rfl
  · rfl

/-! ### The whole traversal -/

theorem traversal_spec (C : GrB_Matrix) (n : Nat) (hr : C.nrows = n) (hc : C.ncols = n)
    (ones : GrB_Vector) (threshold : ℚ) (mr sr : Nat) :
    ∀ (remaining L : Nat) (st : LoopState), LevelInv C n L st → L + remaining = n - 1 →
      (∀ l, 1 ≤ l → l ≤ L → ∃ s, s < n ∧ ∃ j, j < n ∧ bfs_rounds (edge C) n s l j = some l) →
      ∃ final Lf, traversal C ones threshold mr sr remaining (L + 1) st = .ok final ∧
        TraversalEnd C n Lf final := by
  intro remaining
  induction remaining with
  | zero =>
    intro L st h hL hreach
    refine ⟨st, L, rfl, ?_⟩
    exact ⟨h.seen_rows, h.seen_cols, h.sp_size, h.seen_bit, h.sp_entry, h.levels,
      Or.inr ⟨h.running, by omega⟩, hreach⟩
  | succ remaining ih =>
    intro L st h hL hreach
    unfold traversal
    by_cases hq : ∀ s, s < n → ∀ j, j < n → bfs_rounds (edge C) n s (L + 1) j ≠ some (L + 1)
    · obtain ⟨st1, hst1, hbrk, _, hseen, hsp, hlev⟩ :=
        level_iteration_break h hr hc ones threshold mr sr hq
      rw [hst1]
      simp only [hbrk, ↓reduceIte]
      refine ⟨st1, L, rfl, ?_⟩
      refine ⟨by rw [hseen]; exact h.seen_rows, by rw [hseen]; exact h.seen_cols,
        by rw [hsp]; exact h.sp_size, by rw [hseen]; exact h.seen_bit,
        by rw [hsp]; exact h.sp_entry, by rw [hlev]; exact h.levels,
        Or.inl ⟨hbrk, by omega, hq⟩, hreach⟩
    · obtain ⟨st1, hst1, hinv⟩ := level_iteration_step h hr hc ones threshold mr sr hq
      rw [hst1]
      simp only [hinv.running, Bool.false_eq_true, ↓reduceIte]
      refine ih (L + 1) st1 hinv (by omega) ?_
      intro l hl1 hl2
      by_cases hlL : l ≤ L
      · exact hreach l hl1 hlL
      · have : l = L + 1 := by omega
        subst this
        by_contra hcon
        apply hq
        intro s hs j hj hlab
        exact hcon ⟨s, hs, j, hj, hlab⟩
theorem compute_ccv_run_ok (ndebug : Bool) (g : Int)
    (reorder : GrB_Matrix → GrB_Matrix × (Nat → Nat)) (threshold : ℚ) (push : Bool)
    (A : GrB_Matrix) (n : Nat) (hr : A.nrows = n) (hc : A.ncols = n) (hb : n + 63 < 2 ^ 64)
    (hCr : (reorder A).1.nrows = n) (hCc : (reorder A).1.ncols = n) :
    ∃ final Lf, compute_ccv_run ndebug g reorder threshold push A
        = .ok (finalizer n (reorder A).2 final) ∧
      TraversalEnd (reorder A).1 n Lf final := by
  unfold compute_ccv_run
  rw [loop_entry_eq ndebug g push A n hr hc hb]
  simp only [hr]
  obtain ⟨final, Lf, htrav, hend⟩ := traversal_spec (reorder A).1 n hCr hCc
    (GrB_Vector_assign_UINT64 (GrB_Vector_new n) 1) threshold n n (n - 1) 0 _
    (levelInv_entry (reorder A).1 n push) (by omega) (fun l h1 h2 => absurd h1 (by omega))
  refine ⟨final, Lf, ?_, hend⟩
  simp only [Nat.zero_add] at htrav
  rw [htrav]

/-- When the traversal has ended, the labels behind `seen` and `sp` are those of the
complete single-source BFS. -/
theorem TraversalEnd.labels {C : GrB_Matrix} {n Lf : Nat} {final : LoopState}
    (h : TraversalEnd C n Lf final) (s : Nat) (hs : s < n) (j : Nat) :
    bfs_rounds (edge C) n s Lf j = single_source_bfs (edge C) n s j := by
  unfold single_source_bfs
  rcases h.exit with ⟨_, hlt, hq⟩ | ⟨_, heq⟩
  · symm
    apply bfs_rounds_quiet _ n j (by omega)
    intro t hlab
    have ht := ((bfs_new_label _ _ _ _ _).mp hlab).2.1
    exact hq s hs t ht hlab
  · rw [heq]
    exact (bfs_rounds_bound hs n j (by omega)).symm

theorem TraversalEnd.levels_le {C : GrB_Matrix} {n Lf : Nat} {final : LoopState}
    (h : TraversalEnd C n Lf final) : Lf ≤ n - 1 := by
  rcases h.exit with ⟨_, hlt, _⟩ | ⟨_, heq⟩ <;> omega

/-! ### The finalizer -/

theorem reached_by_pos (adj : Nat → Nat → Bool) (n j : Nat) (hj : j < n) :
    1 ≤ reached_by adj n j := by
  unfold reached_by
  rw [Nat.succ_le_iff, Finset.card_pos]
  refine ⟨j, ?_⟩
  simp [hj, single_source_bfs, bfs_rounds_self]

theorem reached_by_le (adj : Nat → Nat → Bool) (n j : Nat) : reached_by adj n j ≤ n := by
  unfold reached_by
  calc _ ≤ (Finset.range n).card := Finset.card_filter_le _ _
    _ = n := Finset.card_range n

theorem compsize_reduced_get {C : GrB_Matrix} {n Lf : Nat} {final : LoopState}
    (h : TraversalEnd C n Lf final) (hb : n + 63 < 2 ^ 64) (m : Nat → Nat) (j : Nat)
    (hj : j < n) :
    (finalizer n m final).compsize_reduced.get j = some (reached_by (edge C) n j) := by
  show (popcount_reduce (GrB_Matrix_new (((n + 63) % 2 ^ 64) / 64) n) (GrB_Vector_new n)
    final.seen).2.get j = _
  rw [Nat.mod_eq_of_lt hb]
  rw [popcount_reduce_get _ _ _ (by rw [h.seen_rows]; rfl) (by rw [h.seen_cols]; rfl)
    (by rw [h.seen_cols]; rfl) j (by rw [h.seen_cols]; exact hj)]
  have hself : source_bit final.seen j j = true := by
    rw [h.seen_bit]
    simp [hj, bfs_rounds_self]
  rw [if_pos]
  · rw [sum_popcount_eq_card, h.seen_rows]
    have hcard : ((Finset.range (64 * ((n + 63) / 64))).filter
        (fun s => source_bit final.seen s j = true)).card = reached_by (edge C) n j := by
      unfold reached_by
      congr 1
      ext s
      simp only [Finset.mem_filter, Finset.mem_range, h.seen_bit, Bool.and_eq_true,
        decide_eq_true_eq]
      constructor
      · rintro ⟨_, ⟨hs, _⟩, hsome⟩
        rw [← h.labels s hs j]
        exact ⟨hs, hsome⟩
      · rintro ⟨hs, hsome⟩
        rw [← h.labels s hs j] at hsome
        exact ⟨by omega, ⟨hs, hj⟩, hsome⟩
    rw [hcard, Nat.mod_eq_of_lt]
    have := reached_by_le (edge C) n j
    omega
  · refine ⟨j / 64, by rw [h.seen_rows]; omega, ?_⟩
    intro hnone
    unfold source_bit at hself
    rw [hnone] at hself
    simp at hself
theorem final_sp_get {C : GrB_Matrix} {n Lf : Nat} {final : LoopState}
    (h : TraversalEnd C n Lf final) (j : Nat) (hj : j < n) :
    final.sp.get j =
      if reached_by_other (edge C) n j then some (dist_sum_to (edge C) n j % 2 ^ 64)
      else none := by
  rw [h.sp_entry j hj]
  unfold path_sum_after reached_by_other dist_sum_to
  have h1 : (List.range n).any
        (fun s => decide (s ≠ j) && (bfs_rounds (edge C) n s Lf j).isSome)
      = (List.range n).any
        (fun s => decide (s ≠ j) && (single_source_bfs (edge C) n s j).isSome) := by
    rw [Bool.eq_iff_iff]
    simp only [List.any_eq_true, List.mem_range]
    constructor
    · rintro ⟨s, hs, hx⟩
      exact ⟨s, hs, by rw [← h.labels s hs j]; exact hx⟩
    · rintro ⟨s, hs, hx⟩
      exact ⟨s, hs, by rw [h.labels s hs j]; exact hx⟩
  have h2 : ∑ s in Finset.range n, (bfs_rounds (edge C) n s Lf j).getD 0
      = ∑ s in Finset.range n, (single_source_bfs (edge C) n s j).getD 0 := by
    apply Finset.sum_congr rfl
    intro s hs
    rw [h.labels s (Finset.mem_range.mp hs) j]
  rw [h1, h2]

theorem assign_get (w : GrB_Vector) (x i : Nat) :
    (GrB_Vector_assign_UINT64 w x).get i = if i < w.size then some x else none := by
  unfold GrB_Vector_assign_UINT64 GrB_Vector.get
  by_cases h : i < w.size <;> simp [h]

theorem compsize_minus_one_get {C : GrB_Matrix} {n Lf : Nat} {final : LoopState}
    (h : TraversalEnd C n Lf final) (hb : n + 63 < 2 ^ 64) (m : Nat → Nat) (j : Nat)
    (hj : j < n) :
    (finalizer n m final).compsize_minus_one.get j = some (reached_by (edge C) n j - 1) := by
  have hcs := compsize_reduced_get h hb m j hj
  show (GrB_Vector_eWiseAdd_BinaryOp (finalizer n m final).compsize_reduced GrB_MINUS_UINT64
    (finalizer n m final).compsize_reduced
    (GrB_Vector_assign_UINT64 (GrB_Vector_new n) 1)).get j = _
  have hsz : (finalizer n m final).compsize_reduced.size = n := rfl
  rw [eWiseAdd_get, hsz, if_pos hj, hcs, assign_get]
  have h1 := reached_by_pos (edge C) n j hj
  have h2 := reached_by_le (edge C) n j
  simp only [GrB_Vector_new, hj, ↓reduceIte, union_op, GrB_MINUS_UINT64, Option.some.injEq]
  omega

theorem compsize_squared_get {C : GrB_Matrix} {n Lf : Nat} {final : LoopState}
    (h : TraversalEnd C n Lf final) (hb : n + 63 < 2 ^ 64) (m : Nat → Nat) (j : Nat)
    (hj : j < n) :
    (finalizer n m final).compsize_squared.get j =
      some (((reached_by (edge C) n j - 1) * (reached_by (edge C) n j - 1)) % 2 ^ 64) := by
  have hcs := compsize_minus_one_get h hb m j hj
  show (GrB_Vector_eWiseMult_BinaryOp (finalizer n m final).compsize_minus_one GrB_TIMES_UINT64
    (finalizer n m final).compsize_minus_one (finalizer n m final).compsize_minus_one).get j = _
  have hsz : (finalizer n m final).compsize_minus_one.size = n := rfl
  rw [eWiseMult_get, hsz, if_pos hj, hcs]
  rfl

theorem sp_scaled_get {C : GrB_Matrix} {n Lf : Nat} {final : LoopState}
    (h : TraversalEnd C n Lf final) (hn : 1 ≤ n) (hb : n + 63 < 2 ^ 64) (m : Nat → Nat)
    (j : Nat) (hj : j < n) :
    (finalizer n m final).sp_scaled.get j =
      if reached_by_other (edge C) n j then
        some (((n - 1) * (dist_sum_to (edge C) n j % 2 ^ 64)) % 2 ^ 64)
      else none := by
  show (GrB_Vector_eWiseMult_BinaryOp final.sp GrB_TIMES_UINT64
    (GrB_Vector_assign_UINT64 (GrB_Vector_new n) ((n + (2 ^ 64 - 1)) % 2 ^ 64)) final.sp).get j = _
  rw [eWiseMult_get, h.sp_size, if_pos hj, assign_get, final_sp_get h j hj]
  have hn1 : (n + (2 ^ 64 - 1)) % 2 ^ 64 = n - 1 := by omega
  rw [hn1]
  by_cases hro : reached_by_other (edge C) n j = true
  · simp [hro, GrB_Vector_new, hj, intersect_op, GrB_TIMES_UINT64]
  · simp [hro, GrB_Vector_new, hj, intersect_op]

theorem ccv_result_get {C : GrB_Matrix} {n Lf : Nat} {final : LoopState}
    (h : TraversalEnd C n Lf final) (hn : 1 ≤ n) (hb : n + 63 < 2 ^ 64) (m : Nat → Nat)
    (j : Nat) (hj : j < n) :
    (finalizer n m final).ccv_result.get j =
      if reached_by_other (edge C) n j then
        some { num := ((reached_by (edge C) n j - 1) * (reached_by (edge C) n j - 1)) % 2 ^ 64,
               den := ((n - 1) * (dist_sum_to (edge C) n j % 2 ^ 64)) % 2 ^ 64 }
      else none := by
  have h1 := compsize_squared_get h hb m j hj
  have h2 := sp_scaled_get h hn hb m j hj
  show (GrB_Vector_eWiseMult_DIV_FP64 { size := n, entry := fun _ => none }
    (finalizer n m final).compsize_squared (finalizer n m final).sp_scaled).get j = _
  unfold GrB_Vector_eWiseMult_DIV_FP64 GrB_Vector_FP64.get
  simp only [hj, ↓reduceIte, h1, h2]
  by_cases hro : reached_by_other (edge C) n j = true
  · simp [hro]
  · simp [hro]
/-! ### Symmetry and reordering -/

theorem IsReordering.symmetric {A C : GrB_Matrix} {m : Nat → Nat} {n : Nat}
    (hre : IsReordering A C m) (hr : A.nrows = n) (hs : Symmetric (edge A) n) :
    Symmetric (edge C) n := by
  obtain ⟨_, _, hm, hinj, he⟩ := hre
  rw [hr] at hm hinj he
  intro i hi j hj
  obtain ⟨a, ha, rfl⟩ := perm_surj hm hinj i hi
  obtain ⟨b, hb, rfl⟩ := perm_surj hm hinj j hj
  rw [he a ha b hb, he b hb a ha, hs a ha b hb]

theorem single_source_bfs_symm {adj : Nat → Nat → Bool} {n : Nat} (hs : Symmetric adj n)
    (s j : Nat) : single_source_bfs adj n s j = single_source_bfs adj n j s :=
  bfs_rounds_symm hs s j n

theorem reached_by_eq_reach {adj : Nat → Nat → Bool} {n : Nat} (hs : Symmetric adj n)
    (j : Nat) : reached_by adj n j = reach adj n j := by
  unfold reached_by reach
  congr 1
  apply Finset.filter_congr
  intro s _
  rw [single_source_bfs_symm hs s j]

theorem dist_sum_to_eq_dist_sum {adj : Nat → Nat → Bool} {n : Nat} (hs : Symmetric adj n)
    (j : Nat) : dist_sum_to adj n j = dist_sum adj n j := by
  unfold dist_sum_to dist_sum
  apply Finset.sum_congr rfl
  intro s _
  rw [single_source_bfs_symm hs s j]

theorem single_source_bfs_map {A C : GrB_Matrix} {m : Nat → Nat} {n : Nat}
    (hre : IsReordering A C m) (hr : A.nrows = n) {p t : Nat} (hp : p < n) (ht : t < n) :
    single_source_bfs (edge C) n (m p) (m t) = single_source_bfs (edge A) n p t := by
  obtain ⟨_, _, hm, hinj, he⟩ := hre
  rw [hr] at hm hinj he
  exact bfs_rounds_map hm hinj he hp ht n

theorem reach_map {A C : GrB_Matrix} {m : Nat → Nat} {n : Nat}
    (hre : IsReordering A C m) (hr : A.nrows = n) {p : Nat} (hp : p < n) :
    reach (edge C) n (m p) = reach (edge A) n p := by
  have hre' := hre
  obtain ⟨_, _, hm, hinj, _⟩ := hre
  rw [hr] at hm hinj
  unfold reach
  symm
  apply Finset.card_bij (fun t _ => m t)
  · intro t ht
    simp only [Finset.mem_filter, Finset.mem_range] at ht ⊢
    exact ⟨hm t ht.1, by rw [single_source_bfs_map hre' hr hp ht.1]; exact ht.2⟩
  · intro a ha b hb hab
    simp only [Finset.mem_filter, Finset.mem_range] at ha hb
    exact hinj a ha.1 b hb.1 hab
  · intro t' ht'
    simp only [Finset.mem_filter, Finset.mem_range] at ht'
    obtain ⟨t, ht, rfl⟩ := perm_surj hm hinj t' ht'.1
    refine ⟨t, ?_, rfl⟩
    simp only [Finset.mem_filter, Finset.mem_range]
    exact ⟨ht, by rw [← single_source_bfs_map hre' hr hp ht]; exact ht'.2⟩

theorem dist_sum_map {A C : GrB_Matrix} {m : Nat → Nat} {n : Nat}
    (hre : IsReordering A C m) (hr : A.nrows = n) {p : Nat} (hp : p < n) :
    dist_sum (edge C) n (m p) = dist_sum (edge A) n p := by
  have hre' := hre
  obtain ⟨_, _, hm, hinj, _⟩ := hre
  rw [hr] at hm hinj
  unfold dist_sum
  symm
  apply Finset.sum_bij (fun t _ => m t)
  · intro t ht
    simp only [Finset.mem_range] at ht ⊢
    exact hm t ht
  · intro a ha b hb hab
    simp only [Finset.mem_range] at ha hb
    exact hinj a ha b hb hab
  · intro t' ht'
    simp only [Finset.mem_range] at ht'
    obtain ⟨t, ht, rfl⟩ := perm_surj hm hinj t' ht'
    exact ⟨t, Finset.mem_range.mpr ht, rfl⟩
  · intro t ht
    simp only [Finset.mem_range] at ht
    rw [single_source_bfs_map hre' hr hp ht]

/-! ### Bounds -/

theorem single_source_bfs_lt {adj : Nat → Nat → Bool} {n p t d : Nat} (hp : p < n)
    (h : single_source_bfs adj n p t = some d) : d ≤ n - 1 := by
  have := ((bfs_rounds_iff adj n p n t d).mp h).2.lt hp
  omega

theorem dist_sum_le (adj : Nat → Nat → Bool) (n p : Nat) (hp : p < n) :
    dist_sum adj n p ≤ (n - 1) * (n - 1) := by
  unfold dist_sum
  have hp0 : (single_source_bfs adj n p p).getD 0 = 0 := by
    unfold single_source_bfs
    rw [bfs_rounds_self]
    rfl
  rw [← Finset.sum_erase (Finset.range n) (f := fun t => (single_source_bfs adj n p t).getD 0) hp0]
  have hcard : ((Finset.range n).erase p).card = n - 1 := by
    rw [Finset.card_erase_of_mem (Finset.mem_range.mpr hp), Finset.card_range]
  calc ∑ t in (Finset.range n).erase p, (single_source_bfs adj n p t).getD 0
      ≤ ((Finset.range n).erase p).card • (n - 1) := by
        apply Finset.sum_le_card_nsmul
        intro t _
        cases hd : single_source_bfs adj n p t with
        | none => simp
        | some d => simpa using single_source_bfs_lt hp hd
    _ = (n - 1) * (n - 1) := by rw [hcard, smul_eq_mul]

theorem reach_pos (adj : Nat → Nat → Bool) (n p : Nat) (hp : p < n) : 1 ≤ reach adj n p := by
  unfold reach
  rw [Nat.succ_le_iff, Finset.card_pos]
  exact ⟨p, by simp [hp, single_source_bfs, bfs_rounds_self]⟩

theorem reach_le (adj : Nat → Nat → Bool) (n p : Nat) : reach adj n p ≤ n := by
  unfold reach
  calc _ ≤ (Finset.range n).card := Finset.card_filter_le _ _
    _ = n := Finset.card_range n

theorem bound_of_cube {n : Nat} (h : (n - 1) ^ 3 < 2 ^ 64) : n + 63 < 2 ^ 64 := by
  by_contra hcon
  have h1 : 2 ^ 22 ≤ n - 1 := by
    have : (2:Nat) ^ 64 - 64 ≤ n - 1 := by omega
    calc (2:Nat) ^ 22 ≤ 2 ^ 64 - 64 := by norm_num
      _ ≤ n - 1 := this
  have h2 : (2 ^ 22) ^ 3 ≤ (n - 1) ^ 3 := Nat.pow_le_pow_left h1 3
  have h3 : (2:Nat) ^ 64 ≤ (2 ^ 22) ^ 3 := by norm_num
  omega
theorem mapping_lt {A C : GrB_Matrix} {m : Nat → Nat} {n : Nat} (hre : IsReordering A C m)
    (hr : A.nrows = n) {p : Nat} (hp : p < n) : m p < n := by
  obtain ⟨_, _, hm, _, _⟩ := hre
  rw [hr] at hm
  exact hm p hp

theorem reached_by_other_map {A C : GrB_Matrix} {m : Nat → Nat} {n : Nat}
    (hre : IsReordering A C m) (hr : A.nrows = n) {p : Nat} (hp : p < n) :
    reached_by_other (edge C) n (m p) = reached_by_other (edge A) n p := by
  have hre' := hre
  obtain ⟨_, _, hm, hinj, _⟩ := hre
  rw [hr] at hm hinj
  unfold reached_by_other
  rw [Bool.eq_iff_iff]
  simp only [List.any_eq_true, List.mem_range, Bool.and_eq_true, decide_eq_true_eq]
  constructor
  · rintro ⟨s', hs', hne, hsome⟩
    obtain ⟨s, hs, rfl⟩ := perm_surj hm hinj s' hs'
    refine ⟨s, hs, fun h => hne (by rw [h]), ?_⟩
    rw [← single_source_bfs_map hre' hr hs hp]
    exact hsome
  · rintro ⟨s, hs, hne, hsome⟩
    refine ⟨m s, hm s hs, fun h => hne (hinj s hs p hp h), ?_⟩
    rw [single_source_bfs_map hre' hr hs hp]
    exact hsome

theorem reached_by_other_of_neighbour {adj : Nat → Nat → Bool} {n p q : Nat}
    (hp : p < n) (hq : q < n) (hne : q ≠ p) (he : adj q p = true) :
    reached_by_other adj n p = true := by
  unfold reached_by_other
  simp only [List.any_eq_true, List.mem_range, Bool.and_eq_true, decide_eq_true_eq]
  refine ⟨q, hq, hne, ?_⟩
  have w : Walk adj n 1 q p := Walk.step (Walk.refl q) hq hp he
  obtain ⟨e, he1, hd⟩ := w.exists_isDist
  have := (bfs_rounds_iff adj n q n p e).mpr ⟨by omega, hd⟩
  unfold single_source_bfs
  rw [this]
  rfl

theorem dist_sum_pos_of_neighbour {adj : Nat → Nat → Bool} {n p q : Nat}
    (hp : p < n) (hq : q < n) (hne : q ≠ p) (he : adj p q = true) :
    0 < dist_sum adj n p := by
  unfold dist_sum
  have w : Walk adj n 1 p q := Walk.step (Walk.refl p) hp hq he
  obtain ⟨e, he1, hd⟩ := w.exists_isDist
  have hlab := (bfs_rounds_iff adj n p n q e).mpr ⟨by omega, hd⟩
  have he0 : e ≠ 0 := by
    intro h0
    subst h0
    exact hne hd.1.zero_eq
  apply Finset.sum_pos'
  · intro t _
    exact Nat.zero_le _
  · refine ⟨q, Finset.mem_range.mpr hq, ?_⟩
    unfold single_source_bfs
    rw [hlab]
    simp only [Option.getD_some]
    omega

/-- Values of the finalizer at the index of vertex `p` for a symmetric graph, in terms of
the single-source BFS from `p` on the input graph. -/
theorem symmetric_run (ndebug : Bool) (g : Int)
    (reorder : GrB_Matrix → GrB_Matrix × (Nat → Nat)) (threshold : ℚ) (push : Bool)
    (A : GrB_Matrix) (n : Nat) (hn : 1 ≤ n) (hr : A.nrows = n) (hc : A.ncols = n)
    (hb : n + 63 < 2 ^ 64) (hsym : Symmetric (edge A) n)
    (hre : IsReordering A (reorder A).1 (reorder A).2) :
    ∃ final Lf, compute_ccv_run ndebug g reorder threshold push A
        = .ok (finalizer n (reorder A).2 final) ∧
      TraversalEnd (reorder A).1 n Lf final ∧
      ∀ p, p < n →
        (finalizer n (reorder A).2 final).compsize_reduced.get ((reorder A).2 p)
          = some (reach (edge A) n p) ∧
        final.sp.get ((reorder A).2 p)
          = (if reached_by_other (edge A) n p then some (dist_sum (edge A) n p % 2 ^ 64)
             else none) ∧
        (finalizer n (reorder A).2 final).ccv_result.get ((reorder A).2 p)
          = (if reached_by_other (edge A) n p then
              some { num := ((reach (edge A) n p - 1) * (reach (edge A) n p - 1)) % 2 ^ 64,
                     den := ((n - 1) * (dist_sum (edge A) n p % 2 ^ 64)) % 2 ^ 64 }
             else none) := by
  have hCr : (reorder A).1.nrows = n := by rw [hre.1, hr]
  have hCc : (reorder A).1.ncols = n := by rw [hre.2.1, hc]
  obtain ⟨final, Lf, hrun, hend⟩ :=
    compute_ccv_run_ok ndebug g reorder threshold push A n hr hc hb hCr hCc
  refine ⟨final, Lf, hrun, hend, ?_⟩
  intro p hp
  have hmp := mapping_lt hre hr hp
  have hsC := hre.symmetric hr hsym
  have e1 : reached_by (edge (reorder A).1) n ((reorder A).2 p) = reach (edge A) n p := by
    rw [reached_by_eq_reach hsC, reach_map hre hr hp]
  have e2 : dist_sum_to (edge (reorder A).1) n ((reorder A).2 p) = dist_sum (edge A) n p := by
    rw [dist_sum_to_eq_dist_sum hsC, dist_sum_map hre hr hp]
  have e3 := reached_by_other_map hre hr hp
  refine ⟨?_, ?_, ?_⟩
  · rw [compsize_reduced_get hend hb _ _ hmp, e1]
  · rw [final_sp_get hend _ hmp, e2, e3]
  · rw [ccv_result_get hend hn hb _ _ hmp, e1, e2, e3]

/-- C1: for a symmetric adjacency relation on `n >= 2` vertices with `(n-1)^3 < 2^64` and a
vertex `p` with a neighbour, the entry of the result of `compute_ccv` at the index the
mapping gives `p` is the division of `(reach p - 1)^2` by `(n-1) * (sum of the distances
from p)`, with `reach` and the distances taken from an independent single-source BFS from
`p` on the input graph. -/
theorem C1_ccv_equals_single_source_bfs (ndebug : Bool) (g : Int)
    (reorder : GrB_Matrix → GrB_Matrix × (Nat → Nat)) (threshold : ℚ) (push : Bool)
    (A : GrB_Matrix) (n : Nat) (hn : 2 ≤ n) (hr : A.nrows = n) (hc : A.ncols = n)
    (hcube : (n - 1) ^ 3 < 2 ^ 64) (hsym : Symmetric (edge A) n)
    (hre : IsReordering A (reorder A).1 (reorder A).2)
    (p : Nat) (hp : p < n) (hnb : ∃ q, q < n ∧ q ≠ p ∧ edge A p q = true) :
    ∃ result mapping,
      compute_ccv ndebug g reorder threshold push A = .ok (result, mapping) ∧
      mapping = (reorder A).2 ∧
      result.get (mapping p) =
        some { num := (reach (edge A) n p - 1) ^ 2, den := (n - 1) * dist_sum (edge A) n p } ∧
      0 < (n - 1) * dist_sum (edge A) n p ∧
      (reach (edge A) n p - 1) ^ 2 < 2 ^ 64 ∧ (n - 1) * dist_sum (edge A) n p < 2 ^ 64 := by
  have hb := bound_of_cube hcube
  obtain ⟨final, Lf, hrun, _, hvals⟩ :=
    symmetric_run ndebug g reorder threshold push A n (by omega) hr hc hb hsym hre
  obtain ⟨q, hq, hne, he⟩ := hnb
  have hro : reached_by_other (edge A) n p = true :=
    reached_by_other_of_neighbour hp hq hne (by rw [hsym q hq p hp]; exact he)
  have hds := dist_sum_le (edge A) n p hp
  have hrp := reach_pos (edge A) n p hp
  have hrl := reach_le (edge A) n p
  have hsq : (n - 1) * (n - 1) ≤ (n - 1) ^ 3 := by
    have h1 : 1 ≤ n - 1 := by omega
    calc (n - 1) * (n - 1) = (n - 1) * (n - 1) * 1 := by ring
      _ ≤ (n - 1) * (n - 1) * (n - 1) := Nat.mul_le_mul_left _ h1
      _ = (n - 1) ^ 3 := by ring
  have hnum : (reach (edge A) n p - 1) * (reach (edge A) n p - 1) ≤ (n - 1) * (n - 1) :=
    Nat.mul_le_mul (by omega) (by omega)
  have hden : (n - 1) * dist_sum (edge A) n p ≤ (n - 1) ^ 3 := by
    calc (n - 1) * dist_sum (edge A) n p ≤ (n - 1) * ((n - 1) * (n - 1)) :=
          Nat.mul_le_mul_left _ hds
      _ = (n - 1) ^ 3 := by ring
  refine ⟨(finalizer n (reorder A).2 final).ccv_result, (reorder A).2, ?_, rfl, ?_, ?_, ?_, ?_⟩
  · unfold compute_ccv
    rw [hrun]
    rfl
  · rw [(hvals p hp).2.2, if_pos hro, Nat.mod_eq_of_lt (a := dist_sum (edge A) n p) (by omega),
      Nat.mod_eq_of_lt (by omega), Nat.mod_eq_of_lt (by omega), pow_two]
  · exact Nat.mul_pos (by omega) (dist_sum_pos_of_neighbour hp hq hne he)
  · rw [pow_two]
    omega
  · omega
/-! ### Component sizes -/

/-- C7: for a symmetric adjacency relation, the value reduced into `compsize` at index `p`
is the number of vertices `j` whose final `seen` cell `(p / 64, j)` has bit `p mod 64` set,
and that number is the number of vertices reachable from `p`, `p` included; at the index
of an original vertex `v` it is the number of vertices reachable from `v` in the input. -/
theorem C7_compsize_is_visited_count (ndebug : Bool) (g : Int)
    (reorder : GrB_Matrix → GrB_Matrix × (Nat → Nat)) (threshold : ℚ) (push : Bool)
    (A : GrB_Matrix) (n : Nat) (hr : A.nrows = n) (hc : A.ncols = n) (hb : n + 63 < 2 ^ 64)
    (hsym : Symmetric (edge A) n) (hre : IsReordering A (reorder A).1 (reorder A).2)
    (p : Nat) (hp : p < n) :
    ∃ run, compute_ccv_run ndebug g reorder threshold push A = .ok run ∧
      run.compsize_reduced.get p =
        some ((Finset.range n).filter (fun j => source_bit run.final.seen p j = true)).card ∧
      ((Finset.range n).filter (fun j => source_bit run.final.seen p j = true)).card
        = reach (edge (reorder A).1) n p ∧
      ∀ v, v < n → run.compsize_reduced.get (run.mapping v) = some (reach (edge A) n v) := by
  obtain ⟨final, Lf, hrun, hend, hvals⟩ :=
    symmetric_run ndebug g reorder threshold push A n (by omega) hr hc hb hsym hre
  have hsC := hre.symmetric hr hsym
  have hrow : ((Finset.range n).filter (fun j => source_bit final.seen p j = true)).card
      = reach (edge (reorder A).1) n p := by
    unfold reach
    congr 1
    apply Finset.filter_congr
    intro j hj
    have hj' := Finset.mem_range.mp hj
    rw [hend.seen_bit, hend.labels p hp j]
    simp [hp, hj']
  refine ⟨_, hrun, ?_, hrow, fun v hv => (hvals v hv).1⟩
  show (finalizer n (reorder A).2 final).compsize_reduced.get p = some _
  rw [compsize_reduced_get hend hb _ p hp, reached_by_eq_reach hsC]
  exact congrArg some hrow.symm

/-! ### Vertices without incident edges -/

theorem bfs_rounds_no_in_edge {adj : Nat → Nat → Bool} {n j : Nat}
    (hin : ∀ u, u < n → adj u j = false) (s : Nat) (hs : s ≠ j) (r : Nat) :
    bfs_rounds adj n s r j = none := by
  induction r with
  | zero =>
    have : ¬ j = s := fun h => hs h.symm
    simp [bfs_rounds, this]
  | succ r ih =>
    simp only [bfs_rounds, bfs_round, ih]
    rw [if_neg]
    simp only [Bool.and_eq_true, decide_eq_true_eq, List.any_eq_true, List.mem_range,
      beq_iff_eq, not_and, not_exists]
    intro _ u hu _
    simp [hin u hu]

theorem reached_by_isolated {adj : Nat → Nat → Bool} {n j : Nat} (hj : j < n)
    (hin : ∀ u, u < n → adj u j = false) :
    reached_by adj n j = 1 ∧ reached_by_other adj n j = false := by
  constructor
  · unfold reached_by
    rw [Finset.card_eq_one]
    refine ⟨j, ?_⟩
    ext s
    simp only [Finset.mem_filter, Finset.mem_range, Finset.mem_singleton]
    constructor
    · rintro ⟨_, hsome⟩
      by_contra hne
      unfold single_source_bfs at hsome
      rw [bfs_rounds_no_in_edge hin s hne] at hsome
      cases hsome
    · rintro rfl
      exact ⟨hj, by simp [single_source_bfs, bfs_rounds_self]⟩
  · unfold reached_by_other
    rw [List.any_eq_false]
    intro s _
    by_cases hne : s = j
    · simp [hne]
    · unfold single_source_bfs
      simp [bfs_rounds_no_in_edge hin s hne]

/-- Values of the finalizer at the index of a vertex into which no edge leads. -/
theorem isolated_run (ndebug : Bool) (g : Int)
    (reorder : GrB_Matrix → GrB_Matrix × (Nat → Nat)) (threshold : ℚ) (push : Bool)
    (A : GrB_Matrix) (n : Nat) (hr : A.nrows = n) (hc : A.ncols = n)
    (hb : n + 63 < 2 ^ 64) (hre : IsReordering A (reorder A).1 (reorder A).2)
    (p : Nat) (hp : p < n) (hiso : ∀ q, q < n → edge A q p = false) :
    ∃ run, compute_ccv_run ndebug g reorder threshold push A = .ok run ∧
      run.mapping = (reorder A).2 ∧
      run.compsize_reduced.get (run.mapping p) = some 1 ∧
      run.final.sp.get (run.mapping p) = none ∧
      run.sp_scaled.get (run.mapping p) = none ∧
      run.ccv_result.get (run.mapping p) = none ∧
      run.final.sp.size = n ∧
      run.n_minus_one =
        GrB_Vector_assign_UINT64 (GrB_Vector_new n) ((n + (2 ^ 64 - 1)) % 2 ^ 64) := by
  have hCr : (reorder A).1.nrows = n := by rw [hre.1, hr]
  have hCc : (reorder A).1.ncols = n := by rw [hre.2.1, hc]
  obtain ⟨final, Lf, hrun, hend⟩ :=
    compute_ccv_run_ok ndebug g reorder threshold push A n hr hc hb hCr hCc
  have hmp := mapping_lt hre hr hp
  have hin : ∀ u, u < n → edge (reorder A).1 u ((reorder A).2 p) = false := by
    intro u hu
    obtain ⟨_, _, hm, hinj, he⟩ := hre
    rw [hr] at hm hinj he
    obtain ⟨q, hq, rfl⟩ := perm_surj hm hinj u hu
    rw [he q hq p hp]
    exact hiso q hq
  obtain ⟨h1, h2⟩ := reached_by_isolated hmp hin
  refine ⟨_, hrun, rfl, ?_, ?_, ?_, ?_, ?_, ?_⟩
  · show (finalizer n (reorder A).2 final).compsize_reduced.get ((reorder A).2 p) = some 1
    rw [compsize_reduced_get hend hb _ _ hmp, h1]
  · show final.sp.get ((reorder A).2 p) = none
    rw [final_sp_get hend _ hmp, h2]
    rfl
  · show (finalizer n (reorder A).2 final).sp_scaled.get ((reorder A).2 p) = none
    rw [sp_scaled_get hend (by omega) hb _ _ hmp, h2]
    rfl
  · show (finalizer n (reorder A).2 final).ccv_result.get ((reorder A).2 p) = none
    rw [ccv_result_get hend (by omega) hb _ _ hmp, h2]
    rfl
  · exact hend.sp_size
  · rfl

theorem keep_order_isReordering (A : GrB_Matrix) : IsReordering A (keep_order A).1 (keep_order A).2 :=
  ⟨rfl, rfl, fun _ h => h, fun _ _ _ _ h => h, fun _ _ _ _ => rfl⟩

/-- Values of the finalizer at the index of a vertex into which no edge leads, in terms of
the entry of `sp` at that index, whatever it is. -/
theorem isolated_result_by_division (ndebug : Bool) (g : Int)
    (reorder : GrB_Matrix → GrB_Matrix × (Nat → Nat)) (threshold : ℚ) (push : Bool)
    (A : GrB_Matrix) (n : Nat) (hr : A.nrows = n) (hc : A.ncols = n)
    (hb : n + 63 < 2 ^ 64) (hre : IsReordering A (reorder A).1 (reorder A).2)
    (p : Nat) (hp : p < n) (hiso : ∀ q, q < n → edge A q p = false) :
    ∃ run, compute_ccv_run ndebug g reorder threshold push A = .ok run ∧
      run.mapping = (reorder A).2 ∧
      run.compsize_reduced.get (run.mapping p) = some 1 ∧
      run.compsize_minus_one.get (run.mapping p) = some 0 ∧
      run.compsize_squared.get (run.mapping p) = some 0 ∧
      run.sp_scaled.get (run.mapping p)
        = (run.final.sp.get (run.mapping p)).map (fun s => GrB_TIMES_UINT64 (n - 1) s) ∧
      run.ccv_result.get (run.mapping p)
        = (run.sp_scaled.get (run.mapping p)).map
            (fun d => ({ num := 0, den := d } : FP64_Div)) := by
  have hCr : (reorder A).1.nrows = n := by rw [hre.1, hr]
  have hCc : (reorder A).1.ncols = n := by rw [hre.2.1, hc]
  obtain ⟨final, Lf, hrun, hend⟩ :=
    compute_ccv_run_ok ndebug g reorder threshold push A n hr hc hb hCr hCc
  have hmp := mapping_lt hre hr hp
  have hin : ∀ u, u < n → edge (reorder A).1 u ((reorder A).2 p) = false := by
    intro u hu
    obtain ⟨_, _, hm, hinj, he⟩ := hre
    rw [hr] at hm hinj he
    obtain ⟨q, hq, rfl⟩ := perm_surj hm hinj u hu
    rw [he q hq p hp]
    exact hiso q hq
  have h1 := (reached_by_isolated hmp hin).1
  refine ⟨_, hrun, rfl, ?_, ?_, ?_, ?_, ?_⟩
  · show (finalizer n (reorder A).2 final).compsize_reduced.get ((reorder A).2 p) = some 1
    rw [compsize_reduced_get hend hb _ _ hmp, h1]
  · show (finalizer n (reorder A).2 final).compsize_minus_one.get ((reorder A).2 p) = some 0
    rw [compsize_minus_one_get hend hb _ _ hmp, h1]
  · show (finalizer n (reorder A).2 final).compsize_squared.get ((reorder A).2 p) = some 0
    rw [compsize_squared_get hend hb _ _ hmp, h1]
    rfl
  · show (finalizer n (reorder A).2 final).sp_scaled.get ((reorder A).2 p)
      = (final.sp.get ((reorder A).2 p)).map (fun s => GrB_TIMES_UINT64 (n - 1) s)
    rw [sp_scaled_get hend (by omega) hb _ _ hmp, final_sp_get hend _ hmp]
    cases reached_by_other (edge (reorder A).1) n ((reorder A).2 p) <;> rfl
  · show (finalizer n (reorder A).2 final).ccv_result.get ((reorder A).2 p)
      = ((finalizer n (reorder A).2 final).sp_scaled.get ((reorder A).2 p)).map
          (fun d => ({ num := 0, den := d } : FP64_Div))
    rw [ccv_result_get hend (by omega) hb _ _ hmp, sp_scaled_get hend (by omega) hb _ _ hmp,
      h1]
    cases reached_by_other (edge (reorder A).1) n ((reorder A).2 p) <;> rfl

/-- C2 (amended): for a vertex `p` without incident edges `compute_ccv` returns, the
component size reduced for `p` is 1, so `compsize - 1` and its square hold 0 at the index of
`p`, and the finalizer applies no zero policy there: the entry of `(n - 1) * sp` is the
product where `sp` has an entry and is missing where `sp` has none, and the result vector
holds at the index of `p` the division of 0 by that product where the product is stored,
and no entry otherwise. -/
theorem C2_isolated_vertex (ndebug : Bool) (g : Int)
    (reorder : GrB_Matrix → GrB_Matrix × (Nat → Nat)) (threshold : ℚ) (push : Bool)
    (A : GrB_Matrix) (n : Nat) (hr : A.nrows = n) (hc : A.ncols = n)
    (hb : n + 63 < 2 ^ 64) (hre : IsReordering A (reorder A).1 (reorder A).2)
    (p : Nat) (hp : p < n)
    (hiso : ∀ q, q < n → edge A p q = false ∧ edge A q p = false) :
    ∃ run, compute_ccv_run ndebug g reorder threshold push A = .ok run ∧
      compute_ccv ndebug g reorder threshold push A = .ok (run.ccv_result, run.mapping) ∧
      run.compsize_reduced.get (run.mapping p) = some 1 ∧
      run.compsize_minus_one.get (run.mapping p) = some 0 ∧
      run.compsize_squared.get (run.mapping p) = some 0 ∧
      run.sp_scaled.get (run.mapping p)
        = (run.final.sp.get (run.mapping p)).map (fun s => GrB_TIMES_UINT64 (n - 1) s) ∧
      run.ccv_result.get (run.mapping p)
        = (run.sp_scaled.get (run.mapping p)).map
            (fun d => ({ num := 0, den := d } : FP64_Div)) := by
  obtain ⟨run, hrun, _, h1, h2, h3, h4, h5⟩ := isolated_result_by_division ndebug g reorder
    threshold push A n hr hc hb hre p hp (fun q hq => (hiso q hq).2)
  refine ⟨run, hrun, ?_, h1, h2, h3, h4, h5⟩
  unfold compute_ccv
  rw [hrun]

theorem C2_isolated_vertex_witness :
    ∃ run, compute_ccv_run false 4 reverse_order (3 / 200) true
        (undirected 3 [(0, 1)]) = .ok run ∧
      compute_ccv false 4 reverse_order (3 / 200) true (undirected 3 [(0, 1)])
        = .ok (run.ccv_result, run.mapping) ∧
      run.compsize_reduced.get (run.mapping 2) = some 1 ∧
      run.compsize_minus_one.get (run.mapping 2) = some 0 ∧
      run.compsize_squared.get (run.mapping 2) = some 0 ∧
      run.sp_scaled.get (run.mapping 2)
        = (run.final.sp.get (run.mapping 2)).map (fun s => GrB_TIMES_UINT64 (3 - 1) s) ∧
      run.ccv_result.get (run.mapping 2)
        = (run.sp_scaled.get (run.mapping 2)).map
            (fun d => ({ num := 0, den := d } : FP64_Div)) :=
  C2_isolated_vertex false 4 reverse_order (3 / 200) true (undirected 3 [(0, 1)]) 3
    rfl rfl (by decide) (by unfold IsReordering; decide) 2 (by decide) (by decide)

/-- C2 (counterexample): on the graph with two vertices and no edge the run succeeds and
the result vector has no stored value at the index of vertex 0. -/
theorem C2_counterexample :
    ∃ run : Run, compute_ccv false 1 keep_order (3 / 200) true (GrB_Matrix_new 2 2)
        = .ok (run.ccv_result, run.mapping) ∧
      run.ccv_result.get (run.mapping 0) = none := by
  obtain ⟨run, hrun, _, _, _, _, h4, _⟩ := isolated_run false 1 keep_order (3 / 200) true
    (GrB_Matrix_new 2 2) 2 rfl rfl (by decide) (keep_order_isReordering _) 0 (by decide)
    (by decide)
  refine ⟨run, ?_, h4⟩
  unfold compute_ccv
  rw [hrun]
/-! ### The diagonal frontier -/

theorem popcountll_two_pow (e : Nat) (he : e < 64) : popcountll (2 ^ e) = 1 := by
  rw [popcountll_eq_card, Finset.card_eq_one]
  refine ⟨e, ?_⟩
  ext k
  simp only [Finset.mem_filter, Finset.mem_range, Nat.testBit_two_pow, decide_eq_true_eq,
    Finset.mem_singleton]
  constructor
  · rintro ⟨_, h⟩
    exact h.symm
  · rintro rfl
    exact ⟨he, rfl⟩

/-- C9: on an empty `ceil (n / 64) x n` matrix `create_diagonal_bit_matrix` succeeds and
gives a matrix with exactly `n` stored cells: cell `(k / 64, k)` holds the word
`2 ^ (k mod 64)`, a single set bit, for every `k < n`, no other cell is stored, and both
the frontier and the `seen` matrix with which `compute_ccv` enters its loop are this
matrix. -/
theorem C9_diagonal_frontier (ndebug : Bool) (g : Int) (push : Bool) (n : Nat)
    (hb : n + 63 < 2 ^ 64) (D : GrB_Matrix)
    (hD : D.nrows = (n + 63) / 64 ∧ D.ncols = n ∧ GrB_Matrix_nvals D = 0) :
    ∃ F, create_diagonal_bit_matrix ndebug g D = .ok F ∧
      F.nrows = (n + 63) / 64 ∧ F.ncols = n ∧
      GrB_Matrix_nvals F = n ∧
      (∀ k, k < n → F.get (k / 64) k = some (2 ^ (k % 64)) ∧ popcountll (2 ^ (k % 64)) = 1) ∧
      (∀ b j, F.cell b j ≠ none → j < n ∧ b = j / 64) ∧
      (∀ A : GrB_Matrix, A.nrows = n → A.ncols = n →
        ∃ st0, loop_entry ndebug g push A = .ok st0 ∧ st0.frontier = F ∧ st0.seen = F) := by
  refine ⟨diagonal_bit_matrix n, create_diagonal_bit_matrix_eq ndebug g n hb D hD.1 hD.2.1 hD.2.2,
    rfl, rfl, nvals_diagonal_bit_matrix n, ?_, ?_, ?_⟩
  · intro k hk
    refine ⟨?_, popcountll_two_pow _ (Nat.mod_lt _ (by norm_num))⟩
    have : k / 64 < (n + 63) / 64 := by omega
    simp [GrB_Matrix.get, diagonal_bit_matrix, hk, this]
  · intro b j hne
    simp only [diagonal_bit_matrix] at hne
    split at hne
    · rename_i h
      exact ⟨h.1, h.2.symm⟩
    · exact absurd rfl hne
  · intro A hr hc
    exact ⟨_, loop_entry_eq ndebug g push A n hr hc hb, rfl, rfl⟩

theorem C9_diagonal_frontier_witness :
    ∃ F, create_diagonal_bit_matrix false 4 (GrB_Matrix_new 2 70) = .ok F ∧
      F.nrows = (70 + 63) / 64 ∧ F.ncols = 70 ∧
      GrB_Matrix_nvals F = 70 ∧
      (∀ k, k < 70 → F.get (k / 64) k = some (2 ^ (k % 64)) ∧ popcountll (2 ^ (k % 64)) = 1) ∧
      (∀ b j, F.cell b j ≠ none → j < 70 ∧ b = j / 64) ∧
      (∀ A : GrB_Matrix, A.nrows = 70 → A.ncols = 70 →
        ∃ st0, loop_entry false 4 true A = .ok st0 ∧ st0.frontier = F ∧ st0.seen = F) :=
  C9_diagonal_frontier false 4 true 70 (by decide) (GrB_Matrix_new 2 70)
    ⟨by decide, rfl, by decide⟩

/-! ### The expansion step -/

theorem expansion_get (next F A : GrB_Matrix)
    (h1 : next.nrows = F.nrows) (h2 : next.ncols = A.ncols) (h3 : F.ncols = A.nrows) :
    ∃ E, expansion next F A = .ok E ∧ E.nrows = next.nrows ∧ E.ncols = next.ncols ∧
      ∀ b j, E.get b j =
        if b < next.nrows ∧ j < next.ncols then
          reduce_list GrB_BOR_UINT64
            ((List.range A.nrows).filterMap (fun i => if edge A i j then F.get b i else none))
        else none := by
  refine ⟨_, expansion_ok next F A h1 h2 h3, rfl, rfl, ?_⟩
  intro b j
  unfold GrB_Matrix.get
  by_cases hin : b < next.nrows ∧ j < next.ncols
  · simp only [if_pos hin]
  · simp only [if_neg hin]

/-- C10: the expansion step succeeds on operands of matching dimensions; cell `(b, j)` of
its result is the bitwise OR of the stored `F[b, i]` over the `i` with an entry of `A` at
`(i, j)` and is absent when there is no such stored `F[b, i]`; the result depends only on
the pattern of `A` and not on the previous contents of `next`. -/
theorem C10_expansion (next F A : GrB_Matrix)
    (hdim : next.nrows = F.nrows ∧ next.ncols = A.ncols ∧ F.ncols = A.nrows) :
    ∃ E, expansion next F A = .ok E ∧ E.nrows = F.nrows ∧ E.ncols = A.ncols ∧
      (∀ b j, b < F.nrows → j < A.ncols →
        E.get b j = reduce_list GrB_BOR_UINT64
          ((List.range A.nrows).filterMap (fun i => if edge A i j then F.get b i else none))) ∧
      (∀ b j, b < F.nrows → j < A.ncols →
        (E.get b j = none ↔ ∀ i, i < A.nrows → edge A i j = true → F.get b i = none)) ∧
      (∀ b j k, b < F.nrows → j < A.ncols →
        (((E.get b j).getD 0).testBit k = true ↔
          ∃ i x, i < A.nrows ∧ edge A i j = true ∧ F.get b i = some x ∧ x.testBit k = true)) ∧
      (∀ A2 : GrB_Matrix, A2.nrows = A.nrows → A2.ncols = A.ncols →
        (∀ i j, edge A2 i j = edge A i j) → expansion next F A2 = .ok E) ∧
      (∀ next2 : GrB_Matrix, next2.nrows = next.nrows → next2.ncols = next.ncols →
        expansion next2 F A = .ok E) := by
  obtain ⟨h1, h2, h3⟩ := hdim
  obtain ⟨E, hE, hEr, hEc, hget⟩ := expansion_get next F A h1 h2 h3
  have hget2 : ∀ b j, b < F.nrows → j < A.ncols →
      E.get b j = reduce_list GrB_BOR_UINT64
        ((List.range A.nrows).filterMap (fun i => if edge A i j then F.get b i else none)) := by
    intro b j hb hj
    rw [hget, if_pos ⟨by rw [h1]; exact hb, by rw [h2]; exact hj⟩]
  refine ⟨E, hE, by rw [hEr, h1], by rw [hEc, h2], hget2, ?_, ?_, ?_, ?_⟩
  · intro b j hb hj
    rw [hget2 b j hb hj]
    cases hl : (List.range A.nrows).filterMap
        (fun i => if edge A i j = true then F.get b i else none) with
    | nil =>
      simp only [reduce_list, true_iff]
      intro i hi he
      rw [List.filterMap_eq_nil_iff] at hl
      have := hl i (List.mem_range.mpr hi)
      rw [if_pos he] at this
      exact this
    | cons x xs =>
      simp only [reduce_list, reduceCtorEq, false_iff]
      intro hall
      have hx : x ∈ (List.range A.nrows).filterMap
          (fun i => if edge A i j = true then F.get b i else none) := by
        rw [hl]
        exact List.mem_cons_self _ _
      rw [List.mem_filterMap] at hx
      obtain ⟨i, hi, hix⟩ := hx
      split at hix
      · rename_i he
        rw [hall i (List.mem_range.mp hi) he] at hix
        cases hix
      · cases hix
  · intro b j k hb hj
    rw [hget2 b j hb hj, testBit_reduce_bor, List.any_eq_true]
    constructor
    · rintro ⟨x, hx, hbit⟩
      rw [List.mem_filterMap] at hx
      obtain ⟨i, hi, hix⟩ := hx
      split at hix
      · rename_i he
        exact ⟨i, x, List.mem_range.mp hi, he, hix, hbit⟩
      · cases hix
    · rintro ⟨i, x, hi, he, hF, hbit⟩
      refine ⟨x, ?_, hbit⟩
      rw [List.mem_filterMap]
      exact ⟨i, List.mem_range.mpr hi, by rw [if_pos he]; exact hF⟩
  · intro A2 hr2 hc2 hedge
    rw [← hE, expansion_ok next F A h1 h2 h3,
      expansion_ok next F A2 h1 (by rw [h2, hc2]) (by rw [h3, hr2])]
    simp only [hr2, hedge]
  · intro next2 hr2 hc2
    rw [← hE, expansion_ok next F A h1 h2 h3,
      expansion_ok next2 F A (by rw [hr2, h1]) (by rw [hc2, h2]) h3]
    simp only [hr2, hc2]

theorem C10_expansion_witness :
    ∃ E, expansion (GrB_Matrix_new 1 3) (diagonal_bit_matrix 3) (undirected 3 [(0, 1)]) = .ok E ∧
      E.nrows = (diagonal_bit_matrix 3).nrows ∧ E.ncols = (undirected 3 [(0, 1)]).ncols ∧
      (∀ b j, b < (diagonal_bit_matrix 3).nrows → j < (undirected 3 [(0, 1)]).ncols →
        E.get b j = reduce_list GrB_BOR_UINT64
          ((List.range (undirected 3 [(0, 1)]).nrows).filterMap (fun i =>
            if edge (undirected 3 [(0, 1)]) i j then (diagonal_bit_matrix 3).get b i
            else none))) ∧
      (∀ b j, b < (diagonal_bit_matrix 3).nrows → j < (undirected 3 [(0, 1)]).ncols →
        (E.get b j = none ↔ ∀ i, i < (undirected 3 [(0, 1)]).nrows →
          edge (undirected 3 [(0, 1)]) i j = true → (diagonal_bit_matrix 3).get b i = none)) ∧
      (∀ b j k, b < (diagonal_bit_matrix 3).nrows → j < (undirected 3 [(0, 1)]).ncols →
        (((E.get b j).getD 0).testBit k = true ↔
          ∃ i x, i < (undirected 3 [(0, 1)]).nrows ∧ edge (undirected 3 [(0, 1)]) i j = true ∧
            (diagonal_bit_matrix 3).get b i = some x ∧ x.testBit k = true)) ∧
      (∀ A2 : GrB_Matrix, A2.nrows = (undirected 3 [(0, 1)]).nrows →
        A2.ncols = (undirected 3 [(0, 1)]).ncols →
        (∀ i j, edge A2 i j = edge (undirected 3 [(0, 1)]) i j) →
        expansion (GrB_Matrix_new 1 3) (diagonal_bit_matrix 3) A2 = .ok E) ∧
      (∀ next2 : GrB_Matrix, next2.nrows = (GrB_Matrix_new 1 3).nrows →
        next2.ncols = (GrB_Matrix_new 1 3).ncols →
        expansion next2 (diagonal_bit_matrix 3) (undirected 3 [(0, 1)]) = .ok E) :=
  C10_expansion (GrB_Matrix_new 1 3) (diagonal_bit_matrix 3) (undirected 3 [(0, 1)])
    ⟨rfl, rfl, rfl⟩
/-! ### Graphs given by their adjacency relation -/

theorem bfs_rounds_congr {adj adj2 : Nat → Nat → Bool} {n : Nat}
    (h : ∀ i, i < n → ∀ j, j < n → adj i j = adj2 i j) {p t : Nat} (hp : p < n) (ht : t < n)
    (r : Nat) : bfs_rounds adj n p r t = bfs_rounds adj2 n p r t :=
  bfs_rounds_map (m := fun i => i) (fun _ hi => hi) (fun _ _ _ _ hij => hij)
    (fun i hi j hj => h i hi j hj) hp ht r

theorem reach_congr {adj adj2 : Nat → Nat → Bool} {n : Nat}
    (h : ∀ i, i < n → ∀ j, j < n → adj i j = adj2 i j) {p : Nat} (hp : p < n) :
    reach adj n p = reach adj2 n p := by
  unfold reach single_source_bfs
  congr 1
  apply Finset.filter_congr
  intro t ht
  rw [bfs_rounds_congr h hp (Finset.mem_range.mp ht)]

theorem dist_sum_congr {adj adj2 : Nat → Nat → Bool} {n : Nat}
    (h : ∀ i, i < n → ∀ j, j < n → adj i j = adj2 i j) {p : Nat} (hp : p < n) :
    dist_sum adj n p = dist_sum adj2 n p := by
  unfold dist_sum single_source_bfs
  apply Finset.sum_congr rfl
  intro t ht
  rw [bfs_rounds_congr h hp (Finset.mem_range.mp ht)]

theorem reached_by_other_congr {adj adj2 : Nat → Nat → Bool} {n : Nat}
    (h : ∀ i, i < n → ∀ j, j < n → adj i j = adj2 i j) {p : Nat} (hp : p < n) :
    reached_by_other adj n p = reached_by_other adj2 n p := by
  unfold reached_by_other single_source_bfs
  rw [Bool.eq_iff_iff]
  simp only [List.any_eq_true, List.mem_range, Bool.and_eq_true, decide_eq_true_eq]
  constructor
  · rintro ⟨s, hs, hne, hx⟩
    exact ⟨s, hs, hne, by rw [← bfs_rounds_congr h hs hp]; exact hx⟩
  · rintro ⟨s, hs, hne, hx⟩
    exact ⟨s, hs, hne, by rw [bfs_rounds_congr h hs hp]; exact hx⟩

/-! ### Number of levels -/

/-- The traversal completes exactly `K` levels when every level up to `K` first reaches
some vertex and either `K` is the level bound or level `K + 1` reaches nothing new; it is
left through `break` exactly in the second case. -/
theorem traversal_levels {A C : GrB_Matrix} {m : Nat → Nat} {n Lf : Nat} {final : LoopState}
    (hend : TraversalEnd C n Lf final) (hre : IsReordering A C m) (hr : A.nrows = n)
    (adj : Nat → Nat → Bool) (hadj : ∀ i, i < n → ∀ j, j < n → edge A i j = adj i j)
    (K : Nat) (hK : K ≤ n - 1)
    (hK1 : ∀ l, 1 ≤ l → l ≤ K → ∃ s, s < n ∧ ∃ j, j < n ∧ bfs_rounds adj n s l j = some l)
    (hK2 : K = n - 1 ∨
      ∀ s, s < n → ∀ j, j < n → bfs_rounds adj n s (K + 1) j ≠ some (K + 1)) :
    Lf = K ∧ final.levels_done = K ∧ (final.left_by_break = true ↔ K < n - 1) := by
  have hre' := hre
  obtain ⟨_, _, hm, hinj, he⟩ := hre
  rw [hr] at hm hinj he
  have toC : ∀ l s j, s < n → j < n → bfs_rounds adj n s l j = some l →
      bfs_rounds (edge C) n (m s) l (m j) = some l := by
    intro l s j hs hj hlab
    rw [bfs_rounds_map hm hinj he hs hj, bfs_rounds_congr hadj hs hj]
    exact hlab
  have toA : ∀ l s2 j2, s2 < n → j2 < n → bfs_rounds (edge C) n s2 l j2 = some l →
      ∃ s, s < n ∧ ∃ j, j < n ∧ bfs_rounds adj n s l j = some l := by
    intro l s2 j2 hs2 hj2 hlab
    obtain ⟨s, hs, rfl⟩ := perm_surj hm hinj s2 hs2
    obtain ⟨j, hj, rfl⟩ := perm_surj hm hinj j2 hj2
    rw [bfs_rounds_map hm hinj he hs hj, bfs_rounds_congr hadj hs hj] at hlab
    exact ⟨s, hs, j, hj, hlab⟩
  have hle := hend.levels_le
  have h1 : K ≤ Lf := by
    by_contra hlt
    rcases hend.exit with ⟨_, _, hq⟩ | ⟨_, heq⟩
    · obtain ⟨s, hs, j, hj, hlab⟩ := hK1 (Lf + 1) (by omega) (by omega)
      exact hq (m s) (hm s hs) (m j) (hm j hj) (toC _ s j hs hj hlab)
    · omega
  have h2 : Lf ≤ K := by
    by_contra hlt
    rcases hK2 with heq | hq
    · omega
    · obtain ⟨s2, hs2, j2, hj2, hlab⟩ := hend.reached (K + 1) (by omega) (by omega)
      obtain ⟨s, hs, j, hj, hlab2⟩ := toA _ s2 j2 hs2 hj2 hlab
      exact hq s hs j hj hlab2
  have hLf : Lf = K := by omega
  refine ⟨hLf, by rw [hend.levels, hLf], ?_⟩
  rcases hend.exit with ⟨hb, hlt, _⟩ | ⟨hb, heq⟩
  · simp only [hb, true_iff]
    omega
  · simp only [hb, Bool.false_eq_true, false_iff]
    omega

/-! ### The path graph -/

theorem walk_path_le {n d t : Nat} (w : Walk path_adj n d 0 t) : t ≤ d := by
  generalize hp : (0 : Nat) = p at w
  induction w with
  | refl => omega
  | step _ _ _ ha ih =>
    have := ih hp
    simp only [path_adj, decide_eq_true_eq] at ha
    omega

theorem walk_path (n t : Nat) (ht : t < n) : Walk path_adj n t 0 t := by
  induction t with
  | zero => exact Walk.refl 0
  | succ t ih =>
    exact Walk.step (ih (by omega)) (by omega) ht (by simp [path_adj])

theorem bfs_path (n l : Nat) (hl : l < n) : bfs_rounds path_adj n 0 l l = some l := by
  rw [bfs_rounds_iff]
  refine ⟨le_refl _, walk_path n l hl, ?_⟩
  intro e he w
  have := walk_path_le w
  omega

/-- An iteration is counted in `levels_done` exactly when its masked `next` is not empty;
otherwise the loop is left through `break`. -/
theorem level_iteration_counts (C : GrB_Matrix) (ones : GrB_Vector) (threshold : ℚ)
    (mr sr level : Nat) (st st1 : LoopState)
    (h : level_iteration C ones threshold mr sr level st = .ok st1) :
    (st1.left_by_break = false ∧ st1.levels_done = st.levels_done + 1 ∧
        GrB_Matrix_nvals st1.next ≠ 0) ∨
      (st1.left_by_break = true ∧ st1.levels_done = st.levels_done ∧
        GrB_Matrix_nvals st1.next = 0) := by
  unfold level_iteration at h
  cases hE : expansion st.next st.frontier C with
  | error e =>
    rw [hE] at h
    cases h
  | ok E =>
    rw [hE] at h
    simp only at h
    split at h
    · rename_i h0
      cases h
      exact Or.inr ⟨rfl, rfl, h0⟩
    · rename_i h0
      cases h
      exact Or.inl ⟨rfl, rfl, h0⟩

/-- C6: the loop runs at most `n - 1` iterations and `compute_ccv` returns; for the path
graph on `n` vertices it completes exactly `n - 1` levels, every one of them with a
non-empty masked `next`, and is not left through `break`. -/
theorem C6_level_bound (ndebug : Bool) (g : Int)
    (reorder : GrB_Matrix → GrB_Matrix × (Nat → Nat)) (threshold : ℚ) (push : Bool)
    (A : GrB_Matrix) (n : Nat) (hn : 1 ≤ n) (hr : A.nrows = n) (hc : A.ncols = n)
    (hb : n + 63 < 2 ^ 64) (hre : IsReordering A (reorder A).1 (reorder A).2) :
    ∃ run, compute_ccv_run ndebug g reorder threshold push A = .ok run ∧
      run.final.levels_done + (if run.final.left_by_break then 1 else 0) ≤ n - 1 ∧
      ((∀ i, i < n → ∀ j, j < n → edge A i j = path_adj i j) →
        run.final.levels_done = n - 1 ∧ run.final.left_by_break = false) ∧
      (∀ (level : Nat) (st st1 : LoopState),
        level_iteration (reorder A).1 (GrB_Vector_assign_UINT64 (GrB_Vector_new n) 1)
            threshold n n level st = .ok st1 →
          (st1.left_by_break = false ∧ st1.levels_done = st.levels_done + 1 ∧
              GrB_Matrix_nvals st1.next ≠ 0) ∨
            (st1.left_by_break = true ∧ st1.levels_done = st.levels_done ∧
              GrB_Matrix_nvals st1.next = 0)) := by
  have hCr : (reorder A).1.nrows = n := by rw [hre.1, hr]
  have hCc : (reorder A).1.ncols = n := by rw [hre.2.1, hc]
  obtain ⟨final, Lf, hrun, hend⟩ :=
    compute_ccv_run_ok ndebug g reorder threshold push A n hr hc hb hCr hCc
  refine ⟨_, hrun, ?_, ?_, fun level st st1 h => level_iteration_counts _ _ _ _ _ level st st1 h⟩
  · show final.levels_done + (if final.left_by_break then 1 else 0) ≤ n - 1
    rw [hend.levels]
    rcases hend.exit with ⟨hbk, hlt, _⟩ | ⟨hbk, heq⟩
    · simp only [hbk, ↓reduceIte]
      omega
    · simp only [hbk, Bool.false_eq_true, ↓reduceIte]
      omega
  · intro hpath
    obtain ⟨_, hlev, hbrk⟩ := traversal_levels hend hre hr path_adj hpath (n - 1) (le_refl _)
      (fun l _ hl2 => ⟨0, by omega, l, by omega, bfs_path n l (by omega)⟩) (Or.inl rfl)
    refine ⟨hlev, ?_⟩
    show final.left_by_break = false
    cases hfb : final.left_by_break with
    | false => rfl
    | true =>
      have := hbrk.mp hfb
      omega
/-! ### The worked examples -/

theorem path4_distances :
    (∀ p, p < 4 → reach path_adj 4 p = 4 ∧ reached_by_other path_adj 4 p = true) ∧
    dist_sum path_adj 4 0 = 6 ∧ dist_sum path_adj 4 1 = 4 ∧
    dist_sum path_adj 4 2 = 4 ∧ dist_sum path_adj 4 3 = 6 := by
  decide

theorem path_adj_symmetric (n : Nat) : Symmetric path_adj n := by
  intro i _ j _
  unfold path_adj
  rw [Bool.eq_iff_iff]
  simp only [decide_eq_true_eq]
  omega

/-- C4: on the undirected path 0-1-2-3 the traversal completes exactly 3 levels and is not
left through `break`; the component size is 4 for every vertex, the path sums are
6, 4, 4, 6 and the results are the divisions 9/18, 9/12, 9/12, 9/18, that is 0.5, 0.75,
0.75, 0.5, each at the index the returned mapping gives the vertex. -/
theorem C4_path_of_four (ndebug : Bool) (g : Int)
    (reorder : GrB_Matrix → GrB_Matrix × (Nat → Nat)) (threshold : ℚ) (push : Bool)
    (A : GrB_Matrix) (hr : A.nrows = 4) (hc : A.ncols = 4)
    (hedges : ∀ i, i < 4 → ∀ j, j < 4 → edge A i j = path_adj i j)
    (hre : IsReordering A (reorder A).1 (reorder A).2) :
    ∃ run, compute_ccv_run ndebug g reorder threshold push A = .ok run ∧
      compute_ccv ndebug g reorder threshold push A = .ok (run.ccv_result, run.mapping) ∧
      run.final.levels_done = 3 ∧ run.final.left_by_break = false ∧
      (∀ v, v < 4 → run.compsize_reduced.get (run.mapping v) = some 4) ∧
      run.final.sp.get (run.mapping 0) = some 6 ∧ run.final.sp.get (run.mapping 1) = some 4 ∧
      run.final.sp.get (run.mapping 2) = some 4 ∧ run.final.sp.get (run.mapping 3) = some 6 ∧
      run.ccv_result.get (run.mapping 0) = some { num := 9, den := 18 } ∧
      run.ccv_result.get (run.mapping 1) = some { num := 9, den := 12 } ∧
      run.ccv_result.get (run.mapping 2) = some { num := 9, den := 12 } ∧
      run.ccv_result.get (run.mapping 3) = some { num := 9, den := 18 } ∧
      FP64_Div.quotient { num := 9, den := 18 } = 1 / 2 ∧
      FP64_Div.quotient { num := 9, den := 12 } = 3 / 4 := by
  have hsym : Symmetric (edge A) 4 := by
    intro i hi j hj
    rw [hedges i hi j hj, hedges j hj i hi, path_adj_symmetric 4 i hi j hj]
  obtain ⟨final, Lf, hrun, hend, hvals⟩ := symmetric_run ndebug g reorder threshold push A 4
    (by decide) hr hc (by decide) hsym hre
  obtain ⟨hall, d0, d1, d2, d3⟩ := path4_distances
  have hreach : ∀ p, p < 4 → reach (edge A) 4 p = 4 := fun p hp => by
    rw [reach_congr hedges hp]
    exact (hall p hp).1
  have hother : ∀ p, p < 4 → reached_by_other (edge A) 4 p = true := fun p hp => by
    rw [reached_by_other_congr hedges hp]
    exact (hall p hp).2
  have hd0 : dist_sum (edge A) 4 0 = 6 := by rw [dist_sum_congr hedges (by decide)]; exact d0
  have hd1 : dist_sum (edge A) 4 1 = 4 := by rw [dist_sum_congr hedges (by decide)]; exact d1
  have hd2 : dist_sum (edge A) 4 2 = 4 := by rw [dist_sum_congr hedges (by decide)]; exact d2
  have hd3 : dist_sum (edge A) 4 3 = 6 := by rw [dist_sum_congr hedges (by decide)]; exact d3
  obtain ⟨_, hlev, hbrk⟩ := traversal_levels hend hre hr path_adj hedges 3 (by decide)
    (fun l _ hl2 => ⟨0, by omega, l, by omega, bfs_path 4 l (by omega)⟩) (Or.inl rfl)
  refine ⟨_, hrun, ?_, hlev, ?_, ?_, ?_, ?_, ?_, ?_, ?_, ?_, ?_, ?_, ?_, ?_⟩
  · unfold compute_ccv
    rw [hrun]
  · show final.left_by_break = false
    cases hfb : final.left_by_break with
    | false => rfl
    | true => exact absurd (hbrk.mp hfb) (by decide)
  · intro v hv
    exact ((hvals v hv).1).trans (by rw [hreach v hv])
  · exact ((hvals 0 (by decide)).2.1).trans (by rw [hother 0 (by decide), hd0]; rfl)
  · exact ((hvals 1 (by decide)).2.1).trans (by rw [hother 1 (by decide), hd1]; rfl)
  · exact ((hvals 2 (by decide)).2.1).trans (by rw [hother 2 (by decide), hd2]; rfl)
  · exact ((hvals 3 (by decide)).2.1).trans (by rw [hother 3 (by decide), hd3]; rfl)
  · exact ((hvals 0 (by decide)).2.2).trans
      (by rw [hother 0 (by decide), hd0, hreach 0 (by decide)]; rfl)
  · exact ((hvals 1 (by decide)).2.2).trans
      (by rw [hother 1 (by decide), hd1, hreach 1 (by decide)]; rfl)
  · exact ((hvals 2 (by decide)).2.2).trans
      (by rw [hother 2 (by decide), hd2, hreach 2 (by decide)]; rfl)
  · exact ((hvals 3 (by decide)).2.2).trans
      (by rw [hother 3 (by decide), hd3, hreach 3 (by decide)]; rfl)
  · norm_num [FP64_Div.quotient]
  · norm_num [FP64_Div.quotient]
theorem two_edges_distances :
    (∀ p, p < 4 → reach two_edges_adj 4 p = 2 ∧ reached_by_other two_edges_adj 4 p = true ∧
      dist_sum two_edges_adj 4 p = 1) ∧
    bfs_rounds two_edges_adj 4 0 1 1 = some 1 ∧
    (∀ s, s < 4 → ∀ j, j < 4 → bfs_rounds two_edges_adj 4 s 2 j ≠ some 2) := by
  decide

theorem two_edges_adj_symmetric : Symmetric two_edges_adj 4 := by
  unfold Symmetric
  decide

/-- C5: on the two disjoint edges 0-1 and 2-3 the traversal completes one level and is
left through `break` in the iteration of level 2; every vertex has component size 2 and
path sum 1, and its result is the division 1/3: the numerator counts the own component
only, the denominator uses `n - 1 = 3`. -/
theorem C5_two_disjoint_edges (ndebug : Bool) (g : Int)
    (reorder : GrB_Matrix → GrB_Matrix × (Nat → Nat)) (threshold : ℚ) (push : Bool)
    (A : GrB_Matrix) (hr : A.nrows = 4) (hc : A.ncols = 4)
    (hedges : ∀ i, i < 4 → ∀ j, j < 4 → edge A i j = two_edges_adj i j)
    (hre : IsReordering A (reorder A).1 (reorder A).2) :
    ∃ run, compute_ccv_run ndebug g reorder threshold push A = .ok run ∧
      compute_ccv ndebug g reorder threshold push A = .ok (run.ccv_result, run.mapping) ∧
      run.final.levels_done = 1 ∧ run.final.left_by_break = true ∧
      (∀ v, v < 4 →
        run.compsize_reduced.get (run.mapping v) = some 2 ∧
        run.final.sp.get (run.mapping v) = some 1 ∧
        run.ccv_result.get (run.mapping v) = some { num := 1, den := 3 }) ∧
      FP64_Div.quotient { num := 1, den := 3 } = 1 / 3 := by
  have hsym : Symmetric (edge A) 4 := by
    intro i hi j hj
    rw [hedges i hi j hj, hedges j hj i hi, two_edges_adj_symmetric i hi j hj]
  obtain ⟨final, Lf, hrun, hend, hvals⟩ := symmetric_run ndebug g reorder threshold push A 4
    (by decide) hr hc (by decide) hsym hre
  obtain ⟨hall, hone, hquiet⟩ := two_edges_distances
  obtain ⟨_, hlev, hbrk⟩ := traversal_levels hend hre hr two_edges_adj hedges 1 (by decide)
    (fun l hl1 hl2 => by
      have : l = 1 := by omega
      subst this
      exact ⟨0, by decide, 1, by decide, hone⟩) (Or.inr hquiet)
  refine ⟨_, hrun, ?_, hlev, hbrk.mpr (by decide), ?_, ?_⟩
  · unfold compute_ccv
    rw [hrun]
  · intro v hv
    obtain ⟨h1, h2, h3⟩ := hall v hv
    have e1 : reach (edge A) 4 v = 2 := by rw [reach_congr hedges hv]; exact h1
    have e2 : reached_by_other (edge A) 4 v = true := by
      rw [reached_by_other_congr hedges hv]; exact h2
    have e3 : dist_sum (edge A) 4 v = 1 := by rw [dist_sum_congr hedges hv]; exact h3
    refine ⟨?_, ?_, ?_⟩
    · exact ((hvals v hv).1).trans (by rw [e1])
    · exact ((hvals v hv).2.1).trans (by rw [e2, e3]; rfl)
    · exact ((hvals v hv).2.2).trans (by rw [e2, e3, e1]; rfl)
  · norm_num [FP64_Div.quotient]

/-! ### Input checks -/

theorem empty_run (ndebug : Bool) (g : Int)
    (reorder : GrB_Matrix → GrB_Matrix × (Nat → Nat)) (threshold : ℚ) (push : Bool)
    (A : GrB_Matrix) (hr : A.nrows = 0) (hc : A.ncols = 0) :
    ∃ run, compute_ccv_run ndebug g reorder threshold push A = .ok run ∧
      compute_ccv ndebug g reorder threshold push A = .ok (run.ccv_result, run.mapping) ∧
      run.final.levels_done = 0 ∧ run.final.left_by_break = false ∧
      run.ccv_result.size = 0 := by
  have hrun : compute_ccv_run ndebug g reorder threshold push A = .ok
      (finalizer 0 (reorder A).2
        { frontier := diagonal_bit_matrix 0,
          next := GrB_Matrix_new ((0 + 63) / 64) 0,
          Next_PopCount := GrB_Matrix_new ((0 + 63) / 64) 0,
          seen := diagonal_bit_matrix 0,
          next_popcount := GrB_Vector_new 0, level_v := GrB_Vector_new 0,
          sp := GrB_Vector_new 0, push := push,
          r_before := density (GrB_Matrix_nvals (diagonal_bit_matrix 0)) 0 0,
          frontier_nvals := GrB_Matrix_nvals (diagonal_bit_matrix 0),
          levels_done := 0, left_by_break := false }) := by
    unfold compute_ccv_run
    rw [loop_entry_eq ndebug g push A 0 hr hc (by decide)]
    simp only [hr]
    rfl
  refine ⟨_, hrun, ?_, rfl, rfl, rfl⟩
  unfold compute_ccv
  rw [hrun]

theorem nonsquare_assert (g : Int) (reorder : GrB_Matrix → GrB_Matrix × (Nat → Nat))
    (threshold : ℚ) (push : Bool) (A : GrB_Matrix) (hne : A.nrows ≠ A.ncols) :
    input_check false A = .error Failure.assertion_failed ∧
      loop_entry false g push A = .error Failure.assertion_failed ∧
      compute_ccv_run false g reorder threshold push A = .error Failure.assertion_failed ∧
      compute_ccv false g reorder threshold push A = .error Failure.assertion_failed := by
  have h0 : input_check false A = .error Failure.assertion_failed := by
    unfold input_check
    simp [hne]
  have h1 : loop_entry false g push A = .error Failure.assertion_failed := by
    unfold loop_entry
    rw [h0]
  have h2 : compute_ccv_run false g reorder threshold push A
      = .error Failure.assertion_failed := by
    unfold compute_ccv_run
    rw [h1]
  refine ⟨h0, h1, h2, ?_⟩
  unfold compute_ccv
  rw [h2]

/-- C3 (amended): with assertions compiled in, an input whose number of rows differs from
its number of columns fails at the assertion that precedes the construction of the
frontier, and no result is produced; an input with zero vertices passes the check and
`compute_ccv` returns an empty result without running a level. -/
theorem C3_input_check (g : Int) (reorder : GrB_Matrix → GrB_Matrix × (Nat → Nat))
    (threshold : ℚ) (push : Bool) (A : GrB_Matrix) (hne : A.nrows ≠ A.ncols) :
    (input_check false A = .error Failure.assertion_failed ∧
      loop_entry false g push A = .error Failure.assertion_failed ∧
      compute_ccv false g reorder threshold push A = .error Failure.assertion_failed) ∧
    (∀ (ndebug : Bool) (cell : Nat → Nat → Option Nat),
      ∃ run, compute_ccv_run ndebug g reorder threshold push
          { nrows := 0, ncols := 0, cell := cell } = .ok run ∧
        compute_ccv ndebug g reorder threshold push { nrows := 0, ncols := 0, cell := cell }
          = .ok (run.ccv_result, run.mapping) ∧
        run.final.levels_done = 0 ∧ run.ccv_result.size = 0) := by
  obtain ⟨h0, h1, _, h3⟩ := nonsquare_assert g reorder threshold push A hne
  refine ⟨⟨h0, h1, h3⟩, ?_⟩
  intro ndebug cell
  obtain ⟨run, e1, e2, e3, _, e5⟩ := empty_run ndebug g reorder threshold push
    { nrows := 0, ncols := 0, cell := cell } rfl rfl
  exact ⟨run, e1, e2, e3, e5⟩

theorem C3_input_check_witness :
    (input_check false (GrB_Matrix_new 1 2) = .error Failure.assertion_failed ∧
      loop_entry false 4 true (GrB_Matrix_new 1 2) = .error Failure.assertion_failed ∧
      compute_ccv false 4 keep_order (3 / 200) true (GrB_Matrix_new 1 2)
        = .error Failure.assertion_failed) ∧
    (∀ (ndebug : Bool) (cell : Nat → Nat → Option Nat),
      ∃ run, compute_ccv_run ndebug 4 keep_order (3 / 200) true
          { nrows := 0, ncols := 0, cell := cell } = .ok run ∧
        compute_ccv ndebug 4 keep_order (3 / 200) true { nrows := 0, ncols := 0, cell := cell }
          = .ok (run.ccv_result, run.mapping) ∧
        run.final.levels_done = 0 ∧ run.ccv_result.size = 0) :=
  C3_input_check 4 keep_order (3 / 200) true (GrB_Matrix_new 1 2) (by decide)

/-- C3 (counterexample): the input with zero vertices is not rejected, and with
assertions compiled out the `1 x 2` input is not rejected either. -/
theorem C3_counterexample :
    (∃ run : Run, compute_ccv false 1 keep_order (3 / 200) true (GrB_Matrix_new 0 0)
        = .ok (run.ccv_result, run.mapping)) ∧
    (∃ result mapping, compute_ccv true 1 keep_order (3 / 200) true (GrB_Matrix_new 1 2)
        = .ok (result, mapping)) := by
  constructor
  · obtain ⟨run, _, e2, _⟩ := empty_run false 1 keep_order (3 / 200) true
      (GrB_Matrix_new 0 0) rfl rfl
    exact ⟨run, e2⟩
  · exact ⟨_, _, rfl⟩
/-! ### Instances on concrete graphs -/

theorem C1_ccv_equals_single_source_bfs_witness :
    ∃ result mapping,
      compute_ccv false 4 reverse_order (3 / 200) true (undirected 3 [(0, 1), (1, 2)])
        = .ok (result, mapping) ∧
      mapping = (reverse_order (undirected 3 [(0, 1), (1, 2)])).2 ∧
      result.get (mapping 0) =
        some { num := (reach (edge (undirected 3 [(0, 1), (1, 2)])) 3 0 - 1) ^ 2,
               den := (3 - 1) * dist_sum (edge (undirected 3 [(0, 1), (1, 2)])) 3 0 } ∧
      0 < (3 - 1) * dist_sum (edge (undirected 3 [(0, 1), (1, 2)])) 3 0 ∧
      (reach (edge (undirected 3 [(0, 1), (1, 2)])) 3 0 - 1) ^ 2 < 2 ^ 64 ∧
      (3 - 1) * dist_sum (edge (undirected 3 [(0, 1), (1, 2)])) 3 0 < 2 ^ 64 :=
  C1_ccv_equals_single_source_bfs false 4 reverse_order (3 / 200) true
    (undirected 3 [(0, 1), (1, 2)]) 3 (by decide) rfl rfl (by decide)
    (by unfold Symmetric; decide) (by unfold IsReordering; decide) 0 (by decide)
    ⟨1, by decide, by decide, by decide⟩

theorem C4_path_of_four_witness :
    ∃ run, compute_ccv_run true 8 reverse_order (3 / 200) true
        (undirected 4 [(0, 1), (1, 2), (2, 3)]) = .ok run ∧
      compute_ccv true 8 reverse_order (3 / 200) true (undirected 4 [(0, 1), (1, 2), (2, 3)])
        = .ok (run.ccv_result, run.mapping) ∧
      run.final.levels_done = 3 ∧ run.final.left_by_break = false ∧
      (∀ v, v < 4 → run.compsize_reduced.get (run.mapping v) = some 4) ∧
      run.final.sp.get (run.mapping 0) = some 6 ∧ run.final.sp.get (run.mapping 1) = some 4 ∧
      run.final.sp.get (run.mapping 2) = some 4 ∧ run.final.sp.get (run.mapping 3) = some 6 ∧
      run.ccv_result.get (run.mapping 0) = some { num := 9, den := 18 } ∧
      run.ccv_result.get (run.mapping 1) = some { num := 9, den := 12 } ∧
      run.ccv_result.get (run.mapping 2) = some { num := 9, den := 12 } ∧
      run.ccv_result.get (run.mapping 3) = some { num := 9, den := 18 } ∧
      FP64_Div.quotient { num := 9, den := 18 } = 1 / 2 ∧
      FP64_Div.quotient { num := 9, den := 12 } = 3 / 4 :=
  C4_path_of_four true 8 reverse_order (3 / 200) true (undirected 4 [(0, 1), (1, 2), (2, 3)])
    rfl rfl (by decide) (by unfold IsReordering; decide)

theorem C5_two_disjoint_edges_witness :
    ∃ run, compute_ccv_run false 2 keep_order (3 / 200) false
        (undirected 4 [(0, 1), (2, 3)]) = .ok run ∧
      compute_ccv false 2 keep_order (3 / 200) false (undirected 4 [(0, 1), (2, 3)])
        = .ok (run.ccv_result, run.mapping) ∧
      run.final.levels_done = 1 ∧ run.final.left_by_break = true ∧
      (∀ v, v < 4 →
        run.compsize_reduced.get (run.mapping v) = some 2 ∧
        run.final.sp.get (run.mapping v) = some 1 ∧
        run.ccv_result.get (run.mapping v) = some { num := 1, den := 3 }) ∧
      FP64_Div.quotient { num := 1, den := 3 } = 1 / 3 :=
  C5_two_disjoint_edges false 2 keep_order (3 / 200) false (undirected 4 [(0, 1), (2, 3)])
    rfl rfl (by decide) (keep_order_isReordering _)

theorem C6_level_bound_witness :
    ∃ run, compute_ccv_run false 4 reverse_order (3 / 200) true
        (undirected 3 [(0, 1), (1, 2)]) = .ok run ∧
      run.final.levels_done + (if run.final.left_by_break then 1 else 0) ≤ 3 - 1 ∧
      ((∀ i, i < 3 → ∀ j, j < 3 →
          edge (undirected 3 [(0, 1), (1, 2)]) i j = path_adj i j) →
        run.final.levels_done = 3 - 1 ∧ run.final.left_by_break = false) ∧
      (∀ (level : Nat) (st st1 : LoopState),
        level_iteration (reverse_order (undirected 3 [(0, 1), (1, 2)])).1
            (GrB_Vector_assign_UINT64 (GrB_Vector_new 3) 1) (3 / 200) 3 3 level st = .ok st1 →
          (st1.left_by_break = false ∧ st1.levels_done = st.levels_done + 1 ∧
              GrB_Matrix_nvals st1.next ≠ 0) ∨
            (st1.left_by_break = true ∧ st1.levels_done = st.levels_done ∧
              GrB_Matrix_nvals st1.next = 0)) :=
  C6_level_bound false 4 reverse_order (3 / 200) true (undirected 3 [(0, 1), (1, 2)]) 3
    (by decide) rfl rfl (by decide) (by unfold IsReordering; decide)

theorem C7_compsize_is_visited_count_witness :
    ∃ run, compute_ccv_run false 4 reverse_order (3 / 200) true
        (undirected 3 [(0, 1)]) = .ok run ∧
      run.compsize_reduced.get 2 =
        some ((Finset.range 3).filter (fun j => source_bit run.final.seen 2 j = true)).card ∧
      ((Finset.range 3).filter (fun j => source_bit run.final.seen 2 j = true)).card
        = reach (edge (reverse_order (undirected 3 [(0, 1)])).1) 3 2 ∧
      ∀ v, v < 3 → run.compsize_reduced.get (run.mapping v)
        = some (reach (edge (undirected 3 [(0, 1)])) 3 v) :=
  C7_compsize_is_visited_count false 4 reverse_order (3 / 200) true (undirected 3 [(0, 1)]) 3
    rfl rfl (by decide) (by unfold Symmetric; decide) (by unfold IsReordering; decide) 2
    (by decide)

/-- C8 (the code at the failing input): on the graph with two vertices and no edge, `sp`
has no entry at index 0 when the finalizer runs, so the intersection form used by the
code leaves `sp` and the result without entry there, while the union form of the same
multiplication would store the value of `n_minus_one`. -/
theorem C8_sp_not_dense :
    ∃ run, compute_ccv_run false 1 keep_order (3 / 200) true (GrB_Matrix_new 2 2) = .ok run ∧
      run.compsize_reduced.get 0 = some 1 ∧
      run.n_minus_one.get 0 = some 1 ∧
      run.final.sp.get 0 = none ∧
      run.sp_scaled.get 0 = none ∧
      run.ccv_result.get 0 = none ∧
      (GrB_Vector_eWiseAdd_BinaryOp run.final.sp GrB_TIMES_UINT64 run.n_minus_one
        run.final.sp).get 0 = some 1 := by
  obtain ⟨run, hrun, hm, h1, h2, h3, h4, h5, h6⟩ := isolated_run false 1 keep_order (3 / 200)
    true (GrB_Matrix_new 2 2) 2 rfl rfl (by decide) (keep_order_isReordering _) 0 (by decide)
    (by decide)
  have hm0 : run.mapping 0 = 0 := by rw [hm]; rfl
  rw [hm0] at h1 h2 h3 h4
  have hn1 : run.n_minus_one.get 0 = some 1 := by rw [h6]; rfl
  refine ⟨run, hrun, h1, hn1, h2, h3, h4, ?_⟩
  rw [eWiseAdd_get, h5, if_pos (by decide), hn1, h2]
  rfl
/-! ### The states at the head of the loop -/

theorem state_after_succ {C : GrB_Matrix} {ones : GrB_Vector} {threshold : ℚ}
    {mr sr n : Nat} {st0 st1 : LoopState} {k : Nat}
    (h : state_after C ones threshold mr sr n st0 (k + 1) = some st1) :
    k + 1 < n ∧ ∃ st, state_after C ones threshold mr sr n st0 k = some st ∧
      level_iteration C ones threshold mr sr (k + 1) st = .ok st1 ∧
      st1.left_by_break = false := by
  simp only [state_after] at h
  split at h
  · rename_i hlt
    refine ⟨hlt, ?_⟩
    cases hst : state_after C ones threshold mr sr n st0 k with
    | none => rw [hst] at h; cases h
    | some st =>
      rw [hst] at h
      simp only at h
      cases hit : level_iteration C ones threshold mr sr (k + 1) st with
      | error e => rw [hit] at h; cases h
      | ok st2 =>
        rw [hit] at h
        simp only at h
        split at h
        · cases h
        · rename_i hb
          cases h
          exact ⟨st, rfl, hit, by simpa using hb⟩
  · cases h

/-- The traversal passes through every state at the head of the loop. -/
theorem traversal_through (C : GrB_Matrix) (ones : GrB_Vector) (threshold : ℚ)
    (mr sr n : Nat) (st0 : LoopState) :
    ∀ k st, state_after C ones threshold mr sr n st0 k = some st →
      k ≤ n - 1 ∧
      traversal C ones threshold mr sr (n - 1) 1 st0
        = traversal C ones threshold mr sr (n - 1 - k) (k + 1) st := by
  intro k
  induction k with
  | zero =>
    intro st h
    simp only [state_after, Option.some.injEq] at h
    subst h
    exact ⟨by omega, rfl⟩
  | succ k ih =>
    intro st1 h
    obtain ⟨hlt, st, hst, hit, hb⟩ := state_after_succ h
    obtain ⟨_, htr⟩ := ih st hst
    refine ⟨by omega, ?_⟩
    rw [htr]
    have hrem : n - 1 - k = (n - 1 - (k + 1)) + 1 := by omega
    rw [hrem, traversal, hit]
    simp only [hb, Bool.false_eq_true, ↓reduceIte]

theorem state_after_prefix {C : GrB_Matrix} {ones : GrB_Vector} {threshold : ℚ}
    {mr sr n : Nat} {st0 : LoopState} :
    ∀ k st, state_after C ones threshold mr sr n st0 k = some st → ∀ l, l ≤ k →
      ∃ stl, state_after C ones threshold mr sr n st0 l = some stl := by
  intro k
  induction k with
  | zero =>
    intro st h l hl
    have : l = 0 := by omega
    subst this
    exact ⟨st, h⟩
  | succ k ih =>
    intro st1 h l hl
    by_cases hlk : l = k + 1
    · subst hlk
      exact ⟨st1, h⟩
    · obtain ⟨_, st, hst, _, _⟩ := state_after_succ h
      exact ih st hst l (by omega)

theorem state_after_levelInv {C : GrB_Matrix} {n : Nat} (hr : C.nrows = n) (hc : C.ncols = n)
    {ones : GrB_Vector} {threshold : ℚ} {mr sr : Nat} {st0 : LoopState}
    (h0 : LevelInv C n 0 st0) :
    ∀ k st, state_after C ones threshold mr sr n st0 k = some st → LevelInv C n k st := by
  intro k
  induction k with
  | zero =>
    intro st h
    simp only [state_after, Option.some.injEq] at h
    subst h
    exact h0
  | succ k ih =>
    intro st1 h
    obtain ⟨_, st, hst, hit, hb⟩ := state_after_succ h
    have hinv := ih st hst
    by_cases hq : ∀ s, s < n → ∀ j, j < n →
        bfs_rounds (edge C) n s (k + 1) j ≠ some (k + 1)
    · obtain ⟨st2, hst2, hbrk, _⟩ := level_iteration_break hinv hr hc ones threshold mr sr hq
      rw [hst2] at hit
      cases hit
      rw [hbrk] at hb
      cases hb
    · obtain ⟨st2, hst2, hinv2⟩ := level_iteration_step hinv hr hc ones threshold mr sr hq
      rw [hst2] at hit
      cases hit
      exact hinv2
/-- The two outcomes of one pass through the loop body, field by field. -/
theorem level_iteration_cases (C : GrB_Matrix) (ones : GrB_Vector) (threshold : ℚ)
    (mr sr level : Nat) (st st1 : LoopState)
    (h : level_iteration C ones threshold mr sr level st = .ok st1) :
    ∃ E, expansion st.next st.frontier C = .ok E ∧
      st1.next = revisit_masking E st.seen ∧
      ((GrB_Matrix_nvals st1.next = 0 ∧ st1.left_by_break = true ∧
          st1.frontier = st.frontier ∧ st1.seen = st.seen ∧ st1.sp = st.sp ∧
          st1.level_v = GrB_Vector_eWiseAdd_BinaryOp st.level_v GrB_PLUS_UINT64 st.level_v ones ∧
          st1.levels_done = st.levels_done) ∨
        (GrB_Matrix_nvals st1.next ≠ 0 ∧ st1.left_by_break = false ∧
          st1.frontier = st1.next ∧
          st1.seen = GrB_Matrix_eWiseAdd_BinaryOp st.seen GrB_BOR_UINT64 st.seen st1.next ∧
          st1.level_v = GxB_Vector_subassign_UINT64
            (GrB_Vector_eWiseAdd_BinaryOp st.level_v GrB_PLUS_UINT64 st.level_v ones)
            (popcount_reduce st.Next_PopCount st.next_popcount st1.next).2 level ∧
          st1.sp = GrB_Vector_eWiseAdd_BinaryOp st.sp GrB_PLUS_UINT64 st.sp
            (GrB_Vector_eWiseMult_BinaryOp
              (popcount_reduce st.Next_PopCount st.next_popcount st1.next).2 GrB_TIMES_UINT64
              (popcount_reduce st.Next_PopCount st.next_popcount st1.next).2 st1.level_v) ∧
          st1.levels_done = st.levels_done + 1)) := by
  unfold level_iteration at h
  cases hE : expansion st.next st.frontier C with
  | error e =>
    rw [hE] at h
    cases h
  | ok E =>
    rw [hE] at h
    simp only at h
    refine ⟨E, rfl, ?_⟩
    split at h
    · rename_i h0
      cases h
      exact ⟨rfl, Or.inl ⟨h0, rfl, rfl, rfl, rfl, rfl, rfl⟩⟩
    · rename_i h0
      cases h
      exact ⟨rfl, Or.inr ⟨h0, rfl, rfl, rfl, rfl, rfl, rfl⟩⟩

theorem level_iteration_ok {C : GrB_Matrix} {n L : Nat} {st : LoopState}
    (h : LevelInv C n L st) (hr : C.nrows = n) (hc : C.ncols = n)
    (ones : GrB_Vector) (threshold : ℚ) (mr sr level : Nat) :
    ∃ st1, level_iteration C ones threshold mr sr level st = .ok st1 ∧
      st1.next = revisit_masking (expanded st C) st.seen := by
  unfold level_iteration
  rw [expansion_eq h hr hc]
  simp only
  split
  · exact ⟨_, rfl, rfl⟩
  · exact ⟨_, rfl, rfl⟩

theorem ones_get (n j : Nat) (hj : j < n) :
    (GrB_Vector_assign_UINT64 (GrB_Vector_new n) 1).get j = some 1 := by
  rw [assign_get]
  simp [GrB_Vector_new, hj]

/-- The level counter after line 150 of the iteration of level `L + 1`. -/
theorem level_v_increment {n L : Nat} {st : LoopState} (hsz : st.level_v.size = n)
    (hL : L + 1 < 2 ^ 64)
    (hv : ∀ j, j < n → st.level_v.get j = if L = 0 then none else some L) (j : Nat)
    (hj : j < n) :
    (GrB_Vector_eWiseAdd_BinaryOp st.level_v GrB_PLUS_UINT64 st.level_v
      (GrB_Vector_assign_UINT64 (GrB_Vector_new n) 1)).get j = some (L + 1) := by
  rw [eWiseAdd_get, hsz, if_pos hj, hv j hj, ones_get n j hj]
  by_cases h0 : L = 0
  · subst h0
    rfl
  · rw [if_neg h0]
    simp only [union_op, GrB_PLUS_UINT64, Option.some.injEq]
    exact Nat.mod_eq_of_lt hL

theorem matrix_eWiseAdd_get (C : GrB_Matrix) (op : Nat → Nat → Nat) (A B : GrB_Matrix)
    (b j : Nat) :
    (GrB_Matrix_eWiseAdd_BinaryOp C op A B).get b j =
      if b < C.nrows ∧ j < C.ncols then union_op op (A.get b j) (B.get b j) else none := by
  show (if b < C.nrows ∧ j < C.ncols then
      (if b < C.nrows ∧ j < C.ncols then _ else none) else none) = _
  by_cases hin : b < C.nrows ∧ j < C.ncols
  · simp only [if_pos hin]
  · simp only [if_neg hin]

theorem headInv_entry (n : Nat) (push : Bool) :
    HeadInv n 0
      { frontier := diagonal_bit_matrix n,
        next := GrB_Matrix_new ((n + 63) / 64) n,
        Next_PopCount := GrB_Matrix_new ((n + 63) / 64) n,
        seen := diagonal_bit_matrix n,
        next_popcount := GrB_Vector_new n, level_v := GrB_Vector_new n, sp := GrB_Vector_new n,
        push := push,
        r_before := density (GrB_Matrix_nvals (diagonal_bit_matrix n)) n n,
        frontier_nvals := GrB_Matrix_nvals (diagonal_bit_matrix n),
        levels_done := 0, left_by_break := false } := by
  constructor
  · intro j _
    simp [GrB_Vector.get, GrB_Vector_new]
  · intro b j x hx
    exact ((levelInv_entry (GrB_Matrix_new n n) n push).frontier_word b j x hx).2
  · intro b j x hx
    simp [GrB_Matrix.get, GrB_Matrix_new] at hx

theorem headInv_step {C : GrB_Matrix} {n L : Nat} {st st1 : LoopState}
    (h : LevelInv C n L st) (hh : HeadInv n L st) (hr : C.nrows = n) (hc : C.ncols = n)
    (hL : L + 1 < 2 ^ 64) (threshold : ℚ) (mr sr : Nat)
    (hit : level_iteration C (GrB_Vector_assign_UINT64 (GrB_Vector_new n) 1) threshold mr sr
      (L + 1) st = .ok st1)
    (hb : st1.left_by_break = false) : HeadInv n (L + 1) st1 := by
  obtain ⟨E, hE, hnext, hcase⟩ := level_iteration_cases _ _ _ _ _ _ _ _ hit
  rw [expansion_eq h hr hc] at hE
  cases hE
  rcases hcase with ⟨_, hbrk, _⟩ | ⟨_, _, hfr, hseen, hlv, _, _⟩
  · rw [hbrk] at hb
    cases hb
  · constructor
    · intro j hj
      rw [hlv, subassign_get]
      have hsz : (GrB_Vector_eWiseAdd_BinaryOp st.level_v GrB_PLUS_UINT64 st.level_v
          (GrB_Vector_assign_UINT64 (GrB_Vector_new n) 1)).size = n := h.level_v_size
      rw [hsz, if_pos hj, level_v_increment h.level_v_size hL hh.level_v_entry j hj]
      simp
    · intro b j x hx
      rw [hseen, hnext, matrix_eWiseAdd_get] at hx
      split at hx
      · cases hs : st.seen.get b j with
        | none =>
          cases hn : (revisit_masking (expanded st C) st.seen).get b j with
          | none => rw [hs, hn] at hx; cases hx
          | some y =>
            rw [hs, hn] at hx
            simp only [union_op, Option.some.injEq] at hx
            rw [← hx]
            exact (next_word h b j y hn).2
        | some x1 =>
          cases hn : (revisit_masking (expanded st C) st.seen).get b j with
          | none =>
            rw [hs, hn] at hx
            simp only [union_op, Option.some.injEq] at hx
            rw [← hx]
            exact hh.seen_word b j _ hs
          | some y =>
            rw [hs, hn] at hx
            simp only [union_op, Option.some.injEq] at hx
            rw [← hx]
            exact Nat.or_lt_two_pow (hh.seen_word b j _ hs) (next_word h b j y hn).2
      · cases hx
    · intro b j x hx
      rw [hfr]
      exact hx
theorem state_after_headInv {C : GrB_Matrix} {n : Nat} (hr : C.nrows = n) (hc : C.ncols = n)
    (hb : n + 63 < 2 ^ 64) {threshold : ℚ} {mr sr : Nat} {st0 : LoopState}
    (h0 : LevelInv C n 0 st0) (hh0 : HeadInv n 0 st0) :
    ∀ k st, state_after C (GrB_Vector_assign_UINT64 (GrB_Vector_new n) 1) threshold mr sr n
      st0 k = some st → HeadInv n k st := by
  intro k
  induction k with
  | zero =>
    intro st h
    simp only [state_after, Option.some.injEq] at h
    subst h
    exact hh0
  | succ k ih =>
    intro st1 h
    obtain ⟨hlt, st, hst, hit, hbk⟩ := state_after_succ h
    exact headInv_step (state_after_levelInv hr hc h0 k st hst) (ih st hst) hr hc (by omega)
      threshold mr sr hit hbk

theorem loop_head_eq (ndebug : Bool) (g : Int)
    (reorder : GrB_Matrix → GrB_Matrix × (Nat → Nat)) (threshold : ℚ) (push : Bool)
    (A : GrB_Matrix) (n : Nat) (hr : A.nrows = n) (hc : A.ncols = n) (hb : n + 63 < 2 ^ 64)
    (k : Nat) :
    loop_head ndebug g reorder threshold push A k =
      state_after (reorder A).1 (GrB_Vector_assign_UINT64 (GrB_Vector_new n) 1) threshold
        n n n (entry_state n push) k := by
  unfold loop_head
  rw [loop_entry_eq ndebug g push A n hr hc hb]
  simp only [hr]
  rfl

/-- Invariants of the loop variables at the head of the loop of a run of `compute_ccv`. -/
theorem loop_head_inv (ndebug : Bool) (g : Int)
    (reorder : GrB_Matrix → GrB_Matrix × (Nat → Nat)) (threshold : ℚ) (push : Bool)
    (A : GrB_Matrix) (n : Nat) (hr : A.nrows = n) (hc : A.ncols = n) (hb : n + 63 < 2 ^ 64)
    (hCr : (reorder A).1.nrows = n) (hCc : (reorder A).1.ncols = n) (k : Nat) (st : LoopState)
    (h : loop_head ndebug g reorder threshold push A k = some st) :
    LevelInv (reorder A).1 n k st ∧ HeadInv n k st ∧ k ≤ n - 1 := by
  rw [loop_head_eq ndebug g reorder threshold push A n hr hc hb] at h
  refine ⟨state_after_levelInv hCr hCc (levelInv_entry _ n push) k st h,
    state_after_headInv hCr hCc hb (levelInv_entry _ n push) (headInv_entry n push) k st h,
    (traversal_through _ _ _ _ _ _ _ k st h).1⟩

/-- The run of `compute_ccv` continues from every state at the head of its loop. -/
theorem run_through (ndebug : Bool) (g : Int)
    (reorder : GrB_Matrix → GrB_Matrix × (Nat → Nat)) (threshold : ℚ) (push : Bool)
    (A : GrB_Matrix) (n : Nat) (hr : A.nrows = n) (hc : A.ncols = n) (hb : n + 63 < 2 ^ 64)
    (k : Nat) (st : LoopState)
    (h : loop_head ndebug g reorder threshold push A k = some st) :
    compute_ccv_run ndebug g reorder threshold push A =
      match traversal (reorder A).1 (GrB_Vector_assign_UINT64 (GrB_Vector_new n) 1) threshold
          n n (n - 1 - k) (k + 1) st with
      | Except.error e => Except.error e
      | Except.ok final => Except.ok (finalizer n (reorder A).2 final) := by
  rw [loop_head_eq ndebug g reorder threshold push A n hr hc hb] at h
  obtain ⟨_, htr⟩ := traversal_through _ _ _ _ _ _ _ k st h
  unfold compute_ccv_run
  rw [loop_entry_eq ndebug g push A n hr hc hb]
  simp only [hr]
  show (match traversal (reorder A).1 (GrB_Vector_assign_UINT64 (GrB_Vector_new n) 1) threshold
      n n (n - 1) 1 (entry_state n push) with
    | Except.error e => Except.error e
    | Except.ok final => Except.ok (finalizer n (reorder A).2 final)) = _
  rw [htr]

/-- The iteration of level `k + 1` of a run, from the state at the head of the loop. -/
theorem loop_head_iteration (ndebug : Bool) (g : Int)
    (reorder : GrB_Matrix → GrB_Matrix × (Nat → Nat)) (threshold : ℚ) (push : Bool)
    (A : GrB_Matrix) (n : Nat) (hr : A.nrows = n) (hc : A.ncols = n) (hb : n + 63 < 2 ^ 64)
    (hCr : (reorder A).1.nrows = n) (hCc : (reorder A).1.ncols = n) (k : Nat) (st : LoopState)
    (h : loop_head ndebug g reorder threshold push A k = some st) (hk : k + 1 < n) :
    ∃ st1, level_iteration (reorder A).1 (GrB_Vector_assign_UINT64 (GrB_Vector_new n) 1)
        threshold n n (k + 1) st = .ok st1 ∧
      st1.next = revisit_masking (expanded st (reorder A).1) st.seen ∧
      (st1.left_by_break = false →
        loop_head ndebug g reorder threshold push A (k + 1) = some st1) := by
  obtain ⟨hinv, _, _⟩ := loop_head_inv ndebug g reorder threshold push A n hr hc hb hCr hCc k st h
  obtain ⟨st1, hit, hnext⟩ := level_iteration_ok hinv hCr hCc
    (GrB_Vector_assign_UINT64 (GrB_Vector_new n) 1) threshold n n (k + 1)
  refine ⟨st1, hit, hnext, ?_⟩
  intro hbk
  rw [loop_head_eq ndebug g reorder threshold push A n hr hc hb] at h ⊢
  simp only [state_after, hk, ↓reduceIte, h, hit, hbk, Bool.false_eq_true]
/-! ### The masking step -/

theorem and_bnot_zero {x : Nat} (hx : x < 2 ^ 64) : x &&& GrB_BNOT_UINT64 0 = x := by
  have h : GrB_BNOT_UINT64 0 = 2 ^ 64 - 1 := by
    unfold GrB_BNOT_UINT64
    norm_num
  rw [h, Nat.and_pow_two_sub_one_eq_mod, Nat.mod_eq_of_lt hx]

theorem masked_cell_eq (e s : Option Nat) (he : ∀ x, e = some x → x < 2 ^ 64) :
    masked_cell e s =
      if e.getD 0 &&& GrB_BNOT_UINT64 (s.getD 0) ≠ 0 then
        some (e.getD 0 &&& GrB_BNOT_UINT64 (s.getD 0))
      else none := by
  unfold masked_cell
  cases e with
  | none => simp
  | some x =>
    have hx := he x rfl
    by_cases h0 : x = 0
    · subst h0
      simp
    · cases s with
      | none =>
        simp only [h0, ↓reduceIte, Option.getD_some, Option.getD_none, and_bnot_zero hx, ne_eq,
          not_false_eq_true]
      | some v =>
        simp only [h0, ↓reduceIte, Option.getD_some, ne_eq, ite_not]

/-- C11: after the masking step cell `(b, j)` of `next` is the word
`expanded[b, j] AND NOT seen[b, j]`, a cell that is not stored counting as the zero word,
and it is stored exactly when that word is not zero; hence `next` has no set bit in common
with `seen`, stores no zero word and has no cell where `expanded` has none. -/
theorem C11_revisit_masking (E S : GrB_Matrix)
    (hword : ∀ b j x, E.get b j = some x → x < 2 ^ 64) :
    (revisit_masking E S).nrows = E.nrows ∧ (revisit_masking E S).ncols = E.ncols ∧
    (∀ b j, (revisit_masking E S).get b j =
      if (E.get b j).getD 0 &&& GrB_BNOT_UINT64 ((S.get b j).getD 0) ≠ 0 then
        some ((E.get b j).getD 0 &&& GrB_BNOT_UINT64 ((S.get b j).getD 0))
      else none) ∧
    (∀ b j k, k < 64 →
      ((((revisit_masking E S).get b j).getD 0).testBit k =
        (((E.get b j).getD 0).testBit k && !((S.get b j).getD 0).testBit k))) ∧
    (∀ b j k, k < 64 → (((revisit_masking E S).get b j).getD 0).testBit k = true →
      ((S.get b j).getD 0).testBit k = false) ∧
    (∀ b j, (revisit_masking E S).get b j ≠ some 0) ∧
    (∀ b j, E.get b j = none → (revisit_masking E S).get b j = none) := by
  have hget : ∀ b j, (revisit_masking E S).get b j = masked_cell (E.get b j) (S.get b j) := by
    intro b j
    rw [revisit_masking_get]
    by_cases hin : b < E.nrows ∧ j < E.ncols
    · rw [if_pos hin]
    · rw [if_neg hin]
      have : E.get b j = none := by
        unfold GrB_Matrix.get
        rw [if_neg hin]
      rw [this]
      rfl
  refine ⟨rfl, rfl, ?_, ?_, ?_, ?_, ?_⟩
  · intro b j
    rw [hget, masked_cell_eq _ _ (hword b j)]
  · intro b j k hk
    rw [hget]
    exact masked_cell_bit _ _ k hk
  · intro b j k hk hbit
    rw [hget, masked_cell_bit _ _ k hk] at hbit
    simp only [Bool.and_eq_true, Bool.not_eq_true'] at hbit
    exact hbit.2
  · intro b j h0
    rw [hget] at h0
    exact masked_cell_ne_zero h0 rfl
  · intro b j hnone
    rw [hget, hnone]
    rfl

theorem C11_revisit_masking_witness :
    (revisit_masking (diagonal_bit_matrix 3) (GrB_Matrix_new 1 3)).nrows
        = (diagonal_bit_matrix 3).nrows ∧
    (revisit_masking (diagonal_bit_matrix 3) (GrB_Matrix_new 1 3)).ncols
        = (diagonal_bit_matrix 3).ncols ∧
    (∀ b j, (revisit_masking (diagonal_bit_matrix 3) (GrB_Matrix_new 1 3)).get b j =
      if ((diagonal_bit_matrix 3).get b j).getD 0 &&&
          GrB_BNOT_UINT64 (((GrB_Matrix_new 1 3).get b j).getD 0) ≠ 0 then
        some (((diagonal_bit_matrix 3).get b j).getD 0 &&&
          GrB_BNOT_UINT64 (((GrB_Matrix_new 1 3).get b j).getD 0))
      else none) ∧
    (∀ b j k, k < 64 →
      ((((revisit_masking (diagonal_bit_matrix 3) (GrB_Matrix_new 1 3)).get b j).getD 0).testBit k
        = ((((diagonal_bit_matrix 3).get b j).getD 0).testBit k &&
            !(((GrB_Matrix_new 1 3).get b j).getD 0).testBit k))) ∧
    (∀ b j k, k < 64 →
      (((revisit_masking (diagonal_bit_matrix 3) (GrB_Matrix_new 1 3)).get b j).getD 0).testBit k
        = true → (((GrB_Matrix_new 1 3).get b j).getD 0).testBit k = false) ∧
    (∀ b j, (revisit_masking (diagonal_bit_matrix 3) (GrB_Matrix_new 1 3)).get b j ≠ some 0) ∧
    (∀ b j, (diagonal_bit_matrix 3).get b j = none →
      (revisit_masking (diagonal_bit_matrix 3) (GrB_Matrix_new 1 3)).get b j = none) :=
  C11_revisit_masking (diagonal_bit_matrix 3) (GrB_Matrix_new 1 3)
    (fun b j x hx => ((levelInv_entry (GrB_Matrix_new 3 3) 3 true).frontier_word b j x hx).2)
/-! ### Bounds on the path sums -/

theorem bfs_rounds_label_lt {adj : Nat → Nat → Bool} {n s r j d : Nat} (hs : s < n)
    (h : bfs_rounds adj n s r j = some d) : d ≤ n - 1 := by
  have := ((bfs_rounds_iff adj n s r j d).mp h).2.lt hs
  omega

theorem per_target_sum_le (adj : Nat → Nat → Bool) (n r j : Nat) (hj : j < n) :
    ∑ s in Finset.range n, (bfs_rounds adj n s r j).getD 0 ≤ (n - 1) * (n - 1) := by
  have hj0 : (bfs_rounds adj n j r j).getD 0 = 0 := by
    rw [bfs_rounds_self]
    rfl
  rw [← Finset.sum_erase (Finset.range n) (f := fun s => (bfs_rounds adj n s r j).getD 0) hj0]
  have hcard : ((Finset.range n).erase j).card = n - 1 := by
    rw [Finset.card_erase_of_mem (Finset.mem_range.mpr hj), Finset.card_range]
  calc ∑ s in (Finset.range n).erase j, (bfs_rounds adj n s r j).getD 0
      ≤ ((Finset.range n).erase j).card • (n - 1) := by
        apply Finset.sum_le_card_nsmul
        intro s hs
        have hs' : s < n := Finset.mem_range.mp (Finset.mem_of_mem_erase hs)
        cases hd : bfs_rounds adj n s r j with
        | none => simp
        | some d => simpa using bfs_rounds_label_lt hs' hd
    _ = (n - 1) * (n - 1) := by rw [hcard, smul_eq_mul]

theorem sq_le_cube (n : Nat) (hn : 2 ≤ n) : (n - 1) * (n - 1) ≤ (n - 1) ^ 3 := by
  have h1 : 1 ≤ n - 1 := by omega
  calc (n - 1) * (n - 1) = (n - 1) * (n - 1) * 1 := by ring
    _ ≤ (n - 1) * (n - 1) * (n - 1) := Nat.mul_le_mul_left _ h1
    _ = (n - 1) ^ 3 := by ring

theorem sq_lt_of_cube {n : Nat} (hcube : (n - 1) ^ 3 < 2 ^ 64) :
    (n - 1) * (n - 1) < 2 ^ 64 := by
  by_cases hn : 2 ≤ n
  · exact lt_of_le_of_lt (sq_le_cube n hn) hcube
  · have : n - 1 = 0 := by omega
    rw [this]
    norm_num

/-- Value of an entry of `sp` after `L` levels, a missing entry counting as zero. -/
theorem head_sp_value {C : GrB_Matrix} {n L : Nat} {st : LoopState} (h : LevelInv C n L st)
    (j : Nat) (hj : j < n) :
    (st.sp.get j).getD 0 =
      (∑ s in Finset.range n, (bfs_rounds (edge C) n s L j).getD 0) % 2 ^ 64 := by
  rw [h.sp_entry j hj]
  unfold path_sum_after
  by_cases hany : (List.range n).any
      (fun s => decide (s ≠ j) && (bfs_rounds (edge C) n s L j).isSome) = true
  · rw [if_pos hany]
    rfl
  · rw [if_neg hany]
    simp only [Bool.not_eq_true] at hany
    rw [sum_getD_eq_zero _ n L j hany]
    rfl
/-! ### The accumulation step -/

theorem next_popcount_raw_get {C : GrB_Matrix} {n L : Nat} {st : LoopState}
    (h : LevelInv C n L st) (j : Nat) (hj : j < n) :
    (popcount_reduce st.Next_PopCount st.next_popcount
        (revisit_masking (expanded st C) st.seen)).2.get j =
      if ∃ b, b < (n + 63) / 64 ∧ (revisit_masking (expanded st C) st.seen).get b j ≠ none then
        some ((∑ b in Finset.range ((n + 63) / 64),
          popcountll (((revisit_masking (expanded st C) st.seen).get b j).getD 0)) % 2 ^ 64)
      else none := by
  have hNr : (revisit_masking (expanded st C) st.seen).nrows = (n + 63) / 64 := h.next_rows
  have hNc : (revisit_masking (expanded st C) st.seen).ncols = n := h.next_cols
  rw [popcount_reduce_get _ _ _ (by rw [hNr, h.pc_rows]) (by rw [hNc, h.pc_cols])
    (by rw [hNc, h.npc_size]) j (by rw [hNc]; exact hj), hNr]

/-- C12: in an iteration of level `L = k + 1` of a run whose masked `next` is not empty,
`sp[j]` becomes `sp[j] + L * (sum over the row groups b of popcount (next[b, j]))` in 64-bit
arithmetic for every column `j` with a stored cell in `next`, a missing `sp[j]` counting
as 0, and keeps its old state for every other column; the level counter holds `L` at every
index, and with `(n-1)^3 < 2^64` the sum does not wrap. -/
theorem C12_path_sum_update (ndebug : Bool) (g : Int)
    (reorder : GrB_Matrix → GrB_Matrix × (Nat → Nat)) (threshold : ℚ) (push : Bool)
    (A : GrB_Matrix) (n : Nat) (hr : A.nrows = n) (hc : A.ncols = n) (hb : n + 63 < 2 ^ 64)
    (hre : IsReordering A (reorder A).1 (reorder A).2) (k : Nat) (st : LoopState)
    (hhead : loop_head ndebug g reorder threshold push A k = some st) (hk : k + 1 < n) :
    ∃ st1, level_iteration (reorder A).1 (GrB_Vector_assign_UINT64 (GrB_Vector_new n) 1)
        threshold n n (k + 1) st = .ok st1 ∧
      (∀ j, j < n → st1.level_v.get j = some (k + 1)) ∧
      (GrB_Matrix_nvals st1.next ≠ 0 →
        ∀ j, j < n →
          ((∃ b, b < (n + 63) / 64 ∧ st1.next.get b j ≠ none) →
            st1.sp.get j = some (((st.sp.get j).getD 0 + (k + 1) *
              ∑ b in Finset.range ((n + 63) / 64), popcountll ((st1.next.get b j).getD 0))
                % 2 ^ 64)) ∧
          ((¬ ∃ b, b < (n + 63) / 64 ∧ st1.next.get b j ≠ none) →
            st1.sp.get j = st.sp.get j) ∧
          ((n - 1) ^ 3 < 2 ^ 64 →
            (st.sp.get j).getD 0 + (k + 1) *
              ∑ b in Finset.range ((n + 63) / 64), popcountll ((st1.next.get b j).getD 0)
                < 2 ^ 64)) := by
  have hCr : (reorder A).1.nrows = n := by rw [hre.1, hr]
  have hCc : (reorder A).1.ncols = n := by rw [hre.2.1, hc]
  obtain ⟨hinv, hhinv, _⟩ :=
    loop_head_inv ndebug g reorder threshold push A n hr hc hb hCr hCc k st hhead
  obtain ⟨st1, hit, hnext⟩ := level_iteration_ok hinv hCr hCc
    (GrB_Vector_assign_UINT64 (GrB_Vector_new n) 1) threshold n n (k + 1)
  obtain ⟨E, _, _, hcase⟩ := level_iteration_cases _ _ _ _ _ _ _ _ hit
  have hlv : ∀ j, j < n → st1.level_v.get j = some (k + 1) := by
    intro j hj
    rcases hcase with ⟨_, _, _, _, _, hl, _⟩ | ⟨_, hbk, _⟩
    · rw [hl]
      exact level_v_increment hinv.level_v_size (by omega) hhinv.level_v_entry j hj
    · have := (headInv_step hinv hhinv hCr hCc (by omega) threshold n n hit hbk).level_v_entry
        j hj
      simpa using this
  refine ⟨st1, hit, hlv, ?_⟩
  intro hne j hj
  rcases hcase with ⟨h0, _⟩ | ⟨_, _, _, _, _, hsp, _⟩
  · exact absurd h0 hne
  · have hsz : (popcount_reduce st.Next_PopCount st.next_popcount st1.next).2.size = n :=
      hinv.npc_size
    have hspget : st1.sp.get j = union_op GrB_PLUS_UINT64 (st.sp.get j)
        (intersect_op GrB_TIMES_UINT64
          ((popcount_reduce st.Next_PopCount st.next_popcount st1.next).2.get j)
          (some (k + 1))) := by
      rw [hsp, eWiseAdd_get, hinv.sp_size, if_pos hj, eWiseMult_get, hsz, if_pos hj, hlv j hj]
    rw [hnext] at hspget ⊢
    rw [next_popcount_raw_get hinv j hj] at hspget
    refine ⟨?_, ?_, ?_⟩
    · intro hex
      rw [hspget, if_pos hex]
      cases hs : st.sp.get j with
      | none =>
        simp only [intersect_op, union_op, GrB_TIMES_UINT64, Option.getD_none, Nat.zero_add,
          Option.some.injEq]
        have := add_mod_mul 0 (∑ b in Finset.range ((n + 63) / 64),
          popcountll (((revisit_masking (expanded st (reorder A).1) st.seen).get b j).getD 0))
          (k + 1)
        simpa using this
      | some v =>
        simp only [intersect_op, union_op, GrB_TIMES_UINT64, GrB_PLUS_UINT64, Option.getD_some,
          Option.some.injEq]
        rw [Nat.add_mod_mod]
        exact add_mod_mul _ _ _
    · intro hex
      rw [hspget, if_neg hex]
      cases st.sp.get j <;> rfl
    · intro hcube
      rw [next_popcount_sum hinv hCr hCc, head_sp_value hinv j hj]
      have hle := per_target_sum_le (edge (reorder A).1) n (k + 1) j hj
      rw [sum_getD_succ] at hle
      have hsq := sq_lt_of_cube hcube
      have hmod := Nat.mod_le
        (∑ s in Finset.range n, (bfs_rounds (edge (reorder A).1) n s k j).getD 0) (2 ^ 64)
      omega
theorem loop_head_zero (ndebug : Bool) (g : Int)
    (reorder : GrB_Matrix → GrB_Matrix × (Nat → Nat)) (threshold : ℚ) (push : Bool)
    (A : GrB_Matrix) (n : Nat) (hr : A.nrows = n) (hc : A.ncols = n) (hb : n + 63 < 2 ^ 64) :
    loop_head ndebug g reorder threshold push A 0 = some (entry_state n push) := by
  rw [loop_head_eq ndebug g reorder threshold push A n hr hc hb]
  rfl

theorem C12_path_sum_update_witness :
    ∃ st1, level_iteration (reverse_order (undirected 3 [(0, 1), (1, 2)])).1
        (GrB_Vector_assign_UINT64 (GrB_Vector_new 3) 1) (3 / 200) 3 3 (0 + 1)
        (entry_state 3 true) = .ok st1 ∧
      (∀ j, j < 3 → st1.level_v.get j = some (0 + 1)) ∧
      (GrB_Matrix_nvals st1.next ≠ 0 →
        ∀ j, j < 3 →
          ((∃ b, b < (3 + 63) / 64 ∧ st1.next.get b j ≠ none) →
            st1.sp.get j = some ((((entry_state 3 true).sp.get j).getD 0 + (0 + 1) *
              ∑ b in Finset.range ((3 + 63) / 64), popcountll ((st1.next.get b j).getD 0))
                % 2 ^ 64)) ∧
          ((¬ ∃ b, b < (3 + 63) / 64 ∧ st1.next.get b j ≠ none) →
            st1.sp.get j = (entry_state 3 true).sp.get j) ∧
          ((3 - 1) ^ 3 < 2 ^ 64 →
            ((entry_state 3 true).sp.get j).getD 0 + (0 + 1) *
              ∑ b in Finset.range ((3 + 63) / 64), popcountll ((st1.next.get b j).getD 0)
                < 2 ^ 64)) :=
  C12_path_sum_update false 4 reverse_order (3 / 200) true (undirected 3 [(0, 1), (1, 2)]) 3
    rfl rfl (by decide) (by unfold IsReordering; decide) 0 (entry_state 3 true)
    (loop_head_zero false 4 reverse_order (3 / 200) true _ 3 rfl rfl (by decide)) (by decide)

/-- C13: for a symmetric adjacency relation, in every iteration of a run the sum over the
row groups `b` of `popcount (next[b, v])`, the number of sources that first reach `v` at
this level, equals the number of columns `j` in which the bit of source `v` is set in
`next`, the number of vertices that `v` first reaches at this level. -/
theorem C13_double_counting (ndebug : Bool) (g : Int)
    (reorder : GrB_Matrix → GrB_Matrix × (Nat → Nat)) (threshold : ℚ) (push : Bool)
    (A : GrB_Matrix) (n : Nat) (hr : A.nrows = n) (hc : A.ncols = n) (hb : n + 63 < 2 ^ 64)
    (hsym : Symmetric (edge A) n) (hre : IsReordering A (reorder A).1 (reorder A).2)
    (k : Nat) (st : LoopState)
    (hhead : loop_head ndebug g reorder threshold push A k = some st) (v : Nat) :
    ∃ st1, level_iteration (reorder A).1 (GrB_Vector_assign_UINT64 (GrB_Vector_new n) 1)
        threshold n n (k + 1) st = .ok st1 ∧
      ∑ b in Finset.range ((n + 63) / 64), popcountll ((st1.next.get b v).getD 0)
        = ((Finset.range n).filter (fun j => source_bit st1.next v j = true)).card ∧
      ∑ b in Finset.range ((n + 63) / 64), popcountll ((st1.next.get b v).getD 0)
        = ((Finset.range n).filter
            (fun s => bfs_rounds (edge (reorder A).1) n s (k + 1) v = some (k + 1))).card ∧
      ((Finset.range n).filter (fun j => source_bit st1.next v j = true)).card
        = ((Finset.range n).filter
            (fun j => bfs_rounds (edge (reorder A).1) n v (k + 1) j = some (k + 1))).card := by
  have hCr : (reorder A).1.nrows = n := by rw [hre.1, hr]
  have hCc : (reorder A).1.ncols = n := by rw [hre.2.1, hc]
  have hsC := hre.symmetric hr hsym
  obtain ⟨hinv, _, _⟩ :=
    loop_head_inv ndebug g reorder threshold push A n hr hc hb hCr hCc k st hhead
  obtain ⟨st1, hit, hnext⟩ := level_iteration_ok hinv hCr hCc
    (GrB_Vector_assign_UINT64 (GrB_Vector_new n) 1) threshold n n (k + 1)
  have h1 := next_popcount_sum hinv hCr hCc v
  have h2 : ((Finset.range n).filter
        (fun j => source_bit (revisit_masking (expanded st (reorder A).1) st.seen) v j = true)).card
      = ((Finset.range n).filter
          (fun j => bfs_rounds (edge (reorder A).1) n v (k + 1) j = some (k + 1))).card := by
    congr 1
    ext j
    simp only [Finset.mem_filter, Finset.mem_range, next_bit hinv hCr hCc, Bool.and_eq_true,
      decide_eq_true_eq, beq_iff_eq]
    constructor
    · rintro ⟨hj, _, hlab⟩
      exact ⟨hj, hlab⟩
    · rintro ⟨hj, hlab⟩
      refine ⟨hj, ⟨?_, hj⟩, hlab⟩
      rw [bfs_rounds_symm hsC] at hlab
      exact ((bfs_new_label _ _ _ _ _).mp hlab).2.1
  have h3 : ((Finset.range n).filter
        (fun s => bfs_rounds (edge (reorder A).1) n s (k + 1) v = some (k + 1))).card
      = ((Finset.range n).filter
          (fun j => bfs_rounds (edge (reorder A).1) n v (k + 1) j = some (k + 1))).card := by
    congr 1
    apply Finset.filter_congr
    intro s _
    rw [bfs_rounds_symm hsC s v]
  refine ⟨st1, hit, ?_, ?_, ?_⟩
  · rw [hnext, h1, h2, h3]
  · rw [hnext, h1]
  · rw [hnext, h2]

theorem C13_double_counting_witness :
    ∃ st1, level_iteration (reverse_order (undirected 3 [(0, 1), (1, 2)])).1
        (GrB_Vector_assign_UINT64 (GrB_Vector_new 3) 1) (3 / 200) 3 3 (0 + 1)
        (entry_state 3 true) = .ok st1 ∧
      ∑ b in Finset.range ((3 + 63) / 64), popcountll ((st1.next.get b 1).getD 0)
        = ((Finset.range 3).filter (fun j => source_bit st1.next 1 j = true)).card ∧
      ∑ b in Finset.range ((3 + 63) / 64), popcountll ((st1.next.get b 1).getD 0)
        = ((Finset.range 3).filter
            (fun s => bfs_rounds (edge (reverse_order (undirected 3 [(0, 1), (1, 2)])).1) 3 s
              (0 + 1) 1 = some (0 + 1))).card ∧
      ((Finset.range 3).filter (fun j => source_bit st1.next 1 j = true)).card
        = ((Finset.range 3).filter
            (fun j => bfs_rounds (edge (reverse_order (undirected 3 [(0, 1), (1, 2)])).1) 3 1
              (0 + 1) j = some (0 + 1))).card :=
  C13_double_counting false 4 reverse_order (3 / 200) true (undirected 3 [(0, 1), (1, 2)]) 3
    rfl rfl (by decide) (by unfold Symmetric; decide) (by unfold IsReordering; decide) 0
    (entry_state 3 true)
    (loop_head_zero false 4 reverse_order (3 / 200) true _ 3 rfl rfl (by decide)) 1
/-! ### Monotonicity of `seen` -/

/-- C14: in every iteration of the loop every bit that is set in `seen` before the update
`seen = seen | next` is set after it, so for every source `p` the number of vertices in the
visited set of `p` does not decrease. -/
theorem C14_seen_monotone (C : GrB_Matrix) (ones : GrB_Vector) (threshold : ℚ)
    (mr sr level : Nat) (st st1 : LoopState)
    (h : level_iteration C ones threshold mr sr level st = .ok st1) :
    (∀ b j k, ((st.seen.get b j).getD 0).testBit k = true →
      ((st1.seen.get b j).getD 0).testBit k = true) ∧
    (∀ p j, source_bit st.seen p j = true → source_bit st1.seen p j = true) ∧
    (∀ p n, ((Finset.range n).filter (fun j => source_bit st.seen p j = true)).card ≤
      ((Finset.range n).filter (fun j => source_bit st1.seen p j = true)).card) := by
  have hbit : ∀ b j k, ((st.seen.get b j).getD 0).testBit k = true →
      ((st1.seen.get b j).getD 0).testBit k = true := by
    intro b j k hk
    obtain ⟨E, _, _, hcase⟩ := level_iteration_cases _ _ _ _ _ _ _ _ h
    rcases hcase with ⟨_, _, _, hseen, _⟩ | ⟨_, _, _, hseen, _⟩
    · rw [hseen]
      exact hk
    · rw [hseen, matrix_eWiseAdd_get]
      cases hs : st.seen.get b j with
      | none =>
        rw [hs] at hk
        simp at hk
      | some x =>
        rw [hs] at hk
        have hin : b < st.seen.nrows ∧ j < st.seen.ncols := by
          by_contra hout
          unfold GrB_Matrix.get at hs
          rw [if_neg hout] at hs
          cases hs
        rw [if_pos hin]
        simp only [Option.getD_some] at hk
        cases st1.next.get b j with
        | none => simpa [union_op] using hk
        | some y => simp [union_op, GrB_BOR_UINT64, Nat.testBit_lor, hk]
  have hsrc : ∀ p j, source_bit st.seen p j = true → source_bit st1.seen p j = true :=
    fun p j hp => hbit _ _ _ hp
  refine ⟨hbit, hsrc, ?_⟩
  intro p n
  apply Finset.card_le_card
  intro j hj
  simp only [Finset.mem_filter] at hj ⊢
  exact ⟨hj.1, hsrc p j hj.2⟩

theorem C14_seen_monotone_witness :
    (∀ b j k, (((entry_state 3 true).seen.get b j).getD 0).testBit k = true →
      ((path3_level_one.seen.get b j).getD 0).testBit k = true) ∧
    (∀ p j, source_bit (entry_state 3 true).seen p j = true →
      source_bit path3_level_one.seen p j = true) ∧
    (∀ p n, ((Finset.range n).filter
        (fun j => source_bit (entry_state 3 true).seen p j = true)).card ≤
      ((Finset.range n).filter (fun j => source_bit path3_level_one.seen p j = true)).card) :=
  C14_seen_monotone (reverse_order (undirected 3 [(0, 1), (1, 2)])).1
    (GrB_Vector_assign_UINT64 (GrB_Vector_new 3) 1) (3 / 200) 3 3 1 (entry_state 3 true)
    path3_level_one rfl
/-! ### The frontiers and the final `seen` -/

theorem traversal_ends_at_head (C : GrB_Matrix) (ones : GrB_Vector) (threshold : ℚ)
    (mr sr n : Nat) (st0 : LoopState) :
    ∀ remaining k st final, state_after C ones threshold mr sr n st0 k = some st →
      k + remaining = n - 1 →
      traversal C ones threshold mr sr remaining (k + 1) st = .ok final →
      ∃ l stl, state_after C ones threshold mr sr n st0 l = some stl ∧
        final.seen = stl.seen ∧ final.frontier = stl.frontier ∧ final.sp = stl.sp := by
  intro remaining
  induction remaining with
  | zero =>
    intro k st final hst _ htr
    simp only [traversal, Except.ok.injEq] at htr
    subst htr
    exact ⟨k, st, hst, rfl, rfl, rfl⟩
  | succ r ih =>
    intro k st final hst hk htr
    rw [traversal] at htr
    cases hit : level_iteration C ones threshold mr sr (k + 1) st with
    | error e =>
      rw [hit] at htr
      cases htr
    | ok st1 =>
      rw [hit] at htr
      simp only at htr
      by_cases hb : st1.left_by_break = true
      · rw [if_pos hb] at htr
        simp only [Except.ok.injEq] at htr
        subst htr
        obtain ⟨E, _, _, hcase⟩ := level_iteration_cases _ _ _ _ _ _ _ _ hit
        rcases hcase with ⟨_, _, hf, hs, hsp, _⟩ | ⟨_, hnb, _⟩
        · exact ⟨k, st, hst, hs, hf, hsp⟩
        · rw [hnb] at hb
          cases hb
      · rw [if_neg hb] at htr
        have hnext : state_after C ones threshold mr sr n st0 (k + 1) = some st1 := by
          rw [state_after, if_pos (by omega), hst]
          simp only [hit]
          rw [if_neg hb]
        exact ih (k + 1) st1 final hnext (by omega) htr

theorem run_final_head (ndebug : Bool) (g : Int)
    (reorder : GrB_Matrix → GrB_Matrix × (Nat → Nat)) (threshold : ℚ) (push : Bool)
    (A : GrB_Matrix) (n : Nat) (hr : A.nrows = n) (hc : A.ncols = n) (hb : n + 63 < 2 ^ 64)
    (run : Run) (h : compute_ccv_run ndebug g reorder threshold push A = .ok run) :
    ∃ l stl, loop_head ndebug g reorder threshold push A l = some stl ∧
      run.final.seen = stl.seen ∧ run.final.frontier = stl.frontier ∧
      run.final.sp = stl.sp := by
  have h0 := loop_head_zero ndebug g reorder threshold push A n hr hc hb
  rw [run_through ndebug g reorder threshold push A n hr hc hb 0 _ h0] at h
  cases htr : traversal (reorder A).1 (GrB_Vector_assign_UINT64 (GrB_Vector_new n) 1)
      threshold n n (n - 1 - 0) (0 + 1) (entry_state n push) with
  | error e =>
    rw [htr] at h
    cases h
  | ok final =>
    rw [htr] at h
    simp only [Except.ok.injEq] at h
    subst h
    rw [loop_head_eq ndebug g reorder threshold push A n hr hc hb] at h0
    obtain ⟨l, stl, hl, hs, hf, hsp⟩ := traversal_ends_at_head _ _ _ _ _ _ _ (n - 1 - 0) 0
      (entry_state n push) final h0 (by omega) htr
    refine ⟨l, stl, ?_, hs, hf, hsp⟩
    rw [loop_head_eq ndebug g reorder threshold push A n hr hc hb]
    exact hl

theorem single_source_bfs_isSome_iff {adj : Nat → Nat → Bool} {n p : Nat} (hp : p < n)
    (t : Nat) : (single_source_bfs adj n p t).isSome = true ↔ ∃ d, Walk adj n d p t := by
  unfold single_source_bfs
  constructor
  · intro h
    obtain ⟨d, hd⟩ := Option.isSome_iff_exists.mp h
    exact ⟨d, ((bfs_rounds_iff adj n p n t d).mp hd).2.1⟩
  · rintro ⟨d, w⟩
    obtain ⟨e, _, he⟩ := w.exists_isDist
    have hlt := he.lt hp
    rw [(bfs_rounds_iff adj n p n t e).mpr ⟨by omega, he⟩]
    rfl

/-- C18: at every loop head of a run, and when the run has ended, every bit that is set in
`seen` is set in the same cell of the frontier of the current or of an earlier loop head;
the loop head before the first level holds the diagonal start frontier. -/
theorem C18_seen_bits_come_from_frontiers (ndebug : Bool) (g : Int)
    (reorder : GrB_Matrix → GrB_Matrix × (Nat → Nat)) (threshold : ℚ) (push : Bool)
    (A : GrB_Matrix) (n : Nat) (hr : A.nrows = n) (hc : A.ncols = n) (hb : n + 63 < 2 ^ 64)
    (hre : IsReordering A (reorder A).1 (reorder A).2) :
    (∃ st0, loop_head ndebug g reorder threshold push A 0 = some st0 ∧
      st0.frontier = diagonal_bit_matrix n) ∧
    (∀ k st, loop_head ndebug g reorder threshold push A k = some st →
      ∀ b j i, ((st.seen.get b j).getD 0).testBit i = true →
        ∃ l, l ≤ k ∧ ∃ stl, loop_head ndebug g reorder threshold push A l = some stl ∧
          ((stl.frontier.get b j).getD 0).testBit i = true) ∧
    (∃ run, compute_ccv_run ndebug g reorder threshold push A = .ok run ∧
      ∀ b j i, ((run.final.seen.get b j).getD 0).testBit i = true →
        ∃ l stl, loop_head ndebug g reorder threshold push A l = some stl ∧
          ((stl.frontier.get b j).getD 0).testBit i = true) := by
  have hCr : (reorder A).1.nrows = n := by rw [hre.1, hr]
  have hCc : (reorder A).1.ncols = n := by rw [hre.2.1, hc]
  have hheads : ∀ k st, loop_head ndebug g reorder threshold push A k = some st →
      ∀ b j i, ((st.seen.get b j).getD 0).testBit i = true →
        ∃ l, l ≤ k ∧ ∃ stl, loop_head ndebug g reorder threshold push A l = some stl ∧
          ((stl.frontier.get b j).getD 0).testBit i = true := by
    intro k st hhead b j i hbit
    obtain ⟨hinv, hh, _⟩ :=
      loop_head_inv ndebug g reorder threshold push A n hr hc hb hCr hCc k st hhead
    have hi : i < 64 := by
      by_contra hge
      cases hs : st.seen.get b j with
      | none =>
        rw [hs] at hbit
        simp at hbit
      | some x =>
        rw [hs] at hbit
        have hx := hh.seen_word b j x hs
        have hlt : x < 2 ^ i :=
          lt_of_lt_of_le hx (Nat.pow_le_pow_right (by decide) (by omega))
        rw [Option.getD_some, Nat.testBit_eq_false_of_lt hlt] at hbit
        cases hbit
    have hdiv : (64 * b + i) / 64 = b := by omega
    have hmod : (64 * b + i) % 64 = i := by omega
    have hsrc : source_bit st.seen (64 * b + i) j = true := by
      unfold source_bit
      rw [hdiv, hmod]
      exact hbit
    rw [hinv.seen_bit] at hsrc
    simp only [Bool.and_eq_true, decide_eq_true_eq] at hsrc
    obtain ⟨⟨hs, hj⟩, hsome⟩ := hsrc
    obtain ⟨d, hd⟩ := Option.isSome_iff_exists.mp hsome
    obtain ⟨hdk, hdist⟩ := (bfs_rounds_iff _ _ _ _ _ _).mp hd
    rw [loop_head_eq ndebug g reorder threshold push A n hr hc hb] at hhead
    obtain ⟨stl, hstl⟩ := state_after_prefix k st hhead d hdk
    rw [← loop_head_eq ndebug g reorder threshold push A n hr hc hb] at hstl
    obtain ⟨hinvl, _, _⟩ :=
      loop_head_inv ndebug g reorder threshold push A n hr hc hb hCr hCc d stl hstl
    refine ⟨d, hdk, stl, hstl, ?_⟩
    have hf := hinvl.frontier_bit (64 * b + i) j
    unfold source_bit at hf
    rw [hdiv, hmod] at hf
    rw [hf, (bfs_rounds_iff _ _ _ _ _ _).mpr ⟨le_refl d, hdist⟩]
    simp [hs, hj]
  refine ⟨⟨entry_state n push,
    loop_head_zero ndebug g reorder threshold push A n hr hc hb, rfl⟩, hheads, ?_⟩
  obtain ⟨final, Lf, hrun, _⟩ :=
    compute_ccv_run_ok ndebug g reorder threshold push A n hr hc hb hCr hCc
  refine ⟨_, hrun, ?_⟩
  intro b j i hbit
  obtain ⟨l, stl, hl, hs, _, _⟩ :=
    run_final_head ndebug g reorder threshold push A n hr hc hb _ hrun
  rw [hs] at hbit
  obtain ⟨l', _, stl', hl', hbit'⟩ := hheads l stl hl b j i hbit
  exact ⟨l', stl', hl', hbit'⟩

theorem C18_seen_bits_come_from_frontiers_witness :
    (∃ st0, loop_head false 4 reverse_order (3 / 200) true
        (undirected 3 [(0, 1), (1, 2)]) 0 = some st0 ∧
      st0.frontier = diagonal_bit_matrix 3) ∧
    (∀ k st, loop_head false 4 reverse_order (3 / 200) true
        (undirected 3 [(0, 1), (1, 2)]) k = some st →
      ∀ b j i, ((st.seen.get b j).getD 0).testBit i = true →
        ∃ l, l ≤ k ∧ ∃ stl, loop_head false 4 reverse_order (3 / 200) true
            (undirected 3 [(0, 1), (1, 2)]) l = some stl ∧
          ((stl.frontier.get b j).getD 0).testBit i = true) ∧
    (∃ run, compute_ccv_run false 4 reverse_order (3 / 200) true
        (undirected 3 [(0, 1), (1, 2)]) = .ok run ∧
      ∀ b j i, ((run.final.seen.get b j).getD 0).testBit i = true →
        ∃ l stl, loop_head false 4 reverse_order (3 / 200) true
            (undirected 3 [(0, 1), (1, 2)]) l = some stl ∧
          ((stl.frontier.get b j).getD 0).testBit i = true) :=
  C18_seen_bits_come_from_frontiers false 4 reverse_order (3 / 200) true
    (undirected 3 [(0, 1), (1, 2)]) 3 rfl rfl (by decide) (by unfold IsReordering; decide)
/-- C17: in a run on any adjacency relation, the masked `next` of every level `k + 1` that
the loop reaches, which replaces the frontier unless it is empty, has the bit of source `s`
set at vertex `j` exactly when the shortest walk from `s` to `j` has length `k + 1`; at every
loop head the frontier holds the pairs at distance exactly the number of completed levels;
and when the run has ended the bit of `s` is set in `seen` at `j` exactly when some walk
leads from `s` to `j`.  Each statement is given for the traversed matrix and, through the
mapping, for the input. -/
theorem C17_frontier_bits_are_shortest_paths (ndebug : Bool) (g : Int)
    (reorder : GrB_Matrix → GrB_Matrix × (Nat → Nat)) (threshold : ℚ) (push : Bool)
    (A : GrB_Matrix) (n : Nat) (hr : A.nrows = n) (hc : A.ncols = n) (hb : n + 63 < 2 ^ 64)
    (hre : IsReordering A (reorder A).1 (reorder A).2) :
    (∀ k st, loop_head ndebug g reorder threshold push A k = some st →
      (∀ s j, source_bit st.frontier s j = true ↔
        s < n ∧ j < n ∧ IsDist (edge (reorder A).1) n s j k) ∧
      (∀ u v, u < n → v < n →
        (source_bit st.frontier ((reorder A).2 u) ((reorder A).2 v) = true ↔
          IsDist (edge A) n u v k)) ∧
      (k + 1 < n →
        ∃ st1, level_iteration (reorder A).1 (GrB_Vector_assign_UINT64 (GrB_Vector_new n) 1)
            threshold n n (k + 1) st = .ok st1 ∧
          (∀ s j, source_bit st1.next s j = true ↔
            s < n ∧ j < n ∧ IsDist (edge (reorder A).1) n s j (k + 1)) ∧
          (∀ u v, u < n → v < n →
            (source_bit st1.next ((reorder A).2 u) ((reorder A).2 v) = true ↔
              IsDist (edge A) n u v (k + 1))) ∧
          (GrB_Matrix_nvals st1.next ≠ 0 → st1.frontier = st1.next ∧
            loop_head ndebug g reorder threshold push A (k + 1) = some st1))) ∧
    (∃ run, compute_ccv_run ndebug g reorder threshold push A = .ok run ∧
      (∀ s j, source_bit run.final.seen s j = true ↔
        s < n ∧ j < n ∧ ∃ d, Walk (edge (reorder A).1) n d s j) ∧
      (∀ u v, u < n → v < n →
        (source_bit run.final.seen ((reorder A).2 u) ((reorder A).2 v) = true ↔
          ∃ d, Walk (edge A) n d u v))) := by
  have hCr : (reorder A).1.nrows = n := by rw [hre.1, hr]
  have hCc : (reorder A).1.ncols = n := by rw [hre.2.1, hc]
  have hm : ∀ i, i < n → (reorder A).2 i < n := fun i hi => mapping_lt hre hr hi
  have hinj : ∀ i, i < n → ∀ j, j < n → (reorder A).2 i = (reorder A).2 j → i = j := by
    rw [← hr]
    exact hre.2.2.2.1
  have hedge : ∀ i, i < n → ∀ j, j < n →
      edge (reorder A).1 ((reorder A).2 i) ((reorder A).2 j) = edge A i j := by
    rw [← hr]
    exact hre.2.2.2.2
  constructor
  · intro k st hhead
    obtain ⟨hinv, _, _⟩ :=
      loop_head_inv ndebug g reorder threshold push A n hr hc hb hCr hCc k st hhead
    have hfront : ∀ s j, source_bit st.frontier s j = true ↔
        s < n ∧ j < n ∧ IsDist (edge (reorder A).1) n s j k := by
      intro s j
      rw [hinv.frontier_bit]
      simp only [Bool.and_eq_true, decide_eq_true_eq, beq_iff_eq, bfs_rounds_iff]
      constructor
      · rintro ⟨⟨hs, hj⟩, _, hd⟩
        exact ⟨hs, hj, hd⟩
      · rintro ⟨hs, hj, hd⟩
        exact ⟨⟨hs, hj⟩, le_refl k, hd⟩
    refine ⟨hfront, ?_, ?_⟩
    · intro u v hu hv
      rw [hfront, IsDist.map_iff hm hinj hedge hu hv]
      constructor
      · rintro ⟨_, _, hd⟩
        exact hd
      · intro hd
        exact ⟨hm u hu, hm v hv, hd⟩
    · intro hk
      obtain ⟨st1, hit, hnext, hcont⟩ :=
        loop_head_iteration ndebug g reorder threshold push A n hr hc hb hCr hCc k st hhead hk
      have hnb : ∀ s j, source_bit st1.next s j = true ↔
          s < n ∧ j < n ∧ IsDist (edge (reorder A).1) n s j (k + 1) := by
        intro s j
        rw [hnext, next_bit hinv hCr hCc]
        simp only [Bool.and_eq_true, decide_eq_true_eq, beq_iff_eq, bfs_rounds_iff]
        constructor
        · rintro ⟨⟨hs, hj⟩, _, hd⟩
          exact ⟨hs, hj, hd⟩
        · rintro ⟨hs, hj, hd⟩
          exact ⟨⟨hs, hj⟩, le_refl (k + 1), hd⟩
      refine ⟨st1, hit, hnb, ?_, ?_⟩
      · intro u v hu hv
        rw [hnb, IsDist.map_iff hm hinj hedge hu hv]
        constructor
        · rintro ⟨_, _, hd⟩
          exact hd
        · intro hd
          exact ⟨hm u hu, hm v hv, hd⟩
      · intro hnz
        obtain ⟨E, _, _, hcase⟩ := level_iteration_cases _ _ _ _ _ _ _ _ hit
        rcases hcase with ⟨hz, _⟩ | ⟨_, hrun, hf, _⟩
        · exact absurd hz hnz
        · exact ⟨hf, hcont hrun⟩
  · obtain ⟨final, Lf, hrun, hend⟩ :=
      compute_ccv_run_ok ndebug g reorder threshold push A n hr hc hb hCr hCc
    have hseen : ∀ s j, source_bit final.seen s j = true ↔
        s < n ∧ j < n ∧ ∃ d, Walk (edge (reorder A).1) n d s j := by
      intro s j
      rw [hend.seen_bit]
      simp only [Bool.and_eq_true, decide_eq_true_eq]
      constructor
      · rintro ⟨⟨hs, hj⟩, hsome⟩
        rw [hend.labels s hs j] at hsome
        exact ⟨hs, hj, (single_source_bfs_isSome_iff hs j).mp hsome⟩
      · rintro ⟨hs, hj, hw⟩
        refine ⟨⟨hs, hj⟩, ?_⟩
        rw [hend.labels s hs j]
        exact (single_source_bfs_isSome_iff hs j).mpr hw
    refine ⟨_, hrun, hseen, ?_⟩
    intro u v hu hv
    show source_bit final.seen _ _ = true ↔ _
    rw [hseen]
    constructor
    · rintro ⟨_, _, d, w⟩
      obtain ⟨t, ht, hmt, w'⟩ := Walk.unmap hm hinj hedge hu w
      have htv : t = v := hinj t ht v hv hmt
      rw [← htv]
      exact ⟨d, w'⟩
    · rintro ⟨d, w⟩
      exact ⟨hm u hu, hm v hv, d, Walk.map hm hedge w⟩

theorem C17_frontier_bits_are_shortest_paths_witness :
    (∀ k st, loop_head false 4 reverse_order (3 / 200) true
        (undirected 3 [(0, 1), (1, 2)]) k = some st →
      (∀ s j, source_bit st.frontier s j = true ↔
        s < 3 ∧ j < 3 ∧
          IsDist (edge (reverse_order (undirected 3 [(0, 1), (1, 2)])).1) 3 s j k) ∧
      (∀ u v, u < 3 → v < 3 →
        (source_bit st.frontier ((reverse_order (undirected 3 [(0, 1), (1, 2)])).2 u)
            ((reverse_order (undirected 3 [(0, 1), (1, 2)])).2 v) = true ↔
          IsDist (edge (undirected 3 [(0, 1), (1, 2)])) 3 u v k)) ∧
      (k + 1 < 3 →
        ∃ st1, level_iteration (reverse_order (undirected 3 [(0, 1), (1, 2)])).1
            (GrB_Vector_assign_UINT64 (GrB_Vector_new 3) 1)
            (3 / 200) 3 3 (k + 1) st = .ok st1 ∧
          (∀ s j, source_bit st1.next s j = true ↔
            s < 3 ∧ j < 3 ∧
              IsDist (edge (reverse_order (undirected 3 [(0, 1), (1, 2)])).1) 3 s j (k + 1)) ∧
          (∀ u v, u < 3 → v < 3 →
            (source_bit st1.next ((reverse_order (undirected 3 [(0, 1), (1, 2)])).2 u)
                ((reverse_order (undirected 3 [(0, 1), (1, 2)])).2 v) = true ↔
              IsDist (edge (undirected 3 [(0, 1), (1, 2)])) 3 u v (k + 1))) ∧
          (GrB_Matrix_nvals st1.next ≠ 0 → st1.frontier = st1.next ∧
            loop_head false 4 reverse_order (3 / 200) true
              (undirected 3 [(0, 1), (1, 2)]) (k + 1) = some st1))) ∧
    (∃ run, compute_ccv_run false 4 reverse_order (3 / 200) true
        (undirected 3 [(0, 1), (1, 2)]) = .ok run ∧
      (∀ s j, source_bit run.final.seen s j = true ↔
        s < 3 ∧ j < 3 ∧
          ∃ d, Walk (edge (reverse_order (undirected 3 [(0, 1), (1, 2)])).1) 3 d s j) ∧
      (∀ u v, u < 3 → v < 3 →
        (source_bit run.final.seen ((reverse_order (undirected 3 [(0, 1), (1, 2)])).2 u)
            ((reverse_order (undirected 3 [(0, 1), (1, 2)])).2 v) = true ↔
          ∃ d, Walk (edge (undirected 3 [(0, 1), (1, 2)])) 3 d u v))) :=
  C17_frontier_bits_are_shortest_paths false 4 reverse_order (3 / 200) true
    (undirected 3 [(0, 1), (1, 2)]) 3 rfl rfl (by decide) (by unfold IsReordering; decide)
/-! ### Bits stand for vertices -/

theorem bitsInRange_of_bits {n : Nat} {M : GrB_Matrix} (hrows : M.nrows = (n + 63) / 64)
    (hcols : M.ncols = n) (hword : ∀ b j x, M.get b j = some x → x < 2 ^ 64)
    (hbit : ∀ s j, source_bit M s j = true → s < n) : BitsInRange n M := by
  intro b j x hx
  have hin : b < M.nrows ∧ j < M.ncols := by
    by_contra hout
    unfold GrB_Matrix.get at hx
    rw [if_neg hout] at hx
    cases hx
  refine ⟨by omega, by omega, hword b j x hx, ?_⟩
  intro k hk
  by_cases h64 : k < 64
  · have hdiv : (64 * b + k) / 64 = b := by omega
    have hmod : (64 * b + k) % 64 = k := by omega
    by_contra hset
    have hsrc : source_bit M (64 * b + k) j = true := by
      unfold source_bit
      rw [hdiv, hmod, hx]
      simpa using hset
    have := hbit _ _ hsrc
    omega
  · exact Nat.testBit_eq_false_of_lt
      (lt_of_lt_of_le (hword b j x hx) (Nat.pow_le_pow_right (by decide) (by omega)))

theorem popcount_sum_real_sources {n : Nat} {M : GrB_Matrix}
    (hrows : M.nrows = (n + 63) / 64) (hbit : ∀ s j, source_bit M s j = true → s < n)
    (j : Nat) :
    ∑ b in Finset.range ((n + 63) / 64), popcountll ((M.get b j).getD 0)
      = ((Finset.range n).filter (fun s => source_bit M s j = true)).card := by
  rw [← hrows, sum_popcount_eq_card]
  congr 1
  ext s
  simp only [Finset.mem_filter, Finset.mem_range]
  constructor
  · rintro ⟨_, hs⟩
    exact ⟨hbit s j hs, hs⟩
  · rintro ⟨hs, hb⟩
    exact ⟨by omega, hb⟩

theorem source_bit_expanded_lt {C : GrB_Matrix} {n L : Nat} {st : LoopState}
    (h : LevelInv C n L st) (s j : Nat) (hs : source_bit (expanded st C) s j = true) :
    s < n := by
  unfold expanded at hs
  rw [source_bit_expansion] at hs
  simp only [Bool.and_eq_true, decide_eq_true_eq, List.any_eq_true, List.mem_range,
    h.frontier_bit] at hs
  obtain ⟨_, i, _, _, ⟨hs, _⟩, _⟩ := hs
  exact hs

/-- C19: at every loop head of a run and after every iteration of the loop, every stored cell
`(b, j)` of `frontier`, `next` (also right after the expansion, before the masking) and
`seen` has `b < ceil (n / 64)`, `j < n` and bit `k` clear whenever `64 * b + k ≥ n`; hence
the popcount sums over a column of `next` and of `seen` count sources below `n` only. -/
theorem C19_bits_stand_for_sources (ndebug : Bool) (g : Int)
    (reorder : GrB_Matrix → GrB_Matrix × (Nat → Nat)) (threshold : ℚ) (push : Bool)
    (A : GrB_Matrix) (n : Nat) (hr : A.nrows = n) (hc : A.ncols = n) (hb : n + 63 < 2 ^ 64)
    (hre : IsReordering A (reorder A).1 (reorder A).2) (k : Nat) (st : LoopState)
    (hhead : loop_head ndebug g reorder threshold push A k = some st) :
    BitsInRange n st.frontier ∧ BitsInRange n st.next ∧ BitsInRange n st.seen ∧
    (∀ j, ∑ b in Finset.range ((n + 63) / 64), popcountll ((st.seen.get b j).getD 0)
      = ((Finset.range n).filter (fun s => source_bit st.seen s j = true)).card) ∧
    (k + 1 < n →
      ∃ st1, level_iteration (reorder A).1 (GrB_Vector_assign_UINT64 (GrB_Vector_new n) 1)
          threshold n n (k + 1) st = .ok st1 ∧
        BitsInRange n (expanded st (reorder A).1) ∧
        st1.next = revisit_masking (expanded st (reorder A).1) st.seen ∧
        BitsInRange n st1.next ∧ BitsInRange n st1.frontier ∧ BitsInRange n st1.seen ∧
        (∀ j, ∑ b in Finset.range ((n + 63) / 64), popcountll ((st1.next.get b j).getD 0)
          = ((Finset.range n).filter (fun s => source_bit st1.next s j = true)).card)) := by
  have hCr : (reorder A).1.nrows = n := by rw [hre.1, hr]
  have hCc : (reorder A).1.ncols = n := by rw [hre.2.1, hc]
  have key : ∀ k st, loop_head ndebug g reorder threshold push A k = some st →
      BitsInRange n st.frontier ∧ BitsInRange n st.next ∧ BitsInRange n st.seen := by
    intro k st hhead
    obtain ⟨hinv, hh, _⟩ :=
      loop_head_inv ndebug g reorder threshold push A n hr hc hb hCr hCc k st hhead
    have hf : BitsInRange n st.frontier :=
      bitsInRange_of_bits hinv.frontier_rows hinv.frontier_cols
        (fun b j x hx => (hinv.frontier_word b j x hx).2)
        (fun s j hs => by
          rw [hinv.frontier_bit] at hs
          simp only [Bool.and_eq_true, decide_eq_true_eq] at hs
          exact hs.1.1)
    refine ⟨hf, fun b j x hx => hf b j x (hh.next_sub b j x hx), ?_⟩
    exact bitsInRange_of_bits hinv.seen_rows hinv.seen_cols hh.seen_word
      (fun s j hs => by
        rw [hinv.seen_bit] at hs
        simp only [Bool.and_eq_true, decide_eq_true_eq] at hs
        exact hs.1.1)
  obtain ⟨hinv, hh, _⟩ :=
    loop_head_inv ndebug g reorder threshold push A n hr hc hb hCr hCc k st hhead
  obtain ⟨hf, hn, hs⟩ := key k st hhead
  refine ⟨hf, hn, hs, ?_, ?_⟩
  · intro j
    exact popcount_sum_real_sources hinv.seen_rows
      (fun s j hs => by
        rw [hinv.seen_bit] at hs
        simp only [Bool.and_eq_true, decide_eq_true_eq] at hs
        exact hs.1.1) j
  · intro hk
    obtain ⟨st1, hit, hnext, hcont⟩ :=
      loop_head_iteration ndebug g reorder threshold push A n hr hc hb hCr hCc k st hhead hk
    have hnbit : ∀ s j, source_bit st1.next s j = true → s < n := by
      intro s j hs
      rw [hnext, next_bit hinv hCr hCc] at hs
      simp only [Bool.and_eq_true, decide_eq_true_eq] at hs
      exact hs.1.1
    have hnrows : st1.next.nrows = (n + 63) / 64 := by
      rw [hnext, revisit_masking_rows]
      exact hinv.next_rows
    have hncols : st1.next.ncols = n := by
      rw [hnext, revisit_masking_cols]
      exact hinv.next_cols
    have hnext1 : BitsInRange n st1.next :=
      bitsInRange_of_bits hnrows hncols
        (fun b j x hx => by
          rw [hnext] at hx
          exact (next_word hinv b j x hx).2) hnbit
    refine ⟨st1, hit, ?_, hnext, hnext1, ?_, ?_, ?_⟩
    · exact bitsInRange_of_bits hinv.next_rows hinv.next_cols (expanded_word hinv)
        (source_bit_expanded_lt hinv)
    · obtain ⟨E, _, _, hcase⟩ := level_iteration_cases _ _ _ _ _ _ _ _ hit
      rcases hcase with ⟨_, _, hfr, _⟩ | ⟨_, _, hfr, _⟩
      · rw [hfr]
        exact hf
      · rw [hfr]
        exact hnext1
    · obtain ⟨E, _, _, hcase⟩ := level_iteration_cases _ _ _ _ _ _ _ _ hit
      rcases hcase with ⟨_, _, _, hse, _⟩ | ⟨_, hrun, _⟩
      · rw [hse]
        exact hs
      · exact (key (k + 1) st1 (hcont hrun)).2.2
    · intro j
      exact popcount_sum_real_sources hnrows hnbit j

theorem C19_bits_stand_for_sources_witness :
    BitsInRange 3 (entry_state 3 true).frontier ∧ BitsInRange 3 (entry_state 3 true).next ∧
    BitsInRange 3 (entry_state 3 true).seen ∧
    (∀ j, ∑ b in Finset.range ((3 + 63) / 64),
        popcountll (((entry_state 3 true).seen.get b j).getD 0)
      = ((Finset.range 3).filter
          (fun s => source_bit (entry_state 3 true).seen s j = true)).card) ∧
    (0 + 1 < 3 →
      ∃ st1, level_iteration (reverse_order (undirected 3 [(0, 1), (1, 2)])).1
          (GrB_Vector_assign_UINT64 (GrB_Vector_new 3) 1)
          (3 / 200) 3 3 (0 + 1) (entry_state 3 true) = .ok st1 ∧
        BitsInRange 3 (expanded (entry_state 3 true)
          (reverse_order (undirected 3 [(0, 1), (1, 2)])).1) ∧
        st1.next = revisit_masking (expanded (entry_state 3 true)
          (reverse_order (undirected 3 [(0, 1), (1, 2)])).1) (entry_state 3 true).seen ∧
        BitsInRange 3 st1.next ∧ BitsInRange 3 st1.frontier ∧ BitsInRange 3 st1.seen ∧
        (∀ j, ∑ b in Finset.range ((3 + 63) / 64), popcountll ((st1.next.get b j).getD 0)
          = ((Finset.range 3).filter (fun s => source_bit st1.next s j = true)).card)) :=
  C19_bits_stand_for_sources false 4 reverse_order (3 / 200) true
    (undirected 3 [(0, 1), (1, 2)]) 3 rfl rfl (by decide) (by unfold IsReordering; decide)
    0 (entry_state 3 true)
    (loop_head_zero false 4 reverse_order (3 / 200) true _ 3 rfl rfl (by decide))
/-! ### Independence of the thread count -/

theorem chunks_upto (n T : Nat) (t : Nat) :
    (List.range t).flatMap (static_chunk n T)
      = List.range (min n (t * ((n + T - 1) / T))) := by
  induction t with
  | zero => simp
  | succ t ih =>
    rw [List.range_succ, List.flatMap_append, ih]
    simp only [List.flatMap_cons, List.flatMap_nil, List.append_nil, static_chunk]
    rw [Nat.succ_mul]
    generalize (n + T - 1) / T = c
    generalize t * c = a
    by_cases ha : n ≤ a
    · have h1 : min c (n - a) = 0 := by omega
      have h2 : min n a = n := by omega
      have h3 : min n (a + c) = n := by omega
      rw [h1, h2, h3]
      simp
    · have h2 : min n a = a := by omega
      have h3 : min n (a + c) = a + min c (n - a) := by omega
      rw [h2, h3, List.range_eq_range', List.range_eq_range']
      have := List.range'_append 0 a (min c (n - a)) 1
      simp only [Nat.one_mul, Nat.zero_add] at this
      rw [this, Nat.add_comm]

theorem chunks_cover (n T : Nat) (hT : 1 ≤ T) :
    (List.range T).flatMap (static_chunk n T) = List.range n := by
  rw [chunks_upto]
  have hn : n ≤ T * ((n + T - 1) / T) := by
    have := Nat.div_add_mod (n + T - 1) T
    have := Nat.mod_lt (n + T - 1) (show T > 0 by omega)
    omega
  rw [Nat.min_eq_left hn]

theorem fill_arrays_eq_sequential (T n : Nat) (hT : 1 ≤ T) :
    fill_arrays T n = (List.range n).foldl fill_body
      { I := fun _ => 0, J := fun _ => 0, X := fun _ => 0 } := by
  unfold fill_arrays
  rw [foldl_chunks, chunks_cover n T hT]

theorem tupleArrays_ext (a b : TupleArrays) (hI : ∀ k, a.I k = b.I k)
    (hJ : ∀ k, a.J k = b.J k) (hX : ∀ k, a.X k = b.X k) : a = b := by
  cases a
  cases b
  simp only [TupleArrays.mk.injEq]
  exact ⟨funext hI, funext hJ, funext hX⟩

theorem fill_any_order (n : Nat) (ws : List Nat) (hws : ∀ k, k ∈ ws ↔ k < n)
    (arr : TupleArrays) :
    ws.foldl fill_body arr = (List.range n).foldl fill_body arr := by
  have hmem : ∀ k, (k ∈ ws) = (k ∈ List.range n) := by
    intro k
    rw [List.mem_range]
    exact propext (hws k)
  apply tupleArrays_ext
  · intro k
    rw [(foldl_fill_body ws arr k).1, (foldl_fill_body (List.range n) arr k).1]
    simp only [hmem k]
  · intro k
    rw [(foldl_fill_body ws arr k).2.1, (foldl_fill_body (List.range n) arr k).2.1]
    simp only [hmem k]
  · intro k
    rw [(foldl_fill_body ws arr k).2.2, (foldl_fill_body (List.range n) arr k).2.2]
    simp only [hmem k]

theorem build_diag_any_dup (D : GrB_Matrix) (n : Nat) (I J X : Nat → Nat)
    (hI : ∀ k, k < n → I k = k / 64) (hJ : ∀ k, k < n → J k = k)
    (dup dup' : Nat → Nat → Nat) :
    GrB_Matrix_build_UINT64 D I J X n dup = GrB_Matrix_build_UINT64 D I J X n dup' := by
  unfold GrB_Matrix_build_UINT64
  have hcell : (fun i j => reduce_list dup
        (((List.range n).filter (fun k => decide (I k = i) && decide (J k = j))).map X))
      = (fun i j => reduce_list dup'
        (((List.range n).filter (fun k => decide (I k = i) && decide (J k = j))).map X)) := by
    funext i j
    rw [filter_range_diag n i j I J hI hJ]
    by_cases h : j < n ∧ j / 64 = i
    · simp [h, reduce_list]
    · simp [h, reduce_list]
  rw [hcell]

theorem create_diagonal_bit_matrix_threads (ndebug : Bool) (g : Int) (D : GrB_Matrix) :
    create_diagonal_bit_matrix ndebug g D =
      if (!ndebug && decide (D.nrows ≠ ((D.ncols + 63) % 2 ^ 64) / 64)) = true then
        .error Failure.assertion_failed
      else
        GrB_Matrix_build_UINT64 D (fill_arrays 1 D.ncols).I (fill_arrays 1 D.ncols).J
          (fill_arrays 1 D.ncols).X D.ncols GrB_BOR_UINT64 := by
  unfold create_diagonal_bit_matrix
  simp only
  rw [fill_arrays_eq_sequential _ _ (fill_nthreads_pos g D.ncols),
    fill_arrays_eq_sequential 1 _ (le_refl 1)]

theorem compute_ccv_run_threads (ndebug : Bool) (g1 g2 : Int)
    (reorder : GrB_Matrix → GrB_Matrix × (Nat → Nat)) (threshold : ℚ) (push : Bool)
    (A : GrB_Matrix) :
    compute_ccv_run ndebug g1 reorder threshold push A
      = compute_ccv_run ndebug g2 reorder threshold push A := by
  unfold compute_ccv_run loop_entry
  simp only [create_diagonal_bit_matrix_threads ndebug g1,
    create_diagonal_bit_matrix_threads ndebug g2]

/-- C15: for every `n` and every two thread counts (values of `GlobalNThreads`, or any
positive number of threads), the fill loop of `create_diagonal_bit_matrix` writes every
`k < n` exactly once and nothing else, with `I[k] = k / 64`, `J[k] = k`,
`X[k] = 2 ^ (k mod 64)`; the arrays are the same, also when the writes happen in any other
order `ws`; the positions `(I[k], J[k])` are pairwise distinct, so the built matrix does not
depend on the duplicate combiner; `create_diagonal_bit_matrix` gives the same matrix and
`compute_ccv` the same result for both thread counts. -/
theorem C15_thread_count_independence (ndebug : Bool) (g1 g2 : Int)
    (reorder : GrB_Matrix → GrB_Matrix × (Nat → Nat)) (threshold : ℚ) (push : Bool)
    (n T : Nat) (D A : GrB_Matrix) (ws : List Nat) (hT : 1 ≤ T)
    (hws : ∀ k, k ∈ ws ↔ k < n) :
    (List.range T).flatMap (static_chunk n T) = List.range n ∧
    (List.range (fill_nthreads g1 n)).flatMap (static_chunk n (fill_nthreads g1 n))
      = List.range n ∧
    (∀ k, k < n → (fill_arrays T n).I k = k / 64 ∧ (fill_arrays T n).J k = k ∧
      (fill_arrays T n).X k = 2 ^ (k % 64)) ∧
    fill_arrays (fill_nthreads g1 n) n = fill_arrays T n ∧
    fill_arrays (fill_nthreads g1 n) n = fill_arrays (fill_nthreads g2 n) n ∧
    ws.foldl fill_body { I := fun _ => 0, J := fun _ => 0, X := fun _ => 0 }
      = fill_arrays T n ∧
    (∀ k1 k2, k1 < n → k2 < n → k1 ≠ k2 →
      ((fill_arrays T n).I k1, (fill_arrays T n).J k1)
        ≠ ((fill_arrays T n).I k2, (fill_arrays T n).J k2)) ∧
    (∀ dup, GrB_Matrix_build_UINT64 D (fill_arrays T n).I (fill_arrays T n).J
        (fill_arrays T n).X n dup
      = GrB_Matrix_build_UINT64 D (fill_arrays T n).I (fill_arrays T n).J
        (fill_arrays T n).X n GrB_BOR_UINT64) ∧
    create_diagonal_bit_matrix ndebug g1 D = create_diagonal_bit_matrix ndebug g2 D ∧
    compute_ccv_run ndebug g1 reorder threshold push A
      = compute_ccv_run ndebug g2 reorder threshold push A ∧
    compute_ccv ndebug g1 reorder threshold push A
      = compute_ccv ndebug g2 reorder threshold push A := by
  have hspec := fun k hk => fill_arrays_spec T n k hT hk
  refine ⟨chunks_cover n T hT, chunks_cover n _ (fill_nthreads_pos g1 n), hspec, ?_, ?_, ?_,
    ?_, ?_, ?_, compute_ccv_run_threads ndebug g1 g2 reorder threshold push A, ?_⟩
  · rw [fill_arrays_eq_sequential _ n (fill_nthreads_pos g1 n), fill_arrays_eq_sequential T n hT]
  · rw [fill_arrays_eq_sequential _ n (fill_nthreads_pos g1 n),
      fill_arrays_eq_sequential _ n (fill_nthreads_pos g2 n)]
  · rw [fill_arrays_eq_sequential T n hT]
    exact fill_any_order n ws hws _
  · intro k1 k2 h1 h2 hne heq
    rw [(hspec k1 h1).1, (hspec k1 h1).2.1, (hspec k2 h2).1, (hspec k2 h2).2.1] at heq
    exact hne (Prod.mk.inj heq).2
  · intro dup
    exact build_diag_any_dup D n _ _ _ (fun k hk => (hspec k hk).1)
      (fun k hk => (hspec k hk).2.1) dup GrB_BOR_UINT64
  · rw [create_diagonal_bit_matrix_threads ndebug g1, create_diagonal_bit_matrix_threads ndebug g2]
  · unfold compute_ccv
    rw [compute_ccv_run_threads ndebug g1 g2]

theorem C15_thread_count_independence_witness :
    (List.range 3).flatMap (static_chunk 8200 3) = List.range 8200 ∧
    (List.range (fill_nthreads 1 8200)).flatMap (static_chunk 8200 (fill_nthreads 1 8200))
      = List.range 8200 ∧
    (∀ k, k < 8200 → (fill_arrays 3 8200).I k = k / 64 ∧ (fill_arrays 3 8200).J k = k ∧
      (fill_arrays 3 8200).X k = 2 ^ (k % 64)) ∧
    fill_arrays (fill_nthreads 1 8200) 8200 = fill_arrays 3 8200 ∧
    fill_arrays (fill_nthreads 1 8200) 8200 = fill_arrays (fill_nthreads 8 8200) 8200 ∧
    (List.range 8200).reverse.foldl fill_body
        { I := fun _ => 0, J := fun _ => 0, X := fun _ => 0 }
      = fill_arrays 3 8200 ∧
    (∀ k1 k2, k1 < 8200 → k2 < 8200 → k1 ≠ k2 →
      ((fill_arrays 3 8200).I k1, (fill_arrays 3 8200).J k1)
        ≠ ((fill_arrays 3 8200).I k2, (fill_arrays 3 8200).J k2)) ∧
    (∀ dup, GrB_Matrix_build_UINT64 (GrB_Matrix_new 129 8200) (fill_arrays 3 8200).I
        (fill_arrays 3 8200).J (fill_arrays 3 8200).X 8200 dup
      = GrB_Matrix_build_UINT64 (GrB_Matrix_new 129 8200) (fill_arrays 3 8200).I
        (fill_arrays 3 8200).J (fill_arrays 3 8200).X 8200 GrB_BOR_UINT64) ∧
    create_diagonal_bit_matrix false 1 (GrB_Matrix_new 129 8200)
      = create_diagonal_bit_matrix false 8 (GrB_Matrix_new 129 8200) ∧
    compute_ccv_run false 1 keep_order (3 / 200) true (undirected 3 [(0, 1), (1, 2)])
      = compute_ccv_run false 8 keep_order (3 / 200) true (undirected 3 [(0, 1), (1, 2)]) ∧
    compute_ccv false 1 keep_order (3 / 200) true (undirected 3 [(0, 1), (1, 2)])
      = compute_ccv false 8 keep_order (3 / 200) true (undirected 3 [(0, 1), (1, 2)]) :=
  C15_thread_count_independence false 1 8 keep_order (3 / 200) true 8200 3
    (GrB_Matrix_new 129 8200) (undirected 3 [(0, 1), (1, 2)]) (List.range 8200).reverse
    (by decide) (fun k => by rw [List.mem_reverse, List.mem_range])
/-! ### The accumulators count by target -/

theorem reached_by_map {A C : GrB_Matrix} {m : Nat → Nat} {n : Nat}
    (hre : IsReordering A C m) (hr : A.nrows = n) {p : Nat} (hp : p < n) :
    reached_by (edge C) n (m p) = reached_by (edge A) n p := by
  have hre' := hre
  obtain ⟨_, _, hm, hinj, _⟩ := hre
  rw [hr] at hm hinj
  unfold reached_by
  symm
  apply Finset.card_bij (fun s _ => m s)
  · intro s hs
    simp only [Finset.mem_filter, Finset.mem_range] at hs ⊢
    exact ⟨hm s hs.1, by rw [single_source_bfs_map hre' hr hs.1 hp]; exact hs.2⟩
  · intro a ha b hb hab
    simp only [Finset.mem_filter, Finset.mem_range] at ha hb
    exact hinj a ha.1 b hb.1 hab
  · intro s' hs'
    simp only [Finset.mem_filter, Finset.mem_range] at hs'
    obtain ⟨s, hs, rfl⟩ := perm_surj hm hinj s' hs'.1
    refine ⟨s, ?_, rfl⟩
    simp only [Finset.mem_filter, Finset.mem_range]
    exact ⟨hs, by rw [← single_source_bfs_map hre' hr hs hp]; exact hs'.2⟩

theorem dist_sum_to_map {A C : GrB_Matrix} {m : Nat → Nat} {n : Nat}
    (hre : IsReordering A C m) (hr : A.nrows = n) {p : Nat} (hp : p < n) :
    dist_sum_to (edge C) n (m p) = dist_sum_to (edge A) n p := by
  have hre' := hre
  obtain ⟨_, _, hm, hinj, _⟩ := hre
  rw [hr] at hm hinj
  unfold dist_sum_to
  symm
  apply Finset.sum_bij (fun s _ => m s)
  · intro s hs
    simp only [Finset.mem_range] at hs ⊢
    exact hm s hs
  · intro a ha b hb hab
    simp only [Finset.mem_range] at ha hb
    exact hinj a ha b hb hab
  · intro s' hs'
    simp only [Finset.mem_range] at hs'
    obtain ⟨s, hs, rfl⟩ := perm_surj hm hinj s' hs'
    exact ⟨s, Finset.mem_range.mpr hs, rfl⟩
  · intro s hs
    simp only [Finset.mem_range] at hs
    rw [single_source_bfs_map hre' hr hs hp]

theorem dist_sum_to_le (adj : Nat → Nat → Bool) (n j : Nat) (hj : j < n) :
    dist_sum_to adj n j ≤ (n - 1) * (n - 1) := by
  unfold dist_sum_to single_source_bfs
  exact per_target_sum_le adj n n j hj

theorem final_sp_exact {C : GrB_Matrix} {n Lf : Nat} {final : LoopState}
    (h : TraversalEnd C n Lf final) (hcube : (n - 1) ^ 3 < 2 ^ 64) (j : Nat) (hj : j < n) :
    final.sp.get j =
      if reached_by_other (edge C) n j then some (dist_sum_to (edge C) n j) else none := by
  rw [final_sp_get h j hj,
    Nat.mod_eq_of_lt (lt_of_le_of_lt (dist_sum_to_le _ n j hj) (sq_lt_of_cube hcube))]

theorem single_source_bfs_eq_some_iff {adj : Nat → Nat → Bool} {n p : Nat} (hp : p < n)
    (t d : Nat) : single_source_bfs adj n p t = some d ↔ IsDist adj n p t d := by
  unfold single_source_bfs
  rw [bfs_rounds_iff]
  constructor
  · exact fun h => h.2
  · intro h
    have := h.lt hp
    exact ⟨by omega, h⟩

theorem reached_by_other_iff (adj : Nat → Nat → Bool) (n j : Nat) :
    reached_by_other adj n j = true ↔ ∃ s, s < n ∧ s ≠ j ∧ ∃ d, Walk adj n d s j := by
  unfold reached_by_other
  simp only [List.any_eq_true, List.mem_range, Bool.and_eq_true, decide_eq_true_eq]
  constructor
  · rintro ⟨s, hs, hne, hsome⟩
    exact ⟨s, hs, hne, (single_source_bfs_isSome_iff hs j).mp hsome⟩
  · rintro ⟨s, hs, hne, hw⟩
    exact ⟨s, hs, hne, (single_source_bfs_isSome_iff hs j).mpr hw⟩

theorem dist_sum_to_eq_filter (adj : Nat → Nat → Bool) (n j : Nat) :
    dist_sum_to adj n j =
      ∑ s in (Finset.range n).filter
          (fun s => s ≠ j ∧ (single_source_bfs adj n s j).isSome = true),
        (single_source_bfs adj n s j).getD 0 := by
  unfold dist_sum_to
  symm
  apply Finset.sum_filter_of_ne
  intro s _ hne
  constructor
  · intro hsj
    apply hne
    rw [hsj]
    unfold single_source_bfs
    rw [bfs_rounds_self]
    rfl
  · cases hs : single_source_bfs adj n s j with
    | none =>
      rw [hs] at hne
      exact absurd rfl hne
    | some d => rfl

/-- C16: for every adjacency relation, symmetric or not, with `(n-1)^3 < 2^64`: when the
run has ended, `sp[j]` holds the sum over the sources `s ≠ j` from which a walk leads to `j`
of the length of the shortest walk from `s` to `j`, and is missing exactly when there is no
such source; the value reduced into `compsize[j]` is the number of sources from which a walk
leads to `j`, `j` included.  The statement is given for the traversed matrix and, at index
`mapping v`, for the input. -/
theorem C16_accumulators_indexed_by_target (ndebug : Bool) (g : Int)
    (reorder : GrB_Matrix → GrB_Matrix × (Nat → Nat)) (threshold : ℚ) (push : Bool)
    (A : GrB_Matrix) (n : Nat) (hr : A.nrows = n) (hc : A.ncols = n)
    (hcube : (n - 1) ^ 3 < 2 ^ 64) (hre : IsReordering A (reorder A).1 (reorder A).2) :
    ∃ run, compute_ccv_run ndebug g reorder threshold push A = .ok run ∧
      (∀ j, j < n →
        run.final.sp.get j =
          (if reached_by_other (edge (reorder A).1) n j then
            some (∑ s in (Finset.range n).filter (fun s => s ≠ j ∧
                (single_source_bfs (edge (reorder A).1) n s j).isSome = true),
              (single_source_bfs (edge (reorder A).1) n s j).getD 0)
          else none) ∧
        (run.final.sp.get j = none ↔
          ¬ ∃ s, s < n ∧ s ≠ j ∧ ∃ d, Walk (edge (reorder A).1) n d s j) ∧
        run.compsize_reduced.get j = some (((Finset.range n).filter
          (fun s => (single_source_bfs (edge (reorder A).1) n s j).isSome = true)).card) ∧
        (∀ s, s < n →
          ((single_source_bfs (edge (reorder A).1) n s j).isSome = true ↔
            ∃ d, Walk (edge (reorder A).1) n d s j) ∧
          ∀ d, single_source_bfs (edge (reorder A).1) n s j = some d ↔
            IsDist (edge (reorder A).1) n s j d)) ∧
      (∀ v, v < n →
        run.final.sp.get ((reorder A).2 v) =
          (if reached_by_other (edge A) n v then
            some (∑ s in (Finset.range n).filter (fun s => s ≠ v ∧
                (single_source_bfs (edge A) n s v).isSome = true),
              (single_source_bfs (edge A) n s v).getD 0)
          else none) ∧
        (run.final.sp.get ((reorder A).2 v) = none ↔
          ¬ ∃ s, s < n ∧ s ≠ v ∧ ∃ d, Walk (edge A) n d s v) ∧
        run.compsize_reduced.get ((reorder A).2 v) = some (((Finset.range n).filter
          (fun s => (single_source_bfs (edge A) n s v).isSome = true)).card) ∧
        (∀ s, s < n →
          ((single_source_bfs (edge A) n s v).isSome = true ↔
            ∃ d, Walk (edge A) n d s v) ∧
          ∀ d, single_source_bfs (edge A) n s v = some d ↔ IsDist (edge A) n s v d)) := by
  have hb := bound_of_cube hcube
  have hCr : (reorder A).1.nrows = n := by rw [hre.1, hr]
  have hCc : (reorder A).1.ncols = n := by rw [hre.2.1, hc]
  obtain ⟨final, Lf, hrun, hend⟩ :=
    compute_ccv_run_ok ndebug g reorder threshold push A n hr hc hb hCr hCc
  have hsp : ∀ j, j < n → final.sp.get j =
      (if reached_by_other (edge (reorder A).1) n j then
        some (dist_sum_to (edge (reorder A).1) n j) else none) :=
    fun j hj => final_sp_exact hend hcube j hj
  have hnone : ∀ (adj : Nat → Nat → Bool) (j : Nat) (o : Option Nat),
      o = (if reached_by_other adj n j then some (dist_sum_to adj n j) else none) →
      (o = none ↔ ¬ ∃ s, s < n ∧ s ≠ j ∧ ∃ d, Walk adj n d s j) := by
    intro adj j o ho
    rw [← reached_by_other_iff, ho]
    cases reached_by_other adj n j <;> simp
  have hsem : ∀ (adj : Nat → Nat → Bool) (j s : Nat), s < n →
      ((single_source_bfs adj n s j).isSome = true ↔ ∃ d, Walk adj n d s j) ∧
      ∀ d, single_source_bfs adj n s j = some d ↔ IsDist adj n s j d :=
    fun adj j s hs => ⟨single_source_bfs_isSome_iff hs j,
      fun d => single_source_bfs_eq_some_iff hs j d⟩
  refine ⟨_, hrun, ?_, ?_⟩
  · intro j hj
    refine ⟨?_, hnone _ j _ (hsp j hj), ?_, hsem _ j⟩
    · rw [← dist_sum_to_eq_filter]
      exact hsp j hj
    · exact compsize_reduced_get hend hb _ j hj
  · intro v hv
    have hmv := mapping_lt hre hr hv
    have hspv : final.sp.get ((reorder A).2 v) =
        (if reached_by_other (edge A) n v then some (dist_sum_to (edge A) n v) else none) := by
      rw [hsp _ hmv, reached_by_other_map hre hr hv, dist_sum_to_map hre hr hv]
    refine ⟨?_, hnone _ v _ hspv, ?_, hsem _ v⟩
    · rw [← dist_sum_to_eq_filter]
      exact hspv
    · have := compsize_reduced_get hend hb (reorder A).2 _ hmv
      rw [reached_by_map hre hr hv] at this
      exact this

theorem C16_accumulators_indexed_by_target_witness :
    ∃ run, compute_ccv_run false 4 reverse_order (3 / 200) true
        (directed 3 [(0, 1), (1, 2)]) = .ok run ∧
      (∀ j, j < 3 →
        run.final.sp.get j =
          (if reached_by_other (edge (reverse_order (directed 3 [(0, 1), (1, 2)])).1) 3 j then
            some (∑ s in (Finset.range 3).filter (fun s => s ≠ j ∧
                (single_source_bfs (edge (reverse_order (directed 3 [(0, 1), (1, 2)])).1)
                  3 s j).isSome = true),
              (single_source_bfs (edge (reverse_order (directed 3 [(0, 1), (1, 2)])).1)
                3 s j).getD 0)
          else none) ∧
        (run.final.sp.get j = none ↔
          ¬ ∃ s, s < 3 ∧ s ≠ j ∧
            ∃ d, Walk (edge (reverse_order (directed 3 [(0, 1), (1, 2)])).1) 3 d s j) ∧
        run.compsize_reduced.get j = some (((Finset.range 3).filter
          (fun s => (single_source_bfs (edge (reverse_order (directed 3 [(0, 1), (1, 2)])).1)
            3 s j).isSome = true)).card) ∧
        (∀ s, s < 3 →
          ((single_source_bfs (edge (reverse_order (directed 3 [(0, 1), (1, 2)])).1)
              3 s j).isSome = true ↔
            ∃ d, Walk (edge (reverse_order (directed 3 [(0, 1), (1, 2)])).1) 3 d s j) ∧
          ∀ d, single_source_bfs (edge (reverse_order (directed 3 [(0, 1), (1, 2)])).1)
              3 s j = some d ↔
            IsDist (edge (reverse_order (directed 3 [(0, 1), (1, 2)])).1) 3 s j d)) ∧
      (∀ v, v < 3 →
        run.final.sp.get ((reverse_order (directed 3 [(0, 1), (1, 2)])).2 v) =
          (if reached_by_other (edge (directed 3 [(0, 1), (1, 2)])) 3 v then
            some (∑ s in (Finset.range 3).filter (fun s => s ≠ v ∧
                (single_source_bfs (edge (directed 3 [(0, 1), (1, 2)])) 3 s v).isSome = true),
              (single_source_bfs (edge (directed 3 [(0, 1), (1, 2)])) 3 s v).getD 0)
          else none) ∧
        (run.final.sp.get ((reverse_order (directed 3 [(0, 1), (1, 2)])).2 v) = none ↔
          ¬ ∃ s, s < 3 ∧ s ≠ v ∧ ∃ d, Walk (edge (directed 3 [(0, 1), (1, 2)])) 3 d s v) ∧
        run.compsize_reduced.get ((reverse_order (directed 3 [(0, 1), (1, 2)])).2 v) =
          some (((Finset.range 3).filter
            (fun s => (single_source_bfs (edge (directed 3 [(0, 1), (1, 2)])) 3 s v).isSome
              = true)).card) ∧
        (∀ s, s < 3 →
          ((single_source_bfs (edge (directed 3 [(0, 1), (1, 2)])) 3 s v).isSome = true ↔
            ∃ d, Walk (edge (directed 3 [(0, 1), (1, 2)])) 3 d s v) ∧
          ∀ d, single_source_bfs (edge (directed 3 [(0, 1), (1, 2)])) 3 s v = some d ↔
            IsDist (edge (directed 3 [(0, 1), (1, 2)])) 3 s v d)) :=
  C16_accumulators_indexed_by_target false 4 reverse_order (3 / 200) true
    (directed 3 [(0, 1), (1, 2)]) 3 rfl rfl (by decide) (by unfold IsReordering; decide)
/-! ### No 64-bit operation wraps -/

theorem directed_path3_by_target :
    dist_sum_to (edge (directed 3 [(0, 1), (1, 2)])) 3 2 = 3 ∧
    dist_sum (edge (directed 3 [(0, 1), (1, 2)])) 3 2 = 0 ∧
    reached_by (edge (directed 3 [(0, 1), (1, 2)])) 3 0 = 1 ∧
    reach (edge (directed 3 [(0, 1), (1, 2)])) 3 0 = 3 := by
  decide

theorem minus_one_exact {c : Nat} (h1 : 1 ≤ c) (hc : c < 2 ^ 64) :
    GrB_MINUS_UINT64 c 1 = c - 1 := by
  unfold GrB_MINUS_UINT64
  rw [Nat.mod_eq_of_lt hc, Nat.mod_eq_of_lt (show 1 < 2 ^ 64 by norm_num)]
  have h : c + (2 ^ 64 - 1) = (c - 1) + 2 ^ 64 := by omega
  rw [h, Nat.add_mod_right, Nat.mod_eq_of_lt (by omega)]

theorem n_minus_one_get (n : Nat) (hn : 1 ≤ n) (hb : n + 63 < 2 ^ 64) (m : Nat → Nat)
    (final : LoopState) (j : Nat) (hj : j < n) :
    (finalizer n m final).n_minus_one.get j = some (n - 1) := by
  show (GrB_Vector_assign_UINT64 (GrB_Vector_new n) ((n + (2 ^ 64 - 1)) % 2 ^ 64)).get j = _
  rw [assign_get]
  have hsz : (GrB_Vector_new n).size = n := rfl
  rw [hsz, if_pos hj]
  have h : n + (2 ^ 64 - 1) = (n - 1) + 2 ^ 64 := by omega
  rw [h, Nat.add_mod_right, Nat.mod_eq_of_lt (by omega)]

theorem cube_eq (a : Nat) : a * (a * a) = a ^ 3 := by ring

/-- C20: on `n ≥ 1` vertices with `(n-1)^3 < 2^64` no 64-bit operation of the accumulator or
of the finalizer wraps.  In every iteration the level is at most `n - 1`, the popcount sum of
a column is at most `n`, and its product with the level and the new `sp[j]` are at most
`(n-1)^2`.  In the finalizer the value `c` reduced into `compsize[j]` is the exact count of
sources reaching `j` with `1 ≤ c ≤ n`, `c - 1` and `(c-1)^2 ≤ (n-1)^2` are stored exactly,
every `sp[j]` is at most `(n-1)^2` and `(n-1) * sp[j] ≤ (n-1)^3` is stored exactly. -/
theorem C20_no_wraparound (ndebug : Bool) (g : Int)
    (reorder : GrB_Matrix → GrB_Matrix × (Nat → Nat)) (threshold : ℚ) (push : Bool)
    (A : GrB_Matrix) (n : Nat) (hn : 1 ≤ n) (hr : A.nrows = n) (hc : A.ncols = n)
    (hcube : (n - 1) ^ 3 < 2 ^ 64) (hre : IsReordering A (reorder A).1 (reorder A).2) :
    (n - 1) * (n - 1) < 2 ^ 64 ∧
    (∀ k st, loop_head ndebug g reorder threshold push A k = some st →
      (∀ j, j < n → (st.sp.get j).getD 0 ≤ (n - 1) * (n - 1)) ∧
      (k + 1 < n →
        ∃ st1, level_iteration (reorder A).1 (GrB_Vector_assign_UINT64 (GrB_Vector_new n) 1)
            threshold n n (k + 1) st = .ok st1 ∧
          ∀ j, j < n →
            st1.level_v.get j = some (k + 1) ∧ k + 1 ≤ n - 1 ∧
            ∑ b in Finset.range ((n + 63) / 64), popcountll ((st1.next.get b j).getD 0) ≤ n ∧
            (∑ b in Finset.range ((n + 63) / 64), popcountll ((st1.next.get b j).getD 0))
              * (k + 1) ≤ (n - 1) * (n - 1) ∧
            GrB_TIMES_UINT64
                (∑ b in Finset.range ((n + 63) / 64), popcountll ((st1.next.get b j).getD 0))
                (k + 1)
              = (∑ b in Finset.range ((n + 63) / 64), popcountll ((st1.next.get b j).getD 0))
                * (k + 1) ∧
            (st.sp.get j).getD 0 +
              (∑ b in Finset.range ((n + 63) / 64), popcountll ((st1.next.get b j).getD 0))
                * (k + 1) ≤ (n - 1) * (n - 1) ∧
            GrB_PLUS_UINT64 ((st.sp.get j).getD 0)
                ((∑ b in Finset.range ((n + 63) / 64),
                  popcountll ((st1.next.get b j).getD 0)) * (k + 1))
              = (st.sp.get j).getD 0 +
                (∑ b in Finset.range ((n + 63) / 64), popcountll ((st1.next.get b j).getD 0))
                  * (k + 1))) ∧
    (∃ run, compute_ccv_run ndebug g reorder threshold push A = .ok run ∧
      ∀ j, j < n →
        ∃ c, run.compsize_reduced.get j = some c ∧
          c = reached_by (edge (reorder A).1) n j ∧ 1 ≤ c ∧ c ≤ n ∧
          GrB_MINUS_UINT64 c 1 = c - 1 ∧
          run.compsize_minus_one.get j = some (c - 1) ∧
          (c - 1) * (c - 1) ≤ (n - 1) * (n - 1) ∧
          GrB_TIMES_UINT64 (c - 1) (c - 1) = (c - 1) * (c - 1) ∧
          run.compsize_squared.get j = some ((c - 1) * (c - 1)) ∧
          run.n_minus_one.get j = some (n - 1) ∧
          ∀ v, run.final.sp.get j = some v →
            v = dist_sum_to (edge (reorder A).1) n j ∧
            v ≤ (n - 1) * (n - 1) ∧ (n - 1) * v ≤ (n - 1) ^ 3 ∧
            GrB_TIMES_UINT64 (n - 1) v = (n - 1) * v ∧
            run.sp_scaled.get j = some ((n - 1) * v)) := by
  have hb := bound_of_cube hcube
  have hsq := sq_lt_of_cube hcube
  have hCr : (reorder A).1.nrows = n := by rw [hre.1, hr]
  have hCc : (reorder A).1.ncols = n := by rw [hre.2.1, hc]
  refine ⟨hsq, ?_, ?_⟩
  · intro k st hhead
    obtain ⟨hinv, hhinv, hkn⟩ :=
      loop_head_inv ndebug g reorder threshold push A n hr hc hb hCr hCc k st hhead
    have hspk : ∀ j, j < n → (st.sp.get j).getD 0 ≤
        ∑ s in Finset.range n, (bfs_rounds (edge (reorder A).1) n s k j).getD 0 := by
      intro j hj
      rw [head_sp_value hinv j hj]
      exact Nat.mod_le _ _
    refine ⟨fun j hj => le_trans (hspk j hj) (per_target_sum_le _ n k j hj), ?_⟩
    intro hk
    obtain ⟨st1, hit, hnext⟩ := level_iteration_ok hinv hCr hCc
      (GrB_Vector_assign_UINT64 (GrB_Vector_new n) 1) threshold n n (k + 1)
    obtain ⟨E, _, _, hcase⟩ := level_iteration_cases _ _ _ _ _ _ _ _ hit
    refine ⟨st1, hit, ?_⟩
    intro j hj
    have hlv : st1.level_v.get j = some (k + 1) := by
      rcases hcase with ⟨_, _, _, _, _, hl, _⟩ | ⟨_, hbk, _⟩
      · rw [hl]
        exact level_v_increment hinv.level_v_size (by omega) hhinv.level_v_entry j hj
      · have := (headInv_step hinv hhinv hCr hCc (by omega) threshold n n hit hbk).level_v_entry
          j hj
        simpa using this
    rw [hnext, next_popcount_sum hinv hCr hCc]
    have hle := per_target_sum_le (edge (reorder A).1) n (k + 1) j hj
    rw [sum_getD_succ] at hle
    have hcard : ((Finset.range n).filter
        (fun s => bfs_rounds (edge (reorder A).1) n s (k + 1) j = some (k + 1))).card ≤ n := by
      calc _ ≤ (Finset.range n).card := Finset.card_filter_le _ _
        _ = n := Finset.card_range n
    have hs := hspk j hj
    generalize ((Finset.range n).filter
      (fun s => bfs_rounds (edge (reorder A).1) n s (k + 1) j = some (k + 1))).card = cnt
      at hle hcard ⊢
    rw [Nat.mul_comm (k + 1) cnt] at hle
    have hprod : cnt * (k + 1) ≤ (n - 1) * (n - 1) := by omega
    have hsum : (st.sp.get j).getD 0 + cnt * (k + 1) ≤ (n - 1) * (n - 1) := by omega
    refine ⟨hlv, by omega, hcard, hprod, ?_, hsum, ?_⟩
    · unfold GrB_TIMES_UINT64
      exact Nat.mod_eq_of_lt (by omega)
    · unfold GrB_PLUS_UINT64
      exact Nat.mod_eq_of_lt (by omega)
  · obtain ⟨final, Lf, hrun, hend⟩ :=
      compute_ccv_run_ok ndebug g reorder threshold push A n hr hc hb hCr hCc
    refine ⟨_, hrun, ?_⟩
    intro j hj
    have h1 := reached_by_pos (edge (reorder A).1) n j hj
    have h2 := reached_by_le (edge (reorder A).1) n j
    have hsqc : (reached_by (edge (reorder A).1) n j - 1) *
        (reached_by (edge (reorder A).1) n j - 1) ≤ (n - 1) * (n - 1) :=
      Nat.mul_le_mul (by omega) (by omega)
    refine ⟨reached_by (edge (reorder A).1) n j, compsize_reduced_get hend hb _ j hj, rfl, h1,
      h2, minus_one_exact h1 (by omega), compsize_minus_one_get hend hb _ j hj, hsqc, ?_, ?_,
      n_minus_one_get n hn hb _ _ j hj, ?_⟩
    · unfold GrB_TIMES_UINT64
      exact Nat.mod_eq_of_lt (by omega)
    · rw [compsize_squared_get hend hb _ j hj, Nat.mod_eq_of_lt (by omega)]
    · intro v hv
      have hv' : (finalizer n (reorder A).2 final).final.sp.get j = some v := hv
      have hfin : (finalizer n (reorder A).2 final).final = final := rfl
      rw [hfin, final_sp_exact hend hcube j hj] at hv'
      have hdst := dist_sum_to_le (edge (reorder A).1) n j hj
      by_cases hro : reached_by_other (edge (reorder A).1) n j = true
      · rw [if_pos hro] at hv'
        simp only [Option.some.injEq] at hv'
        have hvle : v ≤ (n - 1) * (n - 1) := by
          rw [← hv']
          exact hdst
        have hcu : (n - 1) * v ≤ (n - 1) ^ 3 := by
          rw [← cube_eq]
          exact Nat.mul_le_mul_left _ hvle
        refine ⟨hv'.symm, hvle, hcu, ?_, ?_⟩
        · unfold GrB_TIMES_UINT64
          exact Nat.mod_eq_of_lt (by omega)
        · rw [sp_scaled_get hend hn hb _ j hj, if_pos hro, hv',
            Nat.mod_eq_of_lt (lt_of_le_of_lt hvle hsq), Nat.mod_eq_of_lt (by omega)]
      · rw [if_neg hro] at hv'
        cases hv'

theorem C20_no_wraparound_witness :
    (3 - 1) * (3 - 1) < 2 ^ 64 ∧
    (∀ k st, loop_head false 4 reverse_order (3 / 200) true
        (directed 3 [(0, 1), (1, 2)]) k = some st →
      (∀ j, j < 3 → (st.sp.get j).getD 0 ≤ (3 - 1) * (3 - 1)) ∧
      (k + 1 < 3 →
        ∃ st1, level_iteration (reverse_order (directed 3 [(0, 1), (1, 2)])).1
            (GrB_Vector_assign_UINT64 (GrB_Vector_new 3) 1)
            (3 / 200) 3 3 (k + 1) st = .ok st1 ∧
          ∀ j, j < 3 →
            st1.level_v.get j = some (k + 1) ∧ k + 1 ≤ 3 - 1 ∧
            ∑ b in Finset.range ((3 + 63) / 64), popcountll ((st1.next.get b j).getD 0) ≤ 3 ∧
            (∑ b in Finset.range ((3 + 63) / 64), popcountll ((st1.next.get b j).getD 0))
              * (k + 1) ≤ (3 - 1) * (3 - 1) ∧
            GrB_TIMES_UINT64
                (∑ b in Finset.range ((3 + 63) / 64), popcountll ((st1.next.get b j).getD 0))
                (k + 1)
              = (∑ b in Finset.range ((3 + 63) / 64), popcountll ((st1.next.get b j).getD 0))
                * (k + 1) ∧
            (st.sp.get j).getD 0 +
              (∑ b in Finset.range ((3 + 63) / 64), popcountll ((st1.next.get b j).getD 0))
                * (k + 1) ≤ (3 - 1) * (3 - 1) ∧
            GrB_PLUS_UINT64 ((st.sp.get j).getD 0)
                ((∑ b in Finset.range ((3 + 63) / 64),
                  popcountll ((st1.next.get b j).getD 0)) * (k + 1))
              = (st.sp.get j).getD 0 +
                (∑ b in Finset.range ((3 + 63) / 64), popcountll ((st1.next.get b j).getD 0))
                  * (k + 1))) ∧
    (∃ run, compute_ccv_run false 4 reverse_order (3 / 200) true
        (directed 3 [(0, 1), (1, 2)]) = .ok run ∧
      ∀ j, j < 3 →
        ∃ c, run.compsize_reduced.get j = some c ∧
          c = reached_by (edge (reverse_order (directed 3 [(0, 1), (1, 2)])).1) 3 j ∧
          1 ≤ c ∧ c ≤ 3 ∧
          GrB_MINUS_UINT64 c 1 = c - 1 ∧
          run.compsize_minus_one.get j = some (c - 1) ∧
          (c - 1) * (c - 1) ≤ (3 - 1) * (3 - 1) ∧
          GrB_TIMES_UINT64 (c - 1) (c - 1) = (c - 1) * (c - 1) ∧
          run.compsize_squared.get j = some ((c - 1) * (c - 1)) ∧
          run.n_minus_one.get j = some (3 - 1) ∧
          ∀ v, run.final.sp.get j = some v →
            v = dist_sum_to (edge (reverse_order (directed 3 [(0, 1), (1, 2)])).1) 3 j ∧
            v ≤ (3 - 1) * (3 - 1) ∧ (3 - 1) * v ≤ (3 - 1) ^ 3 ∧
            GrB_TIMES_UINT64 (3 - 1) v = (3 - 1) * v ∧
            run.sp_scaled.get j = some ((3 - 1) * v)) :=
  C20_no_wraparound false 4 reverse_order (3 / 200) true
    (directed 3 [(0, 1), (1, 2)]) 3 (by decide) rfl rfl (by decide)
    (by unfold IsReordering; decide)
/-! ### The direction flag -/

theorem level_iteration_forget_push (C : GrB_Matrix) (ones : GrB_Vector) (t1 t2 : ℚ)
    (mr sr level : Nat) (st : LoopState) :
    (level_iteration C ones t1 mr sr level st).map LoopState.forget_push
      = (level_iteration C ones t2 mr sr level st.forget_push).map LoopState.forget_push := by
  unfold level_iteration
  have hn : st.forget_push.next = st.next := rfl
  have hf : st.forget_push.frontier = st.frontier := rfl
  simp only [hn, hf]
  cases expansion st.next st.frontier C with
  | error e => rfl
  | ok E =>
    simp only
    by_cases h0 : GrB_Matrix_nvals (revisit_masking E st.seen) = 0
    · have hs : st.forget_push.seen = st.seen := rfl
      rw [hs, if_pos h0, if_pos h0]
      rfl
    · have hs : st.forget_push.seen = st.seen := rfl
      rw [hs, if_neg h0, if_neg h0]
      rfl

theorem level_iteration_agree (C : GrB_Matrix) (ones : GrB_Vector) (t1 t2 : ℚ)
    (mr sr level : Nat) (s t : LoopState) (hst : s.forget_push = t.forget_push) :
    (level_iteration C ones t1 mr sr level s).map LoopState.forget_push
      = (level_iteration C ones t2 mr sr level t).map LoopState.forget_push := by
  rw [level_iteration_forget_push C ones t1 t2 mr sr level s, hst,
    ← level_iteration_forget_push C ones t2 t2 mr sr level t]

theorem map_forget_ok {r : Except Failure LoopState} {s1 : LoopState}
    (h : r.map LoopState.forget_push = (Except.ok s1 : Except Failure LoopState).map
      LoopState.forget_push) :
    ∃ s2, r = .ok s2 ∧ s2.forget_push = s1.forget_push := by
  cases r with
  | error e => cases h
  | ok s2 =>
    refine ⟨s2, rfl, ?_⟩
    simpa [Except.map] using h

theorem map_forget_error {r : Except Failure LoopState} {e : Failure}
    (h : r.map LoopState.forget_push = (Except.error e : Except Failure LoopState).map
      LoopState.forget_push) :
    r = .error e := by
  cases r with
  | error f =>
    simp only [Except.map, Except.error.injEq] at h
    rw [h]
  | ok s2 => cases h

theorem traversal_agree (C : GrB_Matrix) (ones : GrB_Vector) (t1 t2 : ℚ) (mr sr : Nat) :
    ∀ (remaining level : Nat) (s t : LoopState), s.forget_push = t.forget_push →
      (traversal C ones t1 mr sr remaining level s).map LoopState.forget_push
        = (traversal C ones t2 mr sr remaining level t).map LoopState.forget_push := by
  intro remaining
  induction remaining with
  | zero =>
    intro level s t hst
    simp only [traversal, Except.map]
    rw [hst]
  | succ r ih =>
    intro level s t hst
    have h := level_iteration_agree C ones t1 t2 mr sr level s t hst
    rw [traversal, traversal]
    cases h1 : level_iteration C ones t1 mr sr level s with
    | error e =>
      rw [h1] at h
      rw [map_forget_error h.symm]
    | ok s1 =>
      rw [h1] at h
      obtain ⟨t1s, h2, hfor⟩ := map_forget_ok h.symm
      rw [h2]
      simp only
      have hbreak : s1.left_by_break = t1s.left_by_break :=
        (congrArg LoopState.left_by_break hfor).symm
      rw [← hbreak]
      by_cases hb : s1.left_by_break = true
      · rw [if_pos hb, if_pos hb]
        simp only [Except.map]
        rw [hfor]
      · rw [if_neg hb, if_neg hb]
        exact ih (level + 1) s1 t1s hfor.symm

theorem state_after_agree (C : GrB_Matrix) (ones : GrB_Vector) (t1 t2 : ℚ)
    (mr sr n : Nat) (s0 t0 : LoopState) (h0 : s0.forget_push = t0.forget_push) :
    ∀ k, (state_after C ones t1 mr sr n s0 k).map LoopState.forget_push
      = (state_after C ones t2 mr sr n t0 k).map LoopState.forget_push := by
  intro k
  induction k with
  | zero =>
    simp only [state_after, Option.map_some']
    rw [h0]
  | succ k ih =>
    rw [state_after, state_after]
    by_cases hk : k + 1 < n
    · rw [if_pos hk, if_pos hk]
      cases h1 : state_after C ones t1 mr sr n s0 k with
      | none =>
        rw [h1] at ih
        cases h2 : state_after C ones t2 mr sr n t0 k with
        | none => rfl
        | some t => rw [h2] at ih; cases ih
      | some s =>
        rw [h1] at ih
        cases h2 : state_after C ones t2 mr sr n t0 k with
        | none => rw [h2] at ih; cases ih
        | some t =>
          rw [h2] at ih
          simp only [Option.map_some', Option.some.injEq] at ih
          have h := level_iteration_agree C ones t1 t2 mr sr (k + 1) s t ih
          simp only
          cases h3 : level_iteration C ones t1 mr sr (k + 1) s with
          | error e =>
            rw [h3] at h
            rw [map_forget_error h.symm]
          | ok s1 =>
            rw [h3] at h
            obtain ⟨t1s, h4, hfor⟩ := map_forget_ok h.symm
            rw [h4]
            simp only
            have hbreak : s1.left_by_break = t1s.left_by_break :=
              (congrArg LoopState.left_by_break hfor).symm
            rw [← hbreak]
            by_cases hb : s1.left_by_break = true
            · rw [if_pos hb, if_pos hb]
            · rw [if_neg hb, if_neg hb]
              simp only [Option.map_some']
              rw [hfor]
    · rw [if_neg hk, if_neg hk]

theorem loop_entry_agree (ndebug : Bool) (g : Int) (p1 p2 : Bool) (A : GrB_Matrix) :
    (loop_entry ndebug g p1 A).map LoopState.forget_push
      = (loop_entry ndebug g p2 A).map LoopState.forget_push := by
  unfold loop_entry
  simp only
  cases input_check ndebug A with
  | error e => rfl
  | ok u =>
    simp only
    cases create_diagonal_bit_matrix ndebug g
        (GrB_Matrix_new (((A.nrows + 63) % 2 ^ 64) / 64) A.nrows) with
    | error e => rfl
    | ok F => rfl

theorem compute_ccv_run_agree (ndebug : Bool) (g : Int)
    (reorder : GrB_Matrix → GrB_Matrix × (Nat → Nat)) (t1 t2 : ℚ) (p1 p2 : Bool)
    (A : GrB_Matrix) :
    (compute_ccv_run ndebug g reorder t1 p1 A).map Run.forget_push
      = (compute_ccv_run ndebug g reorder t2 p2 A).map Run.forget_push := by
  unfold compute_ccv_run
  simp only
  have he := loop_entry_agree ndebug g p1 p2 A
  cases h1 : loop_entry ndebug g p1 A with
  | error e =>
    rw [h1] at he
    rw [map_forget_error he.symm]
  | ok s0 =>
    rw [h1] at he
    obtain ⟨t0, h2, hfor⟩ := map_forget_ok he.symm
    rw [h2]
    simp only
    have ht := traversal_agree (reorder A).1
      (GrB_Vector_assign_UINT64 (GrB_Vector_new A.nrows) 1) t1 t2 A.nrows A.nrows
      (A.nrows - 1) 1 s0 t0 hfor.symm
    cases h3 : traversal (reorder A).1 (GrB_Vector_assign_UINT64 (GrB_Vector_new A.nrows) 1)
        t1 A.nrows A.nrows (A.nrows - 1) 1 s0 with
    | error e =>
      rw [h3] at ht
      rw [map_forget_error ht.symm]
    | ok f1 =>
      rw [h3] at ht
      obtain ⟨f2, h4, hfor2⟩ := map_forget_ok ht.symm
      rw [h4]
      simp only [Except.map, Except.ok.injEq]
      have hseen : f1.seen = f2.seen := (congrArg LoopState.seen hfor2).symm
      have hsp : f1.sp = f2.sp := (congrArg LoopState.sp hfor2).symm
      unfold finalizer Run.forget_push
      simp only [hseen, hsp, hfor2]

theorem loop_head_agree (ndebug : Bool) (g : Int)
    (reorder : GrB_Matrix → GrB_Matrix × (Nat → Nat)) (t1 t2 : ℚ) (p1 p2 : Bool)
    (A : GrB_Matrix) (k : Nat) :
    (loop_head ndebug g reorder t1 p1 A k).map LoopState.forget_push
      = (loop_head ndebug g reorder t2 p2 A k).map LoopState.forget_push := by
  unfold loop_head
  have he := loop_entry_agree ndebug g p1 p2 A
  cases h1 : loop_entry ndebug g p1 A with
  | error e =>
    rw [h1] at he
    rw [map_forget_error he.symm]
  | ok s0 =>
    rw [h1] at he
    obtain ⟨t0, h2, hfor⟩ := map_forget_ok he.symm
    rw [h2]
    exact state_after_agree _ _ t1 t2 _ _ _ s0 t0 hfor.symm k

theorem compute_ccv_of_run (ndebug : Bool) (g : Int)
    (reorder : GrB_Matrix → GrB_Matrix × (Nat → Nat)) (threshold : ℚ) (push : Bool)
    (A : GrB_Matrix) :
    compute_ccv ndebug g reorder threshold push A =
      match (compute_ccv_run ndebug g reorder threshold push A).map Run.forget_push with
      | Except.error e => Except.error e
      | Except.ok run => Except.ok (run.ccv_result, run.mapping) := by
  unfold compute_ccv
  cases compute_ccv_run ndebug g reorder threshold push A with
  | error e => rfl
  | ok run => rfl

/-- C21: the direction flag and its threshold have no effect on what `compute_ccv` returns.
For every input, two runs that differ only in the threshold or in the initial value of
`push` return the same result vector and mapping (or fail alike); all their intermediate
values and their loop variables at every loop head are the same apart from the flag itself,
so every level runs the same expansion `frontier * A` on the same operands; and in every
iteration, whatever the flag, `next` comes from that one expansion. -/
theorem C21_direction_flag_has_no_effect (ndebug : Bool) (g : Int)
    (reorder : GrB_Matrix → GrB_Matrix × (Nat → Nat)) (t1 t2 : ℚ) (p1 p2 : Bool)
    (A : GrB_Matrix) :
    compute_ccv ndebug g reorder t1 p1 A = compute_ccv ndebug g reorder t2 p2 A ∧
    (compute_ccv_run ndebug g reorder t1 p1 A).map Run.forget_push
      = (compute_ccv_run ndebug g reorder t2 p2 A).map Run.forget_push ∧
    (∀ k, (loop_head ndebug g reorder t1 p1 A k).map LoopState.forget_push
      = (loop_head ndebug g reorder t2 p2 A k).map LoopState.forget_push) ∧
    (∀ k s t, loop_head ndebug g reorder t1 p1 A k = some s →
      loop_head ndebug g reorder t2 p2 A k = some t →
      s.frontier = t.frontier ∧ s.next = t.next ∧ s.seen = t.seen ∧ s.sp = t.sp ∧
      expansion s.next s.frontier (reorder A).1 = expansion t.next t.frontier (reorder A).1 ∧
      (level_iteration (reorder A).1 (GrB_Vector_assign_UINT64 (GrB_Vector_new A.nrows) 1)
          t1 A.nrows A.nrows (k + 1) s).map LoopState.forget_push
        = (level_iteration (reorder A).1 (GrB_Vector_assign_UINT64 (GrB_Vector_new A.nrows) 1)
          t2 A.nrows A.nrows (k + 1) t).map LoopState.forget_push) ∧
    (∀ (C : GrB_Matrix) (ones : GrB_Vector) (mr sr level : Nat) (p : Bool)
        (st st1 : LoopState),
      level_iteration C ones t1 mr sr level { st with push := p } = .ok st1 →
      ∃ E, expansion st.next st.frontier C = .ok E ∧
        st1.next = revisit_masking E st.seen) := by
  have hrun := compute_ccv_run_agree ndebug g reorder t1 t2 p1 p2 A
  refine ⟨?_, hrun, loop_head_agree ndebug g reorder t1 t2 p1 p2 A, ?_, ?_⟩
  · rw [compute_ccv_of_run, compute_ccv_of_run, hrun]
  · intro k s t hs ht
    have h := loop_head_agree ndebug g reorder t1 t2 p1 p2 A k
    rw [hs, ht] at h
    simp only [Option.map_some', Option.some.injEq] at h
    have hf : s.frontier = t.frontier := by
      have := congrArg LoopState.frontier h
      exact this
    have hn : s.next = t.next := by
      have := congrArg LoopState.next h
      exact this
    have hse : s.seen = t.seen := by
      have := congrArg LoopState.seen h
      exact this
    have hsp : s.sp = t.sp := by
      have := congrArg LoopState.sp h
      exact this
    refine ⟨hf, hn, hse, hsp, ?_, ?_⟩
    · rw [hf, hn]
    · exact level_iteration_agree _ _ t1 t2 _ _ _ s t h
  · intro C ones mr sr level p st st1 hit
    obtain ⟨E, hE, hnext, _⟩ := level_iteration_cases _ _ _ _ _ _ _ _ hit
    exact ⟨E, hE, hnext⟩

theorem C21_direction_flag_has_no_effect_witness :
    compute_ccv false 4 reverse_order (3 / 200) true (undirected 3 [(0, 1), (1, 2)])
      = compute_ccv false 4 reverse_order (1 / 2) false (undirected 3 [(0, 1), (1, 2)]) :=
  (C21_direction_flag_has_no_effect false 4 reverse_order (3 / 200) (1 / 2) true false
    (undirected 3 [(0, 1), (1, 2)])).1
/-! ### The increment of `Places::Type` -/

/-- C23: the operator `++` on `Places::Type` takes `Continent` to `Country` and `Country` to
`City` and returns the updated value; on `City` and on every value that is none of the three
enumerators it throws the runtime error and leaves the operand as it was; so from
`Continent` exactly two increments succeed, however many are attempted. -/
theorem C23_increment_of_place_type :
    Places.operator_increment Places.Continent = (Places.Country, .ok Places.Country) ∧
    Places.operator_increment Places.Country = (Places.City, .ok Places.City) ∧
    Places.operator_increment Places.City
      = (Places.City, .error "There is no next place.") ∧
    (∀ val, val ≠ Places.Continent → val ≠ Places.Country →
      Places.operator_increment val = (val, .error "There is no next place.")) ∧
    (∀ val r, (Places.operator_increment val).2 = .ok r →
      (Places.operator_increment val).1 = r ∧
      ((val = Places.Continent ∧ r = Places.Country) ∨
        (val = Places.Country ∧ r = Places.City))) ∧
    (∀ attempts, 2 ≤ attempts →
      Places.successful_increments attempts Places.Continent = 2) ∧
    Places.successful_increments 1 Places.Continent = 1 := by
  refine ⟨rfl, rfl, rfl, ?_, ?_, ?_, rfl⟩
  · intro val h0 h1
    unfold Places.operator_increment
    rw [if_neg h0, if_neg h1]
  · intro val r h
    unfold Places.operator_increment at h ⊢
    by_cases h0 : val = Places.Continent
    · rw [if_pos h0] at h ⊢
      simp only [Except.ok.injEq] at h
      exact ⟨h, Or.inl ⟨h0, h.symm⟩⟩
    · rw [if_neg h0] at h ⊢
      by_cases h1 : val = Places.Country
      · rw [if_pos h1] at h ⊢
        simp only [Except.ok.injEq] at h
        exact ⟨h, Or.inr ⟨h1, h.symm⟩⟩
      · rw [if_neg h1] at h
        cases h
  · intro attempts h
    obtain ⟨a, rfl⟩ : ∃ a, attempts = a + 2 := ⟨attempts - 2, by omega⟩
    cases a <;> rfl

theorem C23_increment_of_place_type_witness :
    Places.successful_increments 5 Places.Continent = 2 :=
  C23_increment_of_place_type.2.2.2.2.2.1 5 (by decide)
/-! ### The organization edge -/

theorem loop_body_ok {places : Places} {organizations organizations1 : Organizations}
    {i : Nat}
    (h : OrganizationIsLocatedInPlaceTranEdgeCollection.loop_body places organizations i
      = .ok organizations1) :
    ∃ id idx t, organizations.placeIndices[i]? = some id ∧ places.idToIndex id = some idx ∧
      places.types[idx]? = some t ∧ i < organizations.types.length ∧
      organizations1.size = organizations.size ∧
      organizations1.placeIndices = organizations.placeIndices.set i idx ∧
      organizations1.types = organizations.types.set i
        (if t = Places.Country then Organizations.Company else Organizations.University) := by
  unfold OrganizationIsLocatedInPlaceTranEdgeCollection.loop_body at h
  cases h1 : organizations.placeIndices[i]? with
  | none =>
    rw [h1] at h
    cases h
  | some id =>
    rw [h1] at h
    simp only at h
    cases h2 : places.idToIndex id with
    | none =>
      rw [h2] at h
      cases h
    | some idx =>
      rw [h2] at h
      simp only at h
      cases h3 : places.types[idx]? with
      | none =>
        rw [h3] at h
        cases h
      | some t =>
        rw [h3] at h
        simp only at h
        by_cases h4 : i < organizations.types.length
        · rw [if_pos h4] at h
          simp only [Except.ok.injEq] at h
          subst h
          exact ⟨id, idx, t, rfl, h2, h3, h4, rfl, rfl, rfl⟩
        · rw [if_neg h4] at h
          cases h

theorem importInv_step {places : Places} {organizations0 organizations organizations1 :
    Organizations} {i : Nat} (hinv : ImportInv places organizations0 i organizations)
    (h : OrganizationIsLocatedInPlaceTranEdgeCollection.loop_body places organizations i
      = .ok organizations1) :
    ImportInv places organizations0 (i + 1) organizations1 := by
  obtain ⟨id, idx, t, hid, hidx, ht, hlen, hsize, hpl, hty⟩ := loop_body_ok h
  have hilen : i < organizations.placeIndices.length := by
    obtain ⟨hlt, _⟩ := List.getElem?_eq_some.mp hid
    exact hlt
  refine ⟨by rw [hsize, hinv.size_eq], by rw [hpl, List.length_set, hinv.places_len],
    by rw [hty, List.length_set, hinv.types_len], ?_, ?_⟩
  · intro o ho
    by_cases hoi : o = i
    · subst hoi
      refine ⟨id, idx, t, ?_, hidx, ?_, ht, ?_⟩
      · rw [← hinv.rest o (le_refl o)]
        exact hid
      · rw [hpl]
        exact List.getElem?_set_self hilen
      · rw [hty]
        exact List.getElem?_set_self hlen
    · obtain ⟨id1, idx1, t1, h1, h2, h3, h4, h5⟩ := hinv.handled o (by omega)
      refine ⟨id1, idx1, t1, h1, h2, ?_, h4, ?_⟩
      · rw [hpl, List.getElem?_set_ne (fun hh => hoi hh.symm)]
        exact h3
      · rw [hty, List.getElem?_set_ne (fun hh => hoi hh.symm)]
        exact h5
  · intro o ho
    rw [hpl, List.getElem?_set_ne (by omega)]
    exact hinv.rest o (by omega)

theorem importInv_start (places : Places) (organizations : Organizations) :
    ImportInv places organizations 0 organizations :=
  ⟨rfl, rfl, rfl, fun o ho => absurd ho (Nat.not_lt_zero o), fun _ _ => rfl⟩

theorem import_loop_spec (places : Places) (organizations0 : Organizations) :
    ∀ (remaining i : Nat) (organizations res : Organizations),
      ImportInv places organizations0 i organizations →
      OrganizationIsLocatedInPlaceTranEdgeCollection.loop places remaining i organizations
        = .ok res →
      ImportInv places organizations0 (i + remaining) res ∧
        (0 < remaining → i + remaining < 2 ^ 31) := by
  intro remaining
  induction remaining with
  | zero =>
    intro i organizations res hinv h
    simp only [OrganizationIsLocatedInPlaceTranEdgeCollection.loop, Except.ok.injEq] at h
    subst h
    exact ⟨hinv, fun h0 => absurd h0 (Nat.lt_irrefl 0)⟩
  | succ r ih =>
    intro i organizations res hinv h
    rw [OrganizationIsLocatedInPlaceTranEdgeCollection.loop] at h
    cases hb : OrganizationIsLocatedInPlaceTranEdgeCollection.loop_body places organizations i
      with
    | error e =>
      rw [hb] at h
      cases h
    | ok organizations1 =>
      rw [hb] at h
      simp only at h
      by_cases hi : i + 1 < 2 ^ 31
      · rw [if_pos hi] at h
        obtain ⟨hres, hbound⟩ := ih (i + 1) organizations1 res (importInv_step hinv hb) h
        have hadd : i + 1 + r = i + (r + 1) := by omega
        rw [hadd] at hres hbound
        refine ⟨hres, fun _ => ?_⟩
        by_cases hr : 0 < r
        · exact hbound hr
        · have : r = 0 := by omega
          subst this
          exact hi
      · rw [if_neg hi] at h
        cases h

theorem import_loop_returns (places : Places) (organizations0 : Organizations) (N : Nat)
    (hN : N < 2 ^ 31) (hty : N ≤ organizations0.types.length)
    (hpre : ∀ o, o < N → ∃ id idx, organizations0.placeIndices[o]? = some id ∧
      places.idToIndex id = some idx ∧ idx < places.types.length) :
    ∀ (remaining i : Nat) (organizations : Organizations),
      ImportInv places organizations0 i organizations → i + remaining = N →
      ∃ res, OrganizationIsLocatedInPlaceTranEdgeCollection.loop places remaining i
        organizations = .ok res := by
  intro remaining
  induction remaining with
  | zero =>
    intro i organizations _ _
    exact ⟨organizations, rfl⟩
  | succ r ih =>
    intro i organizations hinv hi
    obtain ⟨id, idx, hid, hidx, hlt⟩ := hpre i (by omega)
    have hbody : ∃ organizations1,
        OrganizationIsLocatedInPlaceTranEdgeCollection.loop_body places organizations i
          = .ok organizations1 := by
      unfold OrganizationIsLocatedInPlaceTranEdgeCollection.loop_body
      rw [hinv.rest i (le_refl i), hid]
      simp only [hidx, List.getElem?_eq_getElem hlt]
      rw [if_pos (by rw [hinv.types_len]; omega)]
      exact ⟨_, rfl⟩
    obtain ⟨organizations1, hb⟩ := hbody
    rw [OrganizationIsLocatedInPlaceTranEdgeCollection.loop, hb]
    simp only
    rw [if_pos (by omega)]
    exact ih (i + 1) organizations1 (importInv_step hinv hb) (by omega)
theorem filter_range_col (n i j : Nat) (I J : Nat → Nat) (hJ : ∀ k, k < n → J k = k) :
    (List.range n).filter (fun k => decide (I k = i) && decide (J k = j))
      = if j < n ∧ I j = i then [j] else [] := by
  induction n with
  | zero => simp
  | succ n ih =>
    rw [List.range_succ, List.filter_append, ih (fun k hk => hJ k (by omega))]
    simp only [List.filter_cons, List.filter_nil, hJ n (by omega)]
    by_cases hj : j < n
    · have : n ≠ j := by omega
      simp [hj, this, show j < n + 1 by omega]
    · by_cases hjn : n = j
      · subst hjn
        by_cases hi : I n = i <;> simp [hi]
      · have : ¬ j < n + 1 := by omega
        simp [hj, hjn, this]

theorem nvals_new_BOOL (r c : Nat) : (GrB_Matrix_new_BOOL r c).nvals = 0 := by
  simp [GrB_Matrix_BOOL.nvals, GrB_Matrix_new_BOOL]

theorem build_BOOL_any (r c n : Nat) (I J : Nat → Nat) (hJ : ∀ k, k < n → J k = k) :
    (List.range n).any (fun k => decide ((GrB_Matrix_new_BOOL r c).nrows ≤ I k) ||
        decide ((GrB_Matrix_new_BOOL r c).ncols ≤ J k)) = false
      ↔ ∀ k, k < n → I k < r ∧ k < c := by
  rw [List.any_eq_false]
  constructor
  · intro h k hk
    have := h k (List.mem_range.mpr hk)
    simp only [GrB_Matrix_new_BOOL, hJ k hk, Bool.or_eq_true, decide_eq_true_eq, not_or,
      Nat.not_le] at this
    exact this
  · intro h k hk
    have hk' := List.mem_range.mp hk
    simp only [GrB_Matrix_new_BOOL, hJ k hk', Bool.or_eq_true, decide_eq_true_eq, not_or,
      Nat.not_le]
    exact h k hk'

theorem build_BOOL_columns (r c n : Nat) (I J : Nat → Nat) (X : Nat → Bool)
    (dup : Bool → Bool → Bool) (hJ : ∀ k, k < n → J k = k) (M : GrB_Matrix_BOOL)
    (h : GrB_Matrix_build_BOOL (GrB_Matrix_new_BOOL r c) I J X n dup = .ok M) :
    M.nrows = r ∧ M.ncols = c ∧ (∀ k, k < n → I k < r ∧ k < c) ∧
      ∀ i j, M.cell i j = if j < n ∧ I j = i then some (X j) else none := by
  unfold GrB_Matrix_build_BOOL at h
  rw [nvals_new_BOOL] at h
  simp only [ne_eq, not_true_eq_false, ↓reduceIte] at h
  by_cases hany : (List.range n).any (fun k =>
      decide ((GrB_Matrix_new_BOOL r c).nrows ≤ I k) ||
        decide ((GrB_Matrix_new_BOOL r c).ncols ≤ J k)) = true
  · rw [if_pos hany] at h
    cases h
  · rw [if_neg hany] at h
    simp only [Bool.not_eq_true] at hany
    simp only [Except.ok.injEq] at h
    subst h
    refine ⟨rfl, rfl, (build_BOOL_any r c n I J hJ).mp hany, ?_⟩
    intro i j
    simp only
    rw [filter_range_col n i j I J hJ]
    by_cases hc : j < n ∧ I j = i
    · rw [if_pos hc, if_pos hc]
      rfl
    · rw [if_neg hc, if_neg hc]
      rfl

theorem build_BOOL_returns (r c n : Nat) (I J : Nat → Nat) (X : Nat → Bool)
    (dup : Bool → Bool → Bool) (hJ : ∀ k, k < n → J k = k)
    (hin : ∀ k, k < n → I k < r ∧ k < c) :
    ∃ M, GrB_Matrix_build_BOOL (GrB_Matrix_new_BOOL r c) I J X n dup = .ok M := by
  unfold GrB_Matrix_build_BOOL
  rw [nvals_new_BOOL]
  simp only [ne_eq, not_true_eq_false, ↓reduceIte]
  rw [(build_BOOL_any r c n I J hJ).mpr hin]
  exact ⟨_, rfl⟩

/-- C22: when `importFile` of the organization edge has returned, for every organization `o`
the entry `placeIndices[o]` is `places.idToIndex` of the place ID loaded for `o`, `types[o]`
is `Company` exactly when `places.types` holds `Country` at that index and `University` in
every other case, and column `o` of the matrix (places by organizations) stores `true` in
the row of that index and nothing in any other row.  The call returns when there are fewer
than `2^31` organizations, `types` has been resized, and every loaded ID has an index inside
`places`.  The helper arrays are `k ↦ k` and `k ↦ true`. -/
theorem C22_organization_places (array_of_indices : Nat → Nat → Nat)
    (array_of_true : Nat → Nat → Bool) (places : Places) (organizations : Organizations)
    (hidx : ∀ k, k < organizations.size → array_of_indices organizations.size k = k)
    (htrue : ∀ k, k < organizations.size → array_of_true organizations.size k = true) :
    (∀ res, OrganizationIsLocatedInPlaceTranEdgeCollection.importFile array_of_indices
        array_of_true places organizations = .ok res →
      res.organizations.size = organizations.size ∧
      res.edgeNumber = organizations.size ∧
      res.matrix.nrows = places.size ∧ res.matrix.ncols = organizations.size ∧
      ∀ o, o < organizations.size → ∃ id idx t,
        organizations.placeIndices[o]? = some id ∧ places.idToIndex id = some idx ∧
        res.organizations.placeIndices[o]? = some idx ∧
        places.types[idx]? = some t ∧
        (res.organizations.types[o]? = some Organizations.Company ↔ t = Places.Country) ∧
        (res.organizations.types[o]? = some Organizations.University ↔
          t ≠ Places.Country) ∧
        idx < places.size ∧
        res.matrix.get idx o = some true ∧
        ∀ i, i ≠ idx → res.matrix.get i o = none) ∧
    (organizations.size < 2 ^ 31 → organizations.size ≤ organizations.types.length →
      (∀ o, o < organizations.size → ∃ id idx, organizations.placeIndices[o]? = some id ∧
        places.idToIndex id = some idx ∧ idx < places.types.length ∧ idx < places.size) →
      ∃ res, OrganizationIsLocatedInPlaceTranEdgeCollection.importFile array_of_indices
        array_of_true places organizations = .ok res) := by
  constructor
  · intro res h
    unfold OrganizationIsLocatedInPlaceTranEdgeCollection.importFile at h
    simp only at h
    cases hloop : OrganizationIsLocatedInPlaceTranEdgeCollection.loop places
        organizations.size 0 organizations with
    | error e =>
      rw [hloop] at h
      cases h
    | ok organizations1 =>
      rw [hloop] at h
      simp only at h
      have hinv := (import_loop_spec places organizations organizations.size 0 organizations
        organizations1 (importInv_start places organizations) hloop).1
      rw [Nat.zero_add] at hinv
      rw [hinv.size_eq] at h
      cases hbuild : GrB_Matrix_build_BOOL
          (GrB_Matrix_new_BOOL places.size organizations.size)
          (fun k => organizations1.placeIndices.getD k 0)
          (array_of_indices organizations.size) (array_of_true organizations.size)
          organizations.size GrB_LOR with
      | error f =>
        rw [hbuild] at h
        cases h
      | ok built =>
        rw [hbuild] at h
        simp only [Except.ok.injEq] at h
        subst h
        obtain ⟨hrows, hcols, hin, hcell⟩ :=
          build_BOOL_columns _ _ _ _ _ _ _ hidx built hbuild
        refine ⟨hinv.size_eq, rfl, hrows, hcols, ?_⟩
        intro o ho
        obtain ⟨id, idx, t, h1, h2, h3, h4, h5⟩ := hinv.handled o ho
        have hI : organizations1.placeIndices.getD o 0 = idx := by
          rw [List.getD_eq_getElem?_getD, h3]
          rfl
        have hidxlt : idx < places.size := by
          have := (hin o ho).1
          simp only [hI] at this
          exact this
        refine ⟨id, idx, t, h1, h2, h3, h4, ?_, ?_, hidxlt, ?_, ?_⟩
        · show organizations1.types[o]? = _ ↔ _
          rw [h5]
          by_cases ht : t = Places.Country
          · simp [ht]
          · simp [ht, Organizations.University, Organizations.Company]
        · show organizations1.types[o]? = _ ↔ _
          rw [h5]
          by_cases ht : t = Places.Country
          · simp [ht, Organizations.University, Organizations.Company]
          · simp [ht]
        · unfold GrB_Matrix_BOOL.get
          rw [hrows, hcols, if_pos ⟨hidxlt, ho⟩, hcell]
          simp only [hI]
          rw [if_pos ⟨ho, trivial⟩, htrue o ho]
        · intro i hi
          unfold GrB_Matrix_BOOL.get
          by_cases hr : i < built.nrows ∧ o < built.ncols
          · rw [if_pos hr, hcell]
            simp only [hI]
            rw [if_neg (fun hh => hi hh.2.symm)]
          · rw [if_neg hr]
  · intro hsize hty hpre
    unfold OrganizationIsLocatedInPlaceTranEdgeCollection.importFile
    simp only
    obtain ⟨organizations1, hloop⟩ := import_loop_returns places organizations
      organizations.size hsize hty
      (fun o ho => by
        obtain ⟨id, idx, h1, h2, h3, _⟩ := hpre o ho
        exact ⟨id, idx, h1, h2, h3⟩)
      organizations.size 0 organizations (importInv_start places organizations)
      (Nat.zero_add _)
    have hinv := (import_loop_spec places organizations organizations.size 0 organizations
      organizations1 (importInv_start places organizations) hloop).1
    rw [Nat.zero_add] at hinv
    rw [hloop]
    simp only
    rw [hinv.size_eq]
    obtain ⟨built, hbuild⟩ := build_BOOL_returns places.size organizations.size
      organizations.size (fun k => organizations1.placeIndices.getD k 0)
      (array_of_indices organizations.size) (array_of_true organizations.size) GrB_LOR hidx
      (fun k hk => by
        obtain ⟨id, idx, t, h1, h2, h3, _⟩ := hinv.handled k hk
        obtain ⟨id1, idx1, g1, g2, _, g4⟩ := hpre k hk
        rw [g1] at h1
        simp only [Option.some.injEq] at h1
        subst h1
        rw [g2] at h2
        simp only [Option.some.injEq] at h2
        subst h2
        refine ⟨?_, hk⟩
        show organizations1.placeIndices.getD k 0 < places.size
        rw [List.getD_eq_getElem?_getD, h3]
        exact g4)
    rw [hbuild]
    exact ⟨_, rfl⟩

theorem C22_organization_places_witness :
    ∃ res, OrganizationIsLocatedInPlaceTranEdgeCollection.importFile (fun _ k => k)
      (fun _ _ => true) three_places three_organizations = .ok res :=
  (C22_organization_places (fun _ k => k) (fun _ _ => true) three_places
    three_organizations (fun _ _ => rfl) (fun _ _ => rfl)).2 (by decide) (by decide)
    (by
      intro o ho
      have h3 : o < 3 := ho
      interval_cases o
      · exact ⟨11, 1, rfl, rfl, by decide, by decide⟩
      · exact ⟨12, 2, rfl, rfl, by decide, by decide⟩
      · exact ⟨10, 0, rfl, rfl, by decide, by decide⟩)
theorem three_organizations_import :
    ∃ res, OrganizationIsLocatedInPlaceTranEdgeCollection.importFile (fun _ k => k)
        (fun _ _ => true) three_places three_organizations = .ok res ∧
      res.organizations.placeIndices = [1, 2, 0] ∧
      res.organizations.types
        = [Organizations.Company, Organizations.University, Organizations.University] ∧
      res.matrix.get 1 0 = some true ∧ res.matrix.get 2 1 = some true ∧
      res.matrix.get 0 2 = some true ∧ res.matrix.get 0 0 = none :=
  ⟨_, rfl, rfl, rfl, rfl, rfl, rfl, rfl⟩

end CCV
